import Mathlib

/-! # unwrap: reading one wrapped PL/SQL object

A shallow embedding of `Unwrap` of `unwrap.go` and of the library readers it
is built from.  Bytes are natural numbers and a byte slice is a `List Nat`.  The
input `U.r` is the `bufio.Reader` that `NewUnwraper` makes, with its buffer of
4096 bytes, over a source that is an in-memory stream: a read of the source
delivers as many bytes as are asked for and available, and its only error is
`io.EOF`.

The library is the Go standard library, modelled call by call: `bufio.Reader`
(`fill`, `Read`, `ReadSlice`, `ReadBytes`), `io.LimitedReader`,
`base64.NewDecoder` with its newline filter and its method `Read` (a buffer of
1024 bytes, the leftover output, the sticky error), `Encoding.Decode`,
`io.ReadFull`, `io.Copy`, `bytes.TrimSpace`, `bytes.HasSuffix`, `bytes.SplitN`
and `strconv.ParseInt`.  The table `charMap`
is filled by a generated file that is not part of the sources; it is a
parameter of `Unwrap`.

A loop of the program is a function with a fuel argument; a function that runs
out of fuel returns `none`, which stands for a loop that does not return.
-/

namespace PlsqlUnwrap

/-! ## Errors and results -/

/-- Error values that `Unwrap` can see or return. -/
inductive Error where
  /-- The value io.EOF. -/
  | EOF
  /-- The value io.ErrUnexpectedEOF. -/
  | ErrUnexpectedEOF
  /-- A base64.CorruptInputError with its offset. -/
  | CorruptInputError (off : Nat)
  /-- The value io.ErrShortWrite. -/
  | ErrShortWrite
  /-- An error made by the sink. -/
  | SinkError (code : Nat)
  /-- The result of errors.Wrap(err, "read hash"). -/
  | ReadHash (cause : Error)
  /-- The value bufio.ErrBufferFull. -/
  | ErrBufferFull
  /-- The result of errors.Wrapf(err, "read %d. line", lineno). -/
  | ReadLine (lineno : Nat) (cause : Error)
  deriving DecidableEq, Repr

/-- Errors of strconv.ParseInt. -/
inductive NumError where
  | ErrSyntax
  | ErrRange
  deriving DecidableEq, Repr

/-- How a call of `Unwrap` ends. -/
inductive Outcome where
  /-- The call returns `typ, err`. -/
  | ret (typ : Nat) (err : Option Error)
  /-- The call stops with a run-time error: index out of range. -/
  | crash
  /-- The call does not return within its fuel. -/
  | hang
  deriving DecidableEq, Repr

/-- An io.Writer: `Write` gives the new state, the count of bytes written and the error. -/
structure Writer (σ : Type) where
  Write : σ → List Nat → σ × Nat × Option Error

/-- The sink that keeps every byte written to it. -/
def bufferWriter : Writer (List Nat) where
  Write := fun w p => (w ++ p, p.length, none)

/-! ## Package bytes -/

/-- The table asciiSpace of package bytes: tab, LF, VT, FF, CR, space. -/
def asciiSpace (c : Nat) : Bool :=
  c == 9 || c == 10 || c == 11 || c == 12 || c == 13 || c == 32

/-- The white-space runes (unicode.IsSpace) above U+007F, in UTF-8: U+0085,
U+00A0, U+1680, U+2000 to U+200A, U+2028, U+2029, U+202F, U+205F, U+3000. -/
def spaceRunes : List (List Nat) :=
  [[0xC2, 0x85], [0xC2, 0xA0], [0xE1, 0x9A, 0x80],
   [0xE2, 0x80, 0x80], [0xE2, 0x80, 0x81], [0xE2, 0x80, 0x82], [0xE2, 0x80, 0x83],
   [0xE2, 0x80, 0x84], [0xE2, 0x80, 0x85], [0xE2, 0x80, 0x86], [0xE2, 0x80, 0x87],
   [0xE2, 0x80, 0x88], [0xE2, 0x80, 0x89], [0xE2, 0x80, 0x8A],
   [0xE2, 0x80, 0xA8], [0xE2, 0x80, 0xA9], [0xE2, 0x80, 0xAF],
   [0xE2, 0x81, 0x9F], [0xE3, 0x80, 0x80]]

/-- Width in bytes of the white-space rune at the head of the list, 0 when the
list does not start with one (utf8.DecodeRune followed by unicode.IsSpace). -/
def spaceWidth (s : List Nat) : Nat :=
  match s with
  | [] => 0
  | c :: _ =>
    if asciiSpace c then 1
    else match spaceRunes.find? (fun r => r.isPrefixOf s) with
      | some r => r.length
      | none => 0

/-- Width of the white-space rune that ends a slice, given the slice reversed
(utf8.DecodeLastRune followed by unicode.IsSpace). -/
def spaceWidthRev (s : List Nat) : Nat :=
  match s with
  | [] => 0
  | c :: _ =>
    if asciiSpace c then 1
    else match spaceRunes.find? (fun r => r.reverse.isPrefixOf s) with
      | some r => r.length
      | none => 0

/-- Drop white-space runes from the head while there is one. -/
def trimLeftLoop : Nat → List Nat → List Nat
  | 0, s => s
  | fuel + 1, s =>
    match spaceWidth s with
    | 0 => s
    | k + 1 => trimLeftLoop fuel (s.drop (k + 1))

/-- Drop white-space runes from the head of a reversed slice. -/
def trimRightLoop : Nat → List Nat → List Nat
  | 0, s => s
  | fuel + 1, s =>
    match spaceWidthRev s with
    | 0 => s
    | k + 1 => trimRightLoop fuel (s.drop (k + 1))

/-- The function bytes.TrimSpace: the slice without its leading and trailing white space. -/
def TrimSpace (s : List Nat) : List Nat :=
  let t := trimLeftLoop s.length s
  (trimRightLoop t.length t.reverse).reverse

/-- The function bytes.HasSuffix. -/
def HasSuffix (s suffix : List Nat) : Bool :=
  suffix.reverse.isPrefixOf s.reverse

/-- The bytes of the literal " wrapped". -/
def wrappedSuffix : List Nat := [32, 119, 114, 97, 112, 112, 101, 100]

/-- The call bytes.SplitN(s, sep, 2) for a one-byte separator: the slice cut at
the first separator, or the slice alone when it has none. -/
def SplitN2 (sep : Nat) : List Nat → List (List Nat)
  | [] => [[]]
  | c :: cs =>
    if c = sep then [[], cs]
    else match SplitN2 sep cs with
      | [a, b] => [c :: a, b]
      | _ => [c :: cs]

/-! ## Package strconv -/

/-- Value of a base 16 digit, of either case. -/
def hexDigit (c : Nat) : Option Nat :=
  if 48 ≤ c ∧ c ≤ 57 then some (c - 48)
  else if 97 ≤ c ∧ c ≤ 102 then some (c - 87)
  else if 65 ≤ c ∧ c ≤ 70 then some (c - 55)
  else none

/-- Digit loop of strconv.ParseUint(s, 16, 32): it stops at the first byte that
is no digit and at the first value above 1<<32 - 1. -/
def parseUintLoop : Nat → List Nat → Nat × Option NumError
  | n, [] => (n, none)
  | n, c :: cs =>
    match hexDigit c with
    | none => (0, some .ErrSyntax)
    | some d =>
      if n * 16 + d > 4294967295 then (4294967295, some .ErrRange)
      else parseUintLoop (n * 16 + d) cs

/-- The call strconv.ParseUint(s, 16, 32). -/
def ParseUint (s : List Nat) : Nat × Option NumError :=
  match s with
  | [] => (0, some .ErrSyntax)
  | _ => parseUintLoop 0 s

/-- The call strconv.ParseInt(s, 16, 32): value and error. -/
def ParseInt (s : List Nat) : Int × Option NumError :=
  match s with
  | [] => (0, some .ErrSyntax)
  | c :: cs =>
    let neg := decide (c = 45)
    let s1 := if c = 43 ∨ c = 45 then cs else c :: cs
    match ParseUint s1 with
    | (_, some .ErrSyntax) => (0, some .ErrSyntax)
    | (un, _) =>
      if !neg ∧ un ≥ 2147483648 then (2147483647, some .ErrRange)
      else if neg ∧ un > 2147483648 then (-2147483648, some .ErrRange)
      else (if neg then -(un : Int) else (un : Int), none)

/-! ## Package bufio -/

/-- A bufio.Reader with the default buffer of 4096 bytes over an in-memory
source: `buf` is b.buf[b.r:b.w], the bytes read from the source and not yet
delivered, and `rd` is what the source still holds.  The field b.err is nil
between two calls: a call that sets it takes it before it returns. -/
structure Reader where
  buf : List Nat
  rd : List Nat
  deriving DecidableEq, Repr

/-- The call bufio.NewReader(r) for the source that holds the bytes `rd`. -/
def NewReader (rd : List Nat) : Reader := { buf := [], rd := rd }

/-- The bytes that a reader has still to deliver: its buffer, then its source. -/
def Reader.stream (b : Reader) : List Nat := b.buf ++ b.rd

/-- The method Read of the source for a buffer of `lenp` bytes. The source is an
in-memory stream (a bytes.Reader, a strings.Reader, a file that is all there):
it delivers all the bytes asked for that it holds, and it gives io.EOF, with no
byte, when it holds none. -/
def srcRead (rd : List Nat) (lenp : Nat) : List Nat × Option Error :=
  match rd with
  | [] => ([], some .EOF)
  | _ => (rd.take lenp, none)

/-- The method bufio.Reader.fill, called with a buffer that is not full: the
buffered bytes are moved to the start of the buffer and the source is read once
into the free part (a second read is made only after a read of no byte without
error, which this source does not give).  The reader and the value of b.err. -/
def Reader.fill (b : Reader) : Reader × Option Error :=
  let (p, err) := srcRead b.rd (4096 - b.buf.length)
  ({ buf := b.buf ++ p, rd := b.rd.drop p.length }, err)

/-- The method bufio.Reader.Read for a buffer of `lenp` bytes. -/
def Reader.Read (b : Reader) (lenp : Nat) : (List Nat × Option Error) × Reader :=
  if lenp = 0 then (([], none), b)
  else
    match b.buf with
    | [] =>
      if lenp ≥ 4096 then
        let (p, err) := srcRead b.rd lenp
        ((p, err), { b with rd := b.rd.drop p.length })
      else
        let (q, err) := srcRead b.rd 4096
        match q with
        | [] => (([], err), b)
        | _ :: _ => ((q.take lenp, none), { buf := q.drop lenp, rd := b.rd.drop q.length })
    | _ :: _ => ((b.buf.take lenp, none), { b with buf := b.buf.drop lenp })

/-- The slice up to the first newline, with it, and the slice after it; `none`
when the slice holds no newline (bytes.IndexByte and the two slices at its
result). -/
def cutLine : List Nat → Option (List Nat × List Nat)
  | [] => none
  | c :: cs =>
    if c = 10 then some ([10], cs)
    else match cutLine cs with
      | none => none
      | some (line, rest) => some (c :: line, rest)

/-- The method bufio.Reader.ReadSlice(10), with the value of b.err as a
variable of its loop: the slice, the error and the reader. -/
def Reader.ReadSlice : Nat → Reader → Option Error →
    Option ((List Nat × Option Error) × Reader)
  | 0, _, _ => none
  | fuel + 1, b, berr =>
    match cutLine b.buf with
    | some (line, buf) => some ((line, none), { b with buf := buf })
    | none =>
      if berr ≠ none then some ((b.buf, berr), { b with buf := [] })
      else if b.buf.length ≥ 4096 then
        some ((b.buf, some .ErrBufferFull), { b with buf := [] })
      else
        let (b, berr) := b.fill
        Reader.ReadSlice fuel b berr

/-- The loop of bufio.Reader.collectFragments(10), which calls ReadSlice while
it gives bufio.ErrBufferFull, and the copy of the fragments that ReadBytes
makes: the bytes read, the error and the reader. -/
def Reader.collect : Nat → Reader → List Nat → Option ((List Nat × Option Error) × Reader)
  | 0, _, _ => none
  | fuel + 1, b, full =>
    match b.ReadSlice (b.rd.length + 2) none with
    | none => none
    | some ((frag, e), b) =>
      if e = some .ErrBufferFull then Reader.collect fuel b (full ++ frag)
      else some ((full ++ frag, e), b)

/-- The call U.r.ReadBytes(10): the bytes up to the first newline, with it, or
all the bytes left and io.EOF when there is no newline. -/
def Reader.ReadBytes (b : Reader) : Option ((List Nat × Option Error) × Reader) :=
  Reader.collect (b.stream.length + 1) b []

/-! ## The header loop -/

/-- How the first loop of `Unwrap` ends. -/
inductive Header where
  /-- ReadBytes gave io.EOF: `return typ, io.EOF`. -/
  | eof (typ : Nat) (r : Reader)
  /-- ReadBytes gave another error: `return typ, errors.Wrapf(err, ...)`. -/
  | fail (typ : Nat) (err : Error) (r : Reader)
  /-- An index was out of range. -/
  | crash
  /-- The loop was left by `break`. -/
  | brk (typ lineno : Nat) (started : Bool) (wrappedLength : Int) (r : Reader)
  /-- The fuel ran out. -/
  | spin
  deriving DecidableEq, Repr

/-- The first loop of `Unwrap` (lines 99 to 144), from the reader `U.r` and the
variables `typ`, `lineno`, `started`. -/
def headerLoop : Nat → Reader → Nat → Nat → Bool → Header
  | 0, _, _, _, _ => .spin
  | fuel + 1, r, typ, lineno, started =>
    match r.ReadBytes with
    | none => .spin
    | some ((line, err), r) =>
      let lineno := lineno + 1
      match err with
      | some e => if e = .EOF then .eof typ r else .fail typ (.ReadLine lineno e) r
      | none =>
        match line.getLast? with
        | none => .crash
        | some c =>
          let line := if c = 10 then line.dropLast else line
          if !started then
            if HasSuffix (TrimSpace line) wrappedSuffix then headerLoop fuel r typ 1 true
            else headerLoop fuel r typ lineno false
          else if lineno < 19 then headerLoop fuel r typ lineno started
          else if lineno = 19 then
            match TrimSpace line with
            | [] => .crash
            | t :: _ => headerLoop fuel r t lineno started
          else if lineno = 20 then
            match SplitN2 32 line with
            | [_, p1] => .brk typ lineno started (ParseInt p1).1 r
            | _ => .crash
          else .brk typ lineno started 0 r

/-! ## Package encoding/base64 -/

/-- The decode map of base64.StdEncoding; `none` is the entry 0xFF. -/
def decodeMap (c : Nat) : Option Nat :=
  if 65 ≤ c ∧ c ≤ 90 then some (c - 65)
  else if 97 ≤ c ∧ c ≤ 122 then some (c - 71)
  else if 48 ≤ c ∧ c ≤ 57 then some (c + 4)
  else if c = 43 then some 62
  else if c = 47 then some 63
  else none

/-- The bytes that a quantum of the 6-bit values `d0 d1 d2 d3` stands for. -/
def quantumBytes (d0 d1 d2 d3 : Nat) : List Nat :=
  let val := d0 * 262144 + d1 * 4096 + d2 * 64 + d3
  [val / 65536 % 256, val / 256 % 256, val % 256]

/-- The method StdEncoding.Decode on a source without CR and LF (the stream
decoder reads through a filter that removes them): the bytes decoded and the
error.  `si` is the offset of the head of the list in the source. -/
def Decode : Nat → List Nat → List Nat × Option Error
  | _, [] => ([], none)
  | si, [_] => ([], some (.CorruptInputError si))
  | si, [c0, c1] =>
    match decodeMap c0, decodeMap c1 with
    | none, _ => ([], some (.CorruptInputError si))
    | some _, none => ([], some (.CorruptInputError (si + 1)))
    | some _, some _ => ([], some (.CorruptInputError si))
  | si, [c0, c1, c2] =>
    match decodeMap c0, decodeMap c1, decodeMap c2 with
    | none, _, _ => ([], some (.CorruptInputError si))
    | some _, none, _ => ([], some (.CorruptInputError (si + 1)))
    | some _, some _, none =>
      if c2 = 61 then ([], some (.CorruptInputError (si + 3)))
      else ([], some (.CorruptInputError (si + 2)))
    | some _, some _, some _ => ([], some (.CorruptInputError si))
  | si, c0 :: c1 :: c2 :: c3 :: rest =>
    match decodeMap c0, decodeMap c1, decodeMap c2, decodeMap c3 with
    | none, _, _, _ => ([], some (.CorruptInputError si))
    | some _, none, _, _ => ([], some (.CorruptInputError (si + 1)))
    | some d0, some d1, none, _ =>
      if c2 = 61 then
        if c3 = 61 then
          ((quantumBytes d0 d1 0 0).take 1,
            if rest = [] then none else some (.CorruptInputError (si + 4)))
        else ([], some (.CorruptInputError (si + 2)))
      else ([], some (.CorruptInputError (si + 2)))
    | some d0, some d1, some d2, none =>
      if c3 = 61 then
        ((quantumBytes d0 d1 d2 0).take 2,
          if rest = [] then none else some (.CorruptInputError (si + 4)))
      else ([], some (.CorruptInputError (si + 3)))
    | some d0, some d1, some d2, some d3 =>
      let (dec, err) := Decode (si + 4) rest
      (quantumBytes d0 d1 d2 d3 ++ dec, err)

/-! ## The readers -/

/-- The io.LimitedReader over the reader `U.r`. -/
structure LimitedReader where
  R : Reader
  N : Int
  deriving DecidableEq, Repr

/-- The method io.LimitedReader.Read for a buffer of `lenp` bytes. -/
def LimitedReader.Read (l : LimitedReader) (lenp : Nat) :
    (List Nat × Option Error) × LimitedReader :=
  if l.N ≤ 0 then (([], some .EOF), l)
  else
    let lenp := if (lenp : Int) > l.N then l.N.toNat else lenp
    let ((p, err), R) := l.R.Read lenp
    ((p, err), { R := R, N := l.N - p.length })

/-- Whether a byte is kept by the newline filter. -/
def notNewline (c : Nat) : Bool := c != 13 && c != 10

/-- The method newlineFilteringReader.Read: a read without its CR and LF, made
again while a read brings nothing else. -/
def newlineFilteringRead : Nat → LimitedReader → Nat →
    Option ((List Nat × Option Error) × LimitedReader)
  | 0, _, _ => none
  | fuel + 1, l, lenp =>
    match l.Read lenp with
    | (([], err), l) => some (([], err), l)
    | ((c :: p, err), l) =>
      match (c :: p).filter notNewline with
      | [] => newlineFilteringRead fuel l lenp
      | q => some ((q, err), l)

/-- The stream decoder made by base64.NewDecoder; `buf` is d.buf[:d.nbuf]. -/
structure decoder where
  err : Option Error
  readErr : Option Error
  r : LimitedReader
  buf : List Nat
  out : List Nat
  deriving DecidableEq, Repr

/-- The call base64.NewDecoder(base64.StdEncoding, r). -/
def NewDecoder (r : LimitedReader) : decoder :=
  { err := none, readErr := none, r := r, buf := [], out := [] }

/-- The refill loop of decoder.Read. -/
def decoder.refill : Nat → decoder → Nat → Option decoder
  | 0, d, _ => if d.buf.length < 4 ∧ d.readErr = none then none else some d
  | fuel + 1, d, lenp =>
    if d.buf.length < 4 ∧ d.readErr = none then
      let nn := lenp / 3 * 4
      let nn := if nn < 4 then 4 else nn
      let nn := if nn > 1024 then 1024 else nn
      match newlineFilteringRead (d.r.R.stream.length + 1) d.r (nn - d.buf.length) with
      | none => none
      | some ((p, e), r) =>
        decoder.refill fuel { d with r := r, readErr := e, buf := d.buf ++ p } lenp
    else some d

/-- The method decoder.Read for a buffer of `lenp` bytes. -/
def decoder.Read (d : decoder) (lenp : Nat) : Option ((List Nat × Option Error) × decoder) :=
  if d.out.length > 0 then
    some ((d.out.take lenp, none), { d with out := d.out.drop lenp })
  else if d.err ≠ none then some (([], d.err), d)
  else
    match d.refill 4 lenp with
    | none => none
    | some d =>
      if d.buf.length < 4 then
        let e := if d.readErr = some .EOF ∧ d.buf.length > 0 then some .ErrUnexpectedEOF
          else d.readErr
        some (([], e), { d with err := e })
      else
        let nr := d.buf.length / 4 * 4
        let nw := d.buf.length / 4 * 3
        let (dec, e) := Decode 0 (d.buf.take nr)
        if nw > lenp then
          some ((dec.take lenp, e),
            { d with err := e, out := dec.drop lenp, buf := d.buf.drop nr })
        else some ((dec, e), { d with err := e, buf := d.buf.drop nr })

/-- The loop of io.ReadAtLeast behind io.ReadFull(b64r, hsh[:]): the bytes read
so far, the last error and the decoder. -/
def readFullLoop : Nat → decoder → List Nat → Option Error →
    Option ((List Nat × Option Error) × decoder)
  | 0, d, hsh, err => if hsh.length < 20 ∧ err = none then none else some ((hsh, err), d)
  | fuel + 1, d, hsh, err =>
    if hsh.length < 20 ∧ err = none then
      match d.Read (20 - hsh.length) with
      | none => none
      | some ((p, e), d) => readFullLoop fuel d (hsh ++ p) e
    else some ((hsh, err), d)

/-- The call io.ReadFull(b64r, hsh[:]). -/
def ReadFull (d : decoder) : Option ((List Nat × Option Error) × decoder) :=
  match readFullLoop 20 d [] none with
  | none => none
  | some ((hsh, err), d) =>
    if hsh.length ≥ 20 then some ((hsh, none), d)
    else if hsh.length > 0 ∧ err = some .EOF then some ((hsh, some .ErrUnexpectedEOF), d)
    else some ((hsh, err), d)

/-- The call io.Copy(w, b64r) with its buffer of 32 * 1024 bytes, for a sink
that is no io.ReaderFrom. -/
def Copy {σ : Type} (W : Writer σ) : Nat → decoder → σ → Option (Option Error × σ × decoder)
  | 0, _, _ => none
  | fuel + 1, d, w =>
    match d.Read 32768 with
    | none => none
    | some ((p, er), d) =>
      match p with
      | [] =>
        if er ≠ none then some (if er = some .EOF then none else er, w, d)
        else Copy W fuel d w
      | _ :: _ =>
        let (w, nw, ew) := W.Write w p
        let ew := if p.length < nw ∧ ew = none then some (.SinkError 0) else ew
        if ew ≠ none then some (ew, w, d)
        else if p.length ≠ nw then some (some .ErrShortWrite, w, d)
        else if er ≠ none then some (if er = some .EOF then none else er, w, d)
        else Copy W fuel d w

/-- The last loop of `Unwrap` (lines 166 to 182); `lenb` is len(b). -/
def decodeLoop {σ : Type} (charMap : Nat → Nat) (W : Writer σ) :
    Nat → decoder → σ → Nat → Option (Option Error × σ × decoder)
  | 0, _, _, _ => none
  | fuel + 1, d, w, lenb =>
    match d.Read lenb with
    | none => none
    | some ((p, err), d) =>
      let b := p.map charMap
      let (w, _, wErr) := W.Write w b
      if wErr ≠ none ∧ err = none then some (wErr, w, d)
      else if err ≠ none then some (if err = some .EOF then none else err, w, d)
      else decodeLoop charMap W fuel d w b.length

/-! ## Unwrap -/

/-- State after a call of `Unwrap`: outcome, sink, reader. -/
structure Result (σ : Type) where
  out : Outcome
  w : σ
  r : Reader
  deriving DecidableEq, Repr

/-- The method `unwrapper.Unwrap`: for the table `charMap`, the flag
`U.noDecode`, the sink `w` and the reader `U.r`. -/
def Unwrap {σ : Type} (charMap : Nat → Nat) (noDecode : Bool) (W : Writer σ) (w : σ)
    (r : Reader) : Result σ :=
  match headerLoop (r.stream.length + 1) r 0 0 false with
  | .spin => ⟨.hang, w, r⟩
  | .crash => ⟨.crash, w, r⟩
  | .eof typ r => ⟨.ret typ (some .EOF), w, r⟩
  | .fail typ err r => ⟨.ret typ (some err), w, r⟩
  | .brk typ lineno started wrappedLength r =>
    if !(started && lineno == 20) then ⟨.ret typ (some .EOF), w, r⟩
    else
      match ReadFull (NewDecoder { R := r, N := wrappedLength }) with
      | none => ⟨.hang, w, r⟩
      | some ((_, some err), d) => ⟨.ret typ (some (.ReadHash err)), w, d.r.R⟩
      | some ((_, none), d) =>
        if noDecode then
          match Copy W (r.stream.length + 1) d w with
          | none => ⟨.hang, w, r⟩
          | some (err, w, d) => ⟨.ret typ err, w, d.r.R⟩
        else
          match decodeLoop charMap W (r.stream.length + 1) d w 4096 with
          | none => ⟨.hang, w, r⟩
          | some (err, w, d) => ⟨.ret typ err, w, d.r.R⟩

/-! ## The format of the input -/

/-- The bytes of a list of lines, each followed by its newline. -/
def joinLines : List (List Nat) → List Nat
  | [] => []
  | l :: ls => l ++ 10 :: joinLines ls

/-- Whether a line, taken without its newline, is the marker line. -/
def isMarker (l : List Nat) : Bool := HasSuffix (TrimSpace l) wrappedSuffix

/-- The lines of an input up to the end of line 20: the lines before the
marker, the marker line, the lines 2 to 18, the type line and the two parts of
the length line around its first space. -/
structure HeaderLines where
  pre : List (List Nat)
  marker : List Nat
  preamble : List (List Nat)
  typeLine : List Nat
  field1 : List Nat
  field2 : List Nat
  deriving DecidableEq, Repr

/-- The lines of a header, in order. -/
def HeaderLines.lines (h : HeaderLines) : List (List Nat) :=
  h.pre ++ h.marker :: (h.preamble ++ [h.typeLine, h.field1 ++ 32 :: h.field2])

/-- The bytes of a header. -/
def HeaderLines.bytes (h : HeaderLines) : List Nat := joinLines h.lines

/-- A complete header: no line holds a newline, no line before the marker is a
marker, the marker is one, the preamble has 17 lines, the type line is not
blank and the first part of the length line holds no space. -/
def HeaderLines.Complete (h : HeaderLines) : Prop :=
  (∀ l ∈ h.lines, 10 ∉ l) ∧ (∀ l ∈ h.pre, isMarker l = false) ∧ isMarker h.marker = true ∧
    h.preamble.length = 17 ∧ TrimSpace h.typeLine ≠ [] ∧ 32 ∉ h.field1

instance (h : HeaderLines) : Decidable h.Complete := by
  unfold HeaderLines.Complete; infer_instance

/-- The type code of a header: the first byte of the trimmed type line. -/
def HeaderLines.typ (h : HeaderLines) : Nat := (TrimSpace h.typeLine).headD 0

/-- The payload length that a header declares. -/
def HeaderLines.wrappedLength (h : HeaderLines) : Int := (ParseInt h.field2).1

/-- The bytes that `Unwrap` writes for the source bytes `s`. -/
def emit (charMap : Nat → Nat) (noDecode : Bool) (s : List Nat) : List Nat :=
  if noDecode then s else s.map charMap

/-! ## Quantities of the readers that the proofs use -/

/-- The reader after a call of ReadBytes. -/
def Reader.next (b : Reader) : Reader :=
  match b.ReadBytes with
  | some (_, b') => b'
  | none => b

/-- The reader after `k` calls of ReadBytes. -/
def Reader.skip : Nat → Reader → Reader
  | 0, b => b
  | k + 1, b => Reader.skip k b.next

/-- The reader when the lines of a header, and the lines before it, have been
read from the reader `b`. -/
def HeaderLines.after (h : HeaderLines) (b : Reader) : Reader := b.skip (h.pre.length + 20)

/-- What `Unwrap` does once the header loop has left line 20 by `break` with
the type `typ`, the length `n` and the reader `r`: the lines 149 to 184. -/
def unwrapBody {σ : Type} (charMap : Nat → Nat) (noDecode : Bool) (W : Writer σ) (w : σ)
    (typ : Nat) (n : Int) (r : Reader) : Result σ :=
  match ReadFull (NewDecoder { R := r, N := n }) with
  | none => ⟨.hang, w, r⟩
  | some ((_, some err), d) => ⟨.ret typ (some (.ReadHash err)), w, d.r.R⟩
  | some ((_, none), d) =>
    if noDecode then
      match Copy W (r.stream.length + 1) d w with
      | none => ⟨.hang, w, r⟩
      | some (err, w, d) => ⟨.ret typ err, w, d.r.R⟩
    else
      match decodeLoop charMap W (r.stream.length + 1) d w 4096 with
      | none => ⟨.hang, w, r⟩
      | some (err, w, d) => ⟨.ret typ err, w, d.r.R⟩

/-- The bytes that a limited reader can still deliver. -/
def LimitedReader.avail (l : LimitedReader) : List Nat := l.R.stream.take l.N.toNat

/-- The reader `l` is the reader `l0` after it has delivered some bytes `p`. -/
def LimitedReader.Reach (l0 l : LimitedReader) : Prop :=
  ∃ p, l0.R.stream = p ++ l.R.stream ∧ l.N = l0.N - p.length ∧ p.length ≤ l0.N.toNat

/-- The base64 text that a decoder has still to decode: its buffer and the
bytes not read yet, without their CR and LF. -/
def decoder.pending (d : decoder) : List Nat := d.buf ++ d.r.avail.filter notNewline

/-- What holds of every decoder that `Unwrap` reaches: the read error is nil or
io.EOF, and once io.EOF was seen the limited reader has nothing left. -/
def decoder.Inv (d : decoder) : Prop :=
  (d.readErr = none ∨ d.readErr = some .EOF) ∧ (d.readErr = some .EOF → d.r.avail = []) ∧
    (d.err = some .EOF → d.r.avail = [])

/-- A bound on the reads that a decoder can still serve. -/
def decoder.size (d : decoder) : Nat :=
  d.out.length + d.buf.length + d.r.R.stream.length

/-- The error that ends a base64 stream whose last quantum is cut down to the bytes `t`. -/
def endErr (t : List Nat) : Error := if t = [] then .EOF else .ErrUnexpectedEOF

/-- The decoder `d` has still to deliver the bytes `z`, after which it finds
the end of its input with the bytes `t` of a cut quantum in hand: what it has
still to decode is whole quanta that decode without error, followed by `t`. -/
def decoder.Delivers (d : decoder) (z t : List Nat) : Prop :=
  d.Inv ∧ d.err = none ∧ t.length < 4 ∧
    ∃ q, d.pending = q ++ t ∧ (Decode 0 q).2 = none ∧ z = d.out ++ (Decode 0 q).1

/-- Whole quanta of characters of the base64 alphabet and of the padding
character. -/
def QuantaText (s : List Nat) : Prop :=
  s.length % 4 = 0 ∧ ∀ c ∈ s, (decodeMap c).isSome = true ∨ c = 61

/-- The decoder `d` is the decoder `d0` after some reads: unless a read has
given an error other than io.EOF, what `d0` had to decode is whole quanta that
were decoded, followed by what `d` has to decode; and a decoder that has seen
io.EOF has an empty buffer. -/
def decoder.Track (d0 d : decoder) : Prop :=
  d.Inv ∧ (d.err = some .EOF → d.buf = []) ∧
    ((d.err = none ∨ d.err = some .EOF) →
      ∃ chunk, d0.pending = chunk ++ d.pending ∧ QuantaText chunk)

/-- The type codes of `unwrap.go`. -/
def TypProcedure : Nat := 55

/-- The type code of a function, the byte of the digit 8. -/
def TypFunction : Nat := 56

/-- The type code of a package, the byte of the digit 9. -/
def TypPackage : Nat := 57

/-- The type code of a package body, the byte of the letter b. -/
def TypPackageBody : Nat := 98

/-- The type code of a type, the byte of the letter d. -/
def TypType : Nat := 100

/-- The type code of a type body, the byte of the letter e. -/
def TypTypeBody : Nat := 101

/-- The lines of an input that end with a newline, each without its newline;
the bytes after the last newline are no line. -/
def completeLines : List Nat → List (List Nat)
  | [] => []
  | c :: cs =>
    if c = 10 then [] :: completeLines cs
    else match completeLines cs with
      | [] => []
      | l :: ls => (c :: l) :: ls

/-- The bytes that io.ReadFull gets for the hash from the decoder bounded to
`n` bytes of the reader `r`. -/
def hashBytes (r : Reader) (n : Int) : List Nat :=
  match ReadFull (NewDecoder { R := r, N := n }) with
  | some ((hsh, _), _) => hsh
  | none => []

/-! ## Sample inputs -/

/-- A substitution table to run examples with: the next byte value. -/
def sampleMap (c : Nat) : Nat := (c + 1) % 256

/-- The header with the marker line "a wrapped", 17 lines "x", the type line
"7" and the length line "0 1c". -/
def sampleHeader : HeaderLines where
  pre := []
  marker := [97, 32, 119, 114, 97, 112, 112, 101, 100]
  preamble := List.replicate 17 [120]
  typeLine := [55]
  field1 := [48]
  field2 := [49, 99]

/-- The base64 text, 28 bytes long, of 20 zero bytes followed by the byte 104. -/
def sampleBody : List Nat := List.replicate 26 65 ++ [66, 111]

/-- The base64 text of 20 zero bytes followed by the bytes 104 and 105. -/
def sampleBody2 : List Nat := List.replicate 26 65 ++ [66, 111, 97, 81, 61, 61]

/-- A second header, after the lines "" and "/" that end a first object: type
line " 9", length line "0 20". -/
def sampleHeader2 : HeaderLines :=
  { sampleHeader with pre := [[], [47]], typeLine := [32, 57], field2 := [50, 48] }

/-- The sample header with the type line " b " between blanks. -/
def sampleHeaderB : HeaderLines := { sampleHeader with typeLine := [32, 98, 32] }

/-- The sample header with the length line "0 zz". -/
def sampleHeaderZZ : HeaderLines := { sampleHeader with field2 := [122, 122] }

/-- The sample header with the length line "0 0". -/
def sampleHeader0 : HeaderLines := { sampleHeader with field2 := [48] }

/-- The sample header with the length line "0 64", a declared length of 100. -/
def sampleHeader100 : HeaderLines := { sampleHeader with field2 := [54, 52] }

/-- An input that ends after a blank line 19. -/
def blankTypeInput : List Nat :=
  joinLines (sampleHeader.marker :: (sampleHeader.preamble ++ [[]]))

/-- An input without marker line: "junk", "more wrapped x" and the cut line "a wrapped". -/
def noMarkerInput : List Nat :=
  joinLines [[106, 117, 110, 107], [109, 111, 114, 101] ++ wrappedSuffix ++ [32, 120]] ++
    sampleHeader.marker

/-- The base64 text of 20 bytes of value 1 followed by the byte 104. -/
def sampleBodyOnes : List Nat :=
  [65, 81, 69, 66, 65, 81, 69, 66, 65, 81, 69, 66, 65, 81, 69, 66, 65, 81, 69, 66, 65, 81, 69,
    66, 65, 81, 70, 111]

/-- The sample header after a line "j", with other preamble lines, the last of
which is "x wrapped". -/
def sampleHeaderP : HeaderLines :=
  { sampleHeader with
    pre := [[106]], preamble := List.replicate 16 [121] ++ [[120] ++ wrappedSuffix] }

/-- The value of a numeral in base 16, most significant digit first. -/
def hexValue (s : List Nat) : Nat := s.foldl (fun n c => n * 16 + (hexDigit c).getD 0) 0

/-- Whether a field is a numeral in base 16: not empty, with digits of base 16 only. -/
def isHex (s : List Nat) : Bool := !s.isEmpty && s.all (fun c => (hexDigit c).isSome)

/-- The sample header with the length line "0  1c", two spaces between its fields. -/
def sampleHeaderSp : HeaderLines := { sampleHeader with field2 := [32, 49, 99] }

/-- The sample header with the length line "0 1c" followed by a carriage return. -/
def sampleHeaderCR : HeaderLines := { sampleHeader with field2 := [49, 99, 13] }

/-- The sample header with the type line "x". -/
def sampleHeaderX : HeaderLines := { sampleHeader with typeLine := [120] }

/-- The sample object with a type line that is one space. -/
def blankTypeObject : List Nat :=
  joinLines (sampleHeader.marker :: (sampleHeader.preamble ++ [[32], [48, 32, 49, 99]])) ++
    sampleBody

/-- The sample object with the length line "1c", without a space. -/
def noSpaceObject : List Nat :=
  joinLines (sampleHeader.marker :: (sampleHeader.preamble ++ [[55], [49, 99]])) ++ sampleBody

/-- The sample header with the length line "0 24" and a line 18 of 4014 bytes:
a header of 4064 bytes. -/
def longHeader36 : HeaderLines :=
  { sampleHeader with
    preamble := List.replicate 16 [120] ++ [List.replicate 4014 120], field2 := [50, 52] }

/-- The sample object with the length line "0<TAB>1c", a tab between its fields. -/
def tabLengthObject : List Nat :=
  joinLines (sampleHeader.marker :: (sampleHeader.preamble ++ [[55], [48, 9, 49, 99]])) ++
    sampleBody

/-- A sink with room for `k` bytes: a write that does not fit is refused whole
with an error, and so is every write once the sink is full. -/
def fullWriter (k : Nat) : Writer (List Nat) where
  Write := fun w p =>
    if w.length < k ∧ w.length + p.length ≤ k then (w ++ p, p.length, none)
    else (w, 0, some (.SinkError 28))

/-- The sample header with the length line "0 24", a declared length of 36. -/
def sampleHeader36 : HeaderLines := { sampleHeader with field2 := [50, 52] }

/-- The sample body followed by the quantum "AAAA" and the four bytes "!!!!",
which are no base64. -/
def sampleBodyBad : List Nat := sampleBody ++ [65, 65, 65, 65, 33, 33, 33, 33]

/-- The sample body followed by the padded quantum "AA==" and the quantum "AAAA". -/
def sampleBodyPad : List Nat := sampleBody ++ [65, 65, 61, 61, 65, 65, 65, 65]

/-- The sample body followed by the four bytes "!!!!" and the quantum "AAAA". -/
def sampleBodyLate : List Nat := sampleBody ++ [33, 33, 33, 33, 65, 65, 65, 65]

/-- One turn of the last loop of `Unwrap` after which the loop goes on: the
read gives no error and the write gives none. A state of the loop is the
decoder, the sink and len(b). -/
def decodeTurn {σ : Type} (charMap : Nat → Nat) (W : Writer σ) (s s' : decoder × σ × Nat) :
    Prop :=
  ∃ p d', s.1.Read s.2.2 = some ((p, none), d') ∧ (W.Write s.2.1 (p.map charMap)).2.2 = none ∧
    s' = (d', (W.Write s.2.1 (p.map charMap)).1, (p.map charMap).length)

/-- The states of the last loop of `Unwrap` after some turns, from a first state. -/
inductive decodeReach {σ : Type} (charMap : Nat → Nat) (W : Writer σ) :
    decoder × σ × Nat → decoder × σ × Nat → Prop
  | start (s : decoder × σ × Nat) : decodeReach charMap W s s
  | turn (s s' s'' : decoder × σ × Nat) : decodeReach charMap W s s' →
      decodeTurn charMap W s' s'' → decodeReach charMap W s s''

/-- The base64 text of 20 zero bytes that ends with a padded quantum, followed
by the quantum "AAAA" and the four bytes "!!!!". -/
def sampleBodyPadBad : List Nat :=
  List.replicate 24 65 ++ [65, 65, 65, 61] ++ [65, 65, 65, 65, 33, 33, 33, 33]

/-! ## The program mktable -/

/-- The inner loop of the search of `mktable.go`: whether one of the nine bytes
before index `i` differs from the byte at `i`; the indices are in range for
`10 ≤ i < len(b)`. -/
def mismatch (b : List Nat) (i : Nat) : Bool :=
  (List.range 9).any (fun k => b.getD (i - 9 + k) 0 != b.getD i 0)

/-- The search loop of `mktable.go` from the index `i`: the value of `start`
after it, 0 when no index ends a run of ten bytes that are the same. -/
def findStart (b : List Nat) : Nat → Nat → Nat
  | 0, _ => 0
  | fuel + 1, i =>
    if i < b.length then
      if !mismatch b i then i + 1 else findStart b fuel (i + 1)
    else 0

/-- How `mktable.go` ends. -/
inductive TableResult where
  /-- The call log.Fatal: no run of ten bytes was found. -/
  | fatal
  /-- An index out of range. -/
  | crash
  /-- The table `a` that is printed. -/
  | table (a : List Nat)
  deriving DecidableEq, Repr

/-- The loop of `mktable.go` that fills the table, from the index `j`, with the
variable `start` and the table `a`; `none` is an index out of range. -/
def fillLoop (b : List Nat) : Nat → Nat → Nat → List Nat → Option (List Nat)
  | 0, _, _, a => some a
  | fuel + 1, j, start, a =>
    let start := if j = 39 then start + 1 else start
    match b.get? (start + j) with
    | none => none
    | some c => fillLoop b fuel (j + 1) start (a.set c j)

/-- The function `main` of `mktable.go` on the bytes `b` of its input. -/
def mktable (b : List Nat) : TableResult :=
  let start := findStart b b.length 10
  if start = 0 then .fatal
  else
    match fillLoop b 256 0 start (List.replicate 256 0) with
    | none => .crash
    | some a => .table a

/-- The probe byte number `j` of an input of mktable whose search ends with
`start`: the byte at `start + j` before the doubled quote, at `start + j + 1`
from number 39 on. -/
def probe (b : List Nat) (start j : Nat) : Nat :=
  b.getD (start + j + (if 39 ≤ j then 1 else 0)) 0

/-- An input of mktable: a byte, ten zero bytes, and the byte values from 255
down to 0 with one more byte put in at place 39. -/
def sampleProbe : List Nat :=
  [9] ++ List.replicate 10 0 ++ ((List.range 256).reverse.take 39 ++ [39] ++
    (List.range 256).reverse.drop 39)

/-! ## The table of Unwrap -/

/-- The argument `charMap` of `Unwrap` for the table `a` that mktable prints
into the file tbl.go: the entry `charMap[c]`. -/
def tableMap (a : List Nat) (c : Nat) : Nat := a.getD c 0

/-- An input of mktable whose probe repeats a byte: a byte, ten zero bytes and
257 bytes of value 7. -/
def repeatedProbe : List Nat := [9] ++ List.replicate 10 0 ++ List.replicate 257 7

/-! ## The buffered reader -/

theorem cutLine_line (l rest : List Nat) (h : 10 ∉ l) :
    cutLine (l ++ 10 :: rest) = some (l ++ [10], rest) := by
  induction l with
  | nil => simp [cutLine]
  | cons c l ih =>
    have hc : c ≠ 10 := by intro e; exact h (by simp [e])
    have hl : 10 ∉ l := fun m => h (List.mem_cons_of_mem _ m)
    simp [cutLine, hc, ih hl]

theorem cutLine_none (r : List Nat) (h : 10 ∉ r) : cutLine r = none := by
  induction r with
  | nil => rfl
  | cons c r ih =>
    have hc : c ≠ 10 := by intro e; exact h (by simp [e])
    have hl : 10 ∉ r := fun m => h (List.mem_cons_of_mem _ m)
    simp [cutLine, hc, ih hl]

theorem split_line (r : List Nat) : 10 ∉ r ∨ ∃ l rest, 10 ∉ l ∧ r = l ++ 10 :: rest := by
  induction r with
  | nil => exact Or.inl (by simp)
  | cons c r ih =>
    by_cases hc : c = 10
    · exact Or.inr ⟨[], r, by simp, by simp [hc]⟩
    · rcases ih with h | ⟨l, rest, hl, e⟩
      · exact Or.inl (by simp [hc, h]; exact fun h => hc h.symm)
      · exact Or.inr ⟨c :: l, rest, by simp [hl]; exact fun h => hc h.symm, by simp [e]⟩

/-- The place of the first newline of a slice is one place. -/
theorem split_line_unique (l l' r r' : List Nat) (h : 10 ∉ l) (h' : 10 ∉ l')
    (e : l ++ 10 :: r = l' ++ 10 :: r') : l = l' ∧ r = r' := by
  induction l generalizing l' with
  | nil =>
    cases l' with
    | nil => simpa using e
    | cons c cs =>
      simp only [List.nil_append, List.cons_append, List.cons.injEq] at e
      exact absurd e.1.symm (fun hc => h' (by simp [hc]))
  | cons c cs ih =>
    cases l' with
    | nil =>
      simp only [List.nil_append, List.cons_append, List.cons.injEq] at e
      exact absurd e.1 (fun hc => h (by simp [hc]))
    | cons c' cs' =>
      simp only [List.cons_append, List.cons.injEq] at e
      obtain ⟨i1, i2⟩ := ih cs' (fun m => h (List.mem_cons_of_mem _ m))
        (fun m => h' (List.mem_cons_of_mem _ m)) e.2
      exact ⟨by rw [e.1, i1], i2⟩

/-- A first part without newline of a slice is a first part of its first line. -/
theorem split_line_prefix (frag s l r : List Nat) (hf : 10 ∉ frag) (hl : 10 ∉ l)
    (e : frag ++ s = l ++ 10 :: r) : ∃ l', l = frag ++ l' ∧ s = l' ++ 10 :: r := by
  induction frag generalizing l with
  | nil => exact ⟨l, rfl, by simpa using e⟩
  | cons c cs ih =>
    cases l with
    | nil =>
      simp only [List.nil_append, List.cons_append, List.cons.injEq] at e
      exact absurd e.1.symm (fun hc => hf (by simp [hc]))
    | cons c' l' =>
      simp only [List.cons_append, List.cons.injEq] at e
      obtain ⟨l'', i1, i2⟩ := ih l' (fun m => hf (List.mem_cons_of_mem _ m))
        (fun m => hl (List.mem_cons_of_mem _ m)) e.2
      exact ⟨l'', by rw [e.1, i1]; rfl, i2⟩

theorem take_split (R : List Nat) (k : Nat) :
    R = R.take k ++ R.drop (R.take k).length ∧
      ∀ n, (R.take k).length ≤ n →
        R.take n = R.take k ++ (R.drop (R.take k).length).take (n - (R.take k).length) := by
  by_cases hk : k ≤ R.length
  · have e : (R.take k).length = k := by simp [hk]
    rw [e]
    refine ⟨(List.take_append_drop k R).symm, fun n hn => ?_⟩
    have : n = k + (n - k) := by omega
    conv_lhs => rw [this, List.take_add]
  · have e : R.take k = R := List.take_of_length_le (by omega)
    rw [e]
    refine ⟨by simp, fun n hn => ?_⟩
    simp [List.take_of_length_le hn]

theorem take_ne_nil (c : Nat) (cs : List Nat) (k : Nat) (hk : 0 < k) : (c :: cs).take k ≠ [] := by
  cases k with
  | zero => omega
  | succ k => simp

/-- What a read of the buffered reader does: it delivers a first part of the
stream, of at most `lenp` bytes, not empty unless the stream is, in which case
it gives io.EOF. -/
theorem Reader.Read_stream (b : Reader) (lenp : Nat) (hl : 0 < lenp) :
    ∃ p e b', b.Read lenp = ((p, e), b') ∧ b.stream = p ++ b'.stream ∧ p.length ≤ lenp ∧
      (p = [] → e = some .EOF ∧ b.stream = [] ∧ b' = b) ∧ (p ≠ [] → e = none) := by
  obtain ⟨buf, rd⟩ := b
  have hl0 : lenp ≠ 0 := by omega
  cases buf with
  | nil =>
    cases rd with
    | nil =>
      refine ⟨[], some .EOF, ⟨[], []⟩, ?_, by simp [Reader.stream], by simp,
        fun _ => ⟨rfl, by simp [Reader.stream], rfl⟩, fun h => absurd rfl h⟩
      by_cases h4 : lenp ≥ 4096 <;> simp [Reader.Read, hl0, h4, srcRead]
    | cons c cs =>
      by_cases h4 : lenp ≥ 4096
      · have hne := take_ne_nil c cs lenp hl
        refine ⟨(c :: cs).take lenp, none, ⟨[], (c :: cs).drop ((c :: cs).take lenp).length⟩, ?_,
          ?_, by simp, fun h => absurd h hne, fun _ => rfl⟩
        · simp [Reader.Read, hl0, h4, srcRead]
        · simp only [Reader.stream, List.nil_append]
          exact (take_split (c :: cs) lenp).1
      · obtain ⟨q, hq⟩ : ∃ q, q = (c :: cs).take 4096 := ⟨_, rfl⟩
        have hqc : q = c :: cs.take 4095 := by rw [hq]; rfl
        have hne : q.take lenp ≠ [] := by rw [hqc]; exact take_ne_nil c _ lenp hl
        refine ⟨q.take lenp, none, ⟨q.drop lenp, (c :: cs).drop q.length⟩, ?_, ?_, by simp,
          fun h => absurd h hne, fun _ => rfl⟩
        · simp only [Reader.Read, hl0, if_false, h4, srcRead, ← hq]
          rw [hqc]
        · simp only [Reader.stream, List.nil_append]
          rw [← List.append_assoc, List.take_append_drop, hq]
          exact (take_split (c :: cs) 4096).1
  | cons c cs =>
    have hne := take_ne_nil c cs lenp hl
    refine ⟨(c :: cs).take lenp, none, ⟨(c :: cs).drop lenp, rd⟩, ?_, ?_, by simp,
      fun h => absurd h hne, fun _ => rfl⟩
    · simp [Reader.Read, hl0]
    · simp only [Reader.stream]
      rw [← List.append_assoc, List.take_append_drop]

/-- What fill does: the stream stays, and b.err is io.EOF with an empty source
and nil otherwise, in which case the buffer has grown by a byte at least. -/
theorem Reader.fill_spec (b : Reader) (hb : b.buf.length < 4096) :
    (b.fill).1.stream = b.stream ∧
      (b.rd = [] → (b.fill).2 = some .EOF ∧ (b.fill).1 = b) ∧
      (b.rd ≠ [] → (b.fill).2 = none ∧ (b.fill).1.rd.length < b.rd.length) := by
  obtain ⟨buf, rd⟩ := b
  cases rd with
  | nil => simp [Reader.fill, srcRead, Reader.stream]
  | cons c cs =>
    have hne := take_ne_nil c cs (4096 - buf.length) (by simp only at hb; omega)
    have hpos := List.length_pos.mpr hne
    refine ⟨?_, ?_, ?_⟩
    · simp only [Reader.fill, srcRead, Reader.stream, List.append_assoc]
      rw [← (take_split (c :: cs) (4096 - buf.length)).1]
    · intro h
      cases h
    · intro _
      refine ⟨by simp [Reader.fill, srcRead], ?_⟩
      simp only [Reader.fill, srcRead, List.length_drop]
      simp only [List.length_cons] at hpos ⊢
      omega

/-- What ReadSlice does: it returns a first part of the stream, which ends with
the first newline when it gives no error, and holds no newline when it gives
bufio.ErrBufferFull, and then is not empty, or io.EOF, and then is all the
stream. -/
theorem Reader.ReadSlice_spec (fuel : Nat) : ∀ (b : Reader) (berr : Option Error),
    (berr = none ∧ b.rd.length + 2 ≤ fuel) ∨ (berr = some .EOF ∧ b.rd = [] ∧ 1 ≤ fuel) →
    ∃ frag e b', b.ReadSlice fuel berr = some ((frag, e), b') ∧ frag ++ b'.stream = b.stream ∧
      ((e = none ∧ ∃ l, 10 ∉ l ∧ frag = l ++ [10]) ∨
        (e = some .ErrBufferFull ∧ 10 ∉ frag ∧ frag ≠ []) ∨
        (e = some .EOF ∧ 10 ∉ frag ∧ b' = ⟨[], []⟩)) := by
  induction fuel with
  | zero => intro b berr h; rcases h with ⟨_, h⟩ | ⟨_, _, h⟩ <;> omega
  | succ fuel ih =>
    intro b berr h
    rcases split_line b.buf with h0 | ⟨l, buf', hl, e⟩
    · have hcut := cutLine_none b.buf h0
      rcases h with ⟨hb, hf⟩ | ⟨hb, hrd, _⟩
      · subst hb
        by_cases hfull : b.buf.length ≥ 4096
        · refine ⟨b.buf, some .ErrBufferFull, { b with buf := [] }, ?_, by simp [Reader.stream],
            Or.inr (Or.inl ⟨rfl, h0, ?_⟩)⟩
          · simp [Reader.ReadSlice, hcut, hfull]
          · intro h; rw [h] at hfull; simp at hfull
        · obtain ⟨f1, f2, f3⟩ := b.fill_spec (by omega)
          have hstep : b.ReadSlice (fuel + 1) none = (b.fill).1.ReadSlice fuel (b.fill).2 := by
            simp [Reader.ReadSlice, hcut, hfull]
          by_cases hrd : b.rd = []
          · obtain ⟨g1, g2⟩ := f2 hrd
            obtain ⟨frag, e, b', i1, i2, i3⟩ := ih (b.fill).1 (b.fill).2
              (Or.inr ⟨g1, by rw [g2]; exact hrd, by rw [hrd] at hf; simp at hf; omega⟩)
            exact ⟨frag, e, b', hstep.trans i1, by rw [i2, f1], i3⟩
          · obtain ⟨g1, g2⟩ := f3 hrd
            obtain ⟨frag, e, b', i1, i2, i3⟩ := ih (b.fill).1 (b.fill).2
              (Or.inl ⟨g1, by omega⟩)
            exact ⟨frag, e, b', hstep.trans i1, by rw [i2, f1], i3⟩
      · subst hb
        refine ⟨b.buf, some .EOF, { b with buf := [] }, ?_, by simp [Reader.stream],
          Or.inr (Or.inr ⟨rfl, h0, ?_⟩)⟩
        · simp [Reader.ReadSlice, hcut]
        · rw [hrd]
    · have hcut : cutLine b.buf = some (l ++ [10], buf') := by rw [e]; exact cutLine_line l buf' hl
      refine ⟨l ++ [10], none, { b with buf := buf' }, ?_, ?_, Or.inl ⟨rfl, l, hl, rfl⟩⟩
      · simp [Reader.ReadSlice, hcut]
      · simp [Reader.stream, e]

/-- What the loop behind ReadBytes does: it returns the bytes up to the first
newline of the stream, with it, and no error, or all the stream and io.EOF
when the stream holds no newline. -/
theorem Reader.collect_spec (fuel : Nat) : ∀ (b : Reader) (full : List Nat),
    b.stream.length < fuel →
    (∀ l rest, 10 ∉ l → b.stream = l ++ 10 :: rest →
        ∃ b', b.collect fuel full = some ((full ++ (l ++ [10]), none), b') ∧ b'.stream = rest) ∧
      (10 ∉ b.stream →
        b.collect fuel full = some ((full ++ b.stream, some .EOF), ⟨[], []⟩)) := by
  induction fuel with
  | zero => intro b full h; omega
  | succ fuel ih =>
    intro b full hf
    obtain ⟨frag, e, b1, h1, h2, h3⟩ := Reader.ReadSlice_spec (b.rd.length + 2) b none
      (Or.inl ⟨rfl, le_refl _⟩)
    rcases h3 with ⟨he, l0, hl0, hfrag⟩ | ⟨he, hnl, hne⟩ | ⟨he, hnl, hb1⟩
    · subst he hfrag
      have hstep : b.collect (fuel + 1) full = some ((full ++ (l0 ++ [10]), none), b1) := by
        simp [Reader.collect, h1]
      have hs : b.stream = l0 ++ 10 :: b1.stream := by rw [← h2]; simp
      refine ⟨fun l rest hl e => ?_, fun h10 => ?_⟩
      · obtain ⟨i1, i2⟩ := split_line_unique l0 l b1.stream rest hl0 hl (hs.symm.trans e)
        exact ⟨b1, by rw [hstep, i1], i2⟩
      · exact absurd (by rw [hs]; simp) h10
    · subst he
      have hstep : b.collect (fuel + 1) full = b1.collect fuel (full ++ frag) := by
        simp [Reader.collect, h1]
      have hlen : b1.stream.length < fuel := by
        have := congrArg List.length h2
        have hp := List.length_pos.mpr hne
        simp only [List.length_append] at this
        omega
      obtain ⟨j1, j2⟩ := ih b1 (full ++ frag) hlen
      refine ⟨fun l rest hl e => ?_, fun h10 => ?_⟩
      · obtain ⟨l', i1, i2⟩ := split_line_prefix frag b1.stream l rest hnl hl (h2.trans e)
        have hl' : 10 ∉ l' := fun m => hl (by rw [i1]; simp [m])
        obtain ⟨b', k1, k2⟩ := j1 l' rest hl' i2
        refine ⟨b', ?_, k2⟩
        rw [hstep, k1, i1]
        simp
      · have h10' : 10 ∉ b1.stream := fun m => h10 (by rw [← h2]; simp [m])
        rw [hstep, j2 h10', ← h2]
        simp
    · subst he hb1
      have hstep : b.collect (fuel + 1) full = some ((full ++ frag, some .EOF), ⟨[], []⟩) := by
        simp [Reader.collect, h1]
      have hs : b.stream = frag := by rw [← h2]; simp [Reader.stream]
      refine ⟨fun l rest hl e => ?_, fun _ => by rw [hstep, hs]⟩
      exact absurd (by rw [← hs, e]; simp) hnl

/-- The call ReadBytes on a stream that starts with a line: the line with its
newline, no error, and a reader whose stream is what follows the line. -/
theorem Reader.ReadBytes_line (b : Reader) (l rest : List Nat) (h : 10 ∉ l)
    (hb : b.stream = l ++ 10 :: rest) :
    b.ReadBytes = some ((l ++ [10], none), b.next) ∧ b.next.stream = rest := by
  obtain ⟨b', h1, h2⟩ := (Reader.collect_spec (b.stream.length + 1) b [] (by omega)).1 l rest h hb
  have hr : b.ReadBytes = some ((l ++ [10], none), b') := by simpa [Reader.ReadBytes] using h1
  have hn : b.next = b' := by simp [Reader.next, hr]
  rw [hn]
  exact ⟨hr, h2⟩

/-- The call ReadBytes on a stream without newline: all the stream and io.EOF. -/
theorem Reader.ReadBytes_none (b : Reader) (h : 10 ∉ b.stream) :
    b.ReadBytes = some ((b.stream, some .EOF), ⟨[], []⟩) := by
  have := (Reader.collect_spec (b.stream.length + 1) b [] (by omega)).2 h
  simpa [Reader.ReadBytes] using this

/-- The call ReadBytes on a reader whose buffer holds a line: the line, and the
reader with the rest of its buffer. -/
theorem Reader.ReadBytes_buffered (l buf rd : List Nat) (h : 10 ∉ l) :
    (⟨l ++ 10 :: buf, rd⟩ : Reader).ReadBytes = some ((l ++ [10], none), ⟨buf, rd⟩) := by
  simp [Reader.ReadBytes, Reader.collect, Reader.ReadSlice, cutLine_line l buf h]

theorem drop_take_length (R : List Nat) (k : Nat) : R.drop (R.take k).length = R.drop k := by
  by_cases hk : k ≤ R.length
  · simp [hk]
  · rw [List.take_of_length_le (by omega), List.drop_of_length_le (le_refl _),
      List.drop_of_length_le (by omega)]

/-- The call ReadBytes on a new reader whose source starts with a line of less
than 4096 bytes: the buffer is filled once and holds the line. -/
theorem Reader.ReadBytes_new (l rest : List Nat) (h : 10 ∉ l) (hl : l.length < 4096) :
    (NewReader (l ++ 10 :: rest)).ReadBytes =
      some ((l ++ [10], none),
        ⟨((l ++ 10 :: rest).take 4096).drop (l.length + 1), (l ++ 10 :: rest).drop 4096⟩) := by
  have hne : l ++ 10 :: rest ≠ [] := by simp
  obtain ⟨c, cs, hc⟩ : ∃ c cs, l ++ 10 :: rest = c :: cs := by
    cases hx : l ++ 10 :: rest with
    | nil => exact absurd hx hne
    | cons c cs => exact ⟨c, cs, rfl⟩
  have htake : (l ++ 10 :: rest).take 4096 = l ++ 10 :: rest.take (4096 - (l.length + 1)) := by
    rw [List.take_append_eq_append_take, List.take_of_length_le (by omega)]
    have : 4096 - l.length = (4096 - (l.length + 1)) + 1 := by omega
    rw [this, List.take_succ_cons]
  have hcut : cutLine ((l ++ 10 :: rest).take 4096) =
      some (l ++ [10], ((l ++ 10 :: rest).take 4096).drop (l.length + 1)) := by
    rw [htake, cutLine_line l _ h]
    simp
  rw [hc] at hcut ⊢
  have hfill : (⟨[], c :: cs⟩ : Reader).fill =
      (⟨(c :: cs).take 4096, (c :: cs).drop 4096⟩, none) := by
    simp only [Reader.fill, srcRead, List.length_nil, Nat.sub_zero, List.nil_append,
      drop_take_length]
  have hslice : ∀ f, (⟨[], c :: cs⟩ : Reader).ReadSlice (f + 2) none =
      some ((l ++ [10], none),
        ⟨((c :: cs).take 4096).drop (l.length + 1), (c :: cs).drop 4096⟩) := by
    intro f
    rw [Reader.ReadSlice]
    simp only [cutLine, ne_eq, not_true_eq_false, if_false, List.length_nil, ge_iff_le,
      Nat.le_zero_eq, OfNat.ofNat_ne_zero, hfill]
    rw [Reader.ReadSlice]
    simp only [hcut]
  simp only [NewReader, Reader.ReadBytes, Reader.stream, List.nil_append, List.length_cons,
    Reader.collect, hslice]
  simp

/-! ## The header loop on a complete header -/

theorem headerLoop_line (f : Nat) (b : Reader) (l rest : List Nat) (typ n : Nat) (s : Bool)
    (h : 10 ∉ l) (hb : b.stream = l ++ 10 :: rest) :
    headerLoop (f + 1) b typ n s =
      if !s then
        if isMarker l then headerLoop f b.next typ 1 true
        else headerLoop f b.next typ (n + 1) false
      else if n + 1 < 19 then headerLoop f b.next typ (n + 1) s
      else if n + 1 = 19 then
        match TrimSpace l with
        | [] => .crash
        | t :: _ => headerLoop f b.next t (n + 1) s
      else if n + 1 = 20 then
        match SplitN2 32 l with
        | [_, p1] => .brk typ (n + 1) s (ParseInt p1).1 b.next
        | _ => .crash
      else .brk typ (n + 1) s 0 b.next := by
  rw [headerLoop, (b.ReadBytes_line l rest h hb).1]
  simp [isMarker]

theorem length_joinLines (ls : List (List Nat)) : ls.length ≤ (joinLines ls).length := by
  induction ls with
  | nil => simp [joinLines]
  | cons l ls ih => simp [joinLines]; omega

theorem joinLines_append (xs ys : List (List Nat)) :
    joinLines (xs ++ ys) = joinLines xs ++ joinLines ys := by
  induction xs with
  | nil => simp [joinLines]
  | cons l ls ih => simp [joinLines, ih]

theorem Reader.skip_next (k : Nat) : ∀ b : Reader, (b.skip k).next = b.skip (k + 1) := by
  induction k with
  | zero => intro b; rfl
  | succ k ih => intro b; exact ih b.next

theorem Reader.skip_skip (m n : Nat) : ∀ b : Reader, (b.skip m).skip n = b.skip (m + n) := by
  induction m with
  | zero => intro b; simp [Reader.skip]
  | succ m ih =>
    intro b
    have e : m + 1 + n = (m + n) + 1 := by omega
    rw [e]
    exact ih b.next

/-- After as many calls of ReadBytes as the stream has lines in front, the
stream of the reader is what follows these lines. -/
theorem Reader.skip_stream (ls : List (List Nat)) : ∀ (b : Reader) (rest : List Nat),
    (∀ l ∈ ls, 10 ∉ l) → b.stream = joinLines ls ++ rest → (b.skip ls.length).stream = rest := by
  induction ls with
  | nil => intro b rest _ hb; simpa [Reader.skip, joinLines] using hb
  | cons l ls ih =>
    intro b rest hnl hb
    have h1 : 10 ∉ l := hnl l (by simp)
    have hb' : b.stream = l ++ 10 :: (joinLines ls ++ rest) := by
      rw [hb]; simp [joinLines]
    exact ih b.next rest (fun x hx => hnl x (by simp [hx])) (b.ReadBytes_line l _ h1 hb').2

/-- After as many calls of ReadBytes as its buffer has lines in front, a reader
has the rest of its buffer and its source as it was. -/
theorem Reader.skip_buffered (ls : List (List Nat)) : ∀ (buf rd : List Nat),
    (∀ l ∈ ls, 10 ∉ l) → (⟨joinLines ls ++ buf, rd⟩ : Reader).skip ls.length = ⟨buf, rd⟩ := by
  induction ls with
  | nil => intro buf rd _; simp [Reader.skip, joinLines]
  | cons l ls ih =>
    intro buf rd hnl
    have h1 : 10 ∉ l := hnl l (by simp)
    have hn : (⟨joinLines (l :: ls) ++ buf, rd⟩ : Reader).next = ⟨joinLines ls ++ buf, rd⟩ := by
      have := Reader.ReadBytes_buffered l (joinLines ls ++ buf) rd h1
      simp only [joinLines, List.append_assoc, List.cons_append, Reader.next, this]
    simp only [List.length_cons, Reader.skip, hn]
    exact ih buf rd (fun x hx => hnl x (by simp [hx]))

/-- The lines before the marker are read and passed over. -/
theorem headerLoop_pre (pre : List (List Nat)) (f : Nat) : ∀ (b : Reader) (rest : List Nat)
    (typ n : Nat), (∀ l ∈ pre, 10 ∉ l) → (∀ l ∈ pre, isMarker l = false) →
    b.stream = joinLines pre ++ rest →
    headerLoop (f + pre.length) b typ n false =
      headerLoop f (b.skip pre.length) typ (n + pre.length) false := by
  induction pre with
  | nil => intro b rest typ n _ _ _; simp [Reader.skip]
  | cons l ls ih =>
    intro b rest typ n hnl hm hb
    have h1 : 10 ∉ l := hnl l (by simp)
    have h2 : isMarker l = false := hm l (by simp)
    have hb' : b.stream = l ++ 10 :: (joinLines ls ++ rest) := by
      rw [hb]; simp [joinLines]
    have e : f + (l :: ls).length = (f + ls.length) + 1 := by simp; omega
    rw [e, headerLoop_line _ b l _ _ _ _ h1 hb']
    simp only [h2, Bool.not_false, if_true, Bool.false_eq_true, if_false]
    rw [ih b.next rest typ (n + 1) (fun l hl => hnl l (by simp [hl]))
      (fun l hl => hm l (by simp [hl])) (b.ReadBytes_line l _ h1 hb').2]
    simp only [List.length_cons, Reader.skip]
    congr 1
    omega

/-- The lines 2 to 18 are read and passed over. -/
theorem headerLoop_preamble (ls : List (List Nat)) (f : Nat) : ∀ (b : Reader) (rest : List Nat)
    (typ n : Nat), (∀ l ∈ ls, 10 ∉ l) → n + ls.length < 19 →
    b.stream = joinLines ls ++ rest →
    headerLoop (f + ls.length) b typ n true =
      headerLoop f (b.skip ls.length) typ (n + ls.length) true := by
  induction ls with
  | nil => intro b rest typ n _ _ _; simp [Reader.skip]
  | cons l ls ih =>
    intro b rest typ n hnl hn hb
    have h1 : 10 ∉ l := hnl l (by simp)
    have hb' : b.stream = l ++ 10 :: (joinLines ls ++ rest) := by
      rw [hb]; simp [joinLines]
    have e : f + (l :: ls).length = (f + ls.length) + 1 := by simp; omega
    rw [e, headerLoop_line _ b l _ _ _ _ h1 hb']
    have h3 : n + 1 < 19 := by simp at hn; omega
    simp only [Bool.not_true, Bool.false_eq_true, if_false, h3, if_true]
    rw [ih b.next rest typ (n + 1) (fun l hl => hnl l (by simp [hl]))
      (by simp at hn ⊢; omega) (b.ReadBytes_line l _ h1 hb').2]
    simp only [List.length_cons, Reader.skip]
    congr 1
    omega

theorem SplitN2_space (a b : List Nat) (h : 32 ∉ a) : SplitN2 32 (a ++ 32 :: b) = [a, b] := by
  induction a with
  | nil => simp [SplitN2]
  | cons c a ih =>
    have hc : c ≠ 32 := by intro e; exact h (by simp [e])
    have ha : 32 ∉ a := fun m => h (List.mem_cons_of_mem _ m)
    simp [SplitN2, hc, ih ha]

theorem length_lines (h : HeaderLines) (hc : h.Complete) :
    h.lines.length = h.pre.length + 20 := by
  simp [HeaderLines.lines, hc.2.2.2.1]

/-- The reader after the 20 lines of a complete header and the lines before it:
its stream is what follows the header. -/
theorem Reader.skip_header (b : Reader) (h : HeaderLines) (hc : h.Complete) (rest : List Nat)
    (hb : b.stream = h.bytes ++ rest) : (b.skip (h.pre.length + 20)).stream = rest := by
  rw [← length_lines h hc]
  exact Reader.skip_stream h.lines b rest hc.1 hb

/-- The header loop on a complete header leaves by `break` at line 20. -/
theorem headerLoop_complete (h : HeaderLines) (hc : h.Complete) (rest : List Nat) (f : Nat)
    (b : Reader) (hb : b.stream = h.bytes ++ rest) :
    headerLoop (f + (h.pre.length + 20)) b 0 0 false =
      .brk h.typ 20 true h.wrappedLength (b.skip (h.pre.length + 20)) := by
  obtain ⟨hnl, hpre, hmk, hlen, htyp, hsp⟩ := hc
  have hnl1 : ∀ l ∈ h.pre, 10 ∉ l := fun l hl => hnl l (by simp [HeaderLines.lines, hl])
  have hnl2 : 10 ∉ h.marker := hnl _ (by simp [HeaderLines.lines])
  have hnl3 : ∀ l ∈ h.preamble, 10 ∉ l := fun l hl => hnl l (by simp [HeaderLines.lines, hl])
  have hnl4 : 10 ∉ h.typeLine := hnl _ (by simp [HeaderLines.lines])
  have hnl5 : 10 ∉ h.field1 ++ 32 :: h.field2 := hnl _ (by simp [HeaderLines.lines])
  have e : f + (h.pre.length + 20) = (f + 20) + h.pre.length := by omega
  have hb0 : b.stream = joinLines h.pre ++ (h.marker ++ 10 ::
      (joinLines h.preamble ++ (h.typeLine ++ 10 ::
        ((h.field1 ++ 32 :: h.field2) ++ 10 :: rest)))) := by
    rw [hb]
    simp [HeaderLines.bytes, HeaderLines.lines, joinLines_append, joinLines]
  have hb1 := Reader.skip_stream h.pre b _ hnl1 hb0
  have hb2 := ((b.skip h.pre.length).ReadBytes_line h.marker _ hnl2 hb1).2
  have hb3 := Reader.skip_stream h.preamble _ _ hnl3 hb2
  have hb4 := (((b.skip h.pre.length).next.skip h.preamble.length).ReadBytes_line h.typeLine _
    hnl4 hb3).2
  rw [e, headerLoop_pre h.pre _ b _ _ _ hnl1 hpre hb0]
  rw [show f + 20 = (f + 19) + 1 by omega, headerLoop_line _ _ h.marker _ _ _ _ hnl2 hb1]
  simp only [hmk, Bool.not_false, if_true]
  rw [show f + 19 = (f + 2) + h.preamble.length by omega,
    headerLoop_preamble h.preamble _ _ _ _ _ hnl3 (by omega) hb2]
  rw [show f + 2 = (f + 1) + 1 by omega, headerLoop_line _ _ h.typeLine _ _ _ _ hnl4 hb3]
  simp only [Bool.not_true, Bool.false_eq_true, if_false]
  have hfin : ((b.skip h.pre.length).next.skip h.preamble.length).next.next =
      b.skip (h.pre.length + 20) := by
    rw [Reader.skip_next h.pre.length b, Reader.skip_skip, Reader.skip_next, Reader.skip_next,
      hlen]
  cases ht : TrimSpace h.typeLine with
  | nil => exact absurd ht htyp
  | cons t ts =>
    rw [hlen] at hb4 hfin ⊢
    simp only [show ¬ (1 + 17 + 1 < 19) by omega, if_false, if_true]
    rw [headerLoop_line f _ (h.field1 ++ 32 :: h.field2) rest t (1 + 17 + 1) true hnl5 hb4,
      SplitN2_space _ _ hsp]
    simp [HeaderLines.typ, HeaderLines.wrappedLength, ht, hfin]

theorem length_bytes_ge (h : HeaderLines) (hc : h.Complete) :
    h.pre.length + 20 ≤ h.bytes.length := by
  have := length_joinLines h.lines
  rw [length_lines h hc] at this
  simpa [HeaderLines.bytes] using this

/-- With the fuel that `Unwrap` gives it, the header loop on a complete header
leaves by `break` at line 20 with the type code and the declared length. -/
theorem headerLoop_bytes (h : HeaderLines) (hc : h.Complete) (rest : List Nat) (b : Reader)
    (hb : b.stream = h.bytes ++ rest) :
    headerLoop (b.stream.length + 1) b 0 0 false =
      .brk h.typ 20 true h.wrappedLength (b.skip (h.pre.length + 20)) := by
  have := length_bytes_ge h hc
  have e : b.stream.length + 1 =
      (b.stream.length + 1 - (h.pre.length + 20)) + (h.pre.length + 20) := by
    rw [hb]; simp; omega
  rw [e]
  exact headerLoop_complete h hc rest _ b hb

/-! ## The method Decode -/

theorem Decode_length (si : Nat) (l : List Nat) : 4 * (Decode si l).1.length ≤ 3 * l.length := by
  induction si, l using Decode.induct <;> simp_all [Decode, quantumBytes] <;> omega

theorem Decode_ne_EOF (si : Nat) (l : List Nat) : (Decode si l).2 ≠ some .EOF := by
  induction si, l using Decode.induct <;> simp_all [Decode]

theorem Decode_ok_nonempty (si : Nat) (l : List Nat) (h : (Decode si l).2 = none)
    (hl : l ≠ []) : (Decode si l).1 ≠ [] := by
  induction si, l using Decode.induct <;> simp_all [Decode, quantumBytes]

theorem Decode_ok_mod4 (si : Nat) (l : List Nat) (h : (Decode si l).2 = none) :
    l.length % 4 = 0 := by
  induction si, l using Decode.induct
  case case18 si c0 c1 c2 c3 rest d0 d1 d2 d3 h3 h2 h1 h0 dec err hd ih =>
    simp only [Decode, h0, h1, h2, h3, hd] at h
    have := ih (by rw [hd]; exact h)
    simp only [List.length_cons]; omega
  all_goals simp_all [Decode]

theorem Decode_shift (si : Nat) (l : List Nat) :
    ∀ sj, (Decode si l).1 = (Decode sj l).1 ∧ ((Decode si l).2 = none → (Decode sj l).2 = none) := by
  induction si, l using Decode.induct
  case case18 si c0 c1 c2 c3 rest d0 d1 d2 d3 h3 h2 h1 h0 dec err hd ih =>
    intro sj
    have := ih (sj + 4)
    simp only [Decode, h0, h1, h2, h3, hd] at this ⊢
    exact ⟨by rw [this.1], this.2⟩
  all_goals (intro sj; simp_all [Decode])

/-- A run of whole quanta that is decoded without error in front of more input
is decoded without error alone, and so is the rest. -/
theorem Decode_append (a : List Nat) : ∀ (n si : Nat) (c : List Nat), a.length = 4 * n →
    (Decode si (a ++ c)).2 = none →
    (Decode 0 a).2 = none ∧ (Decode 0 c).2 = none ∧
      (Decode si (a ++ c)).1 = (Decode 0 a).1 ++ (Decode 0 c).1 := by
  intro n
  induction n generalizing a with
  | zero =>
    intro si c ha h
    have : a = [] := List.length_eq_zero.mp (by omega)
    subst this
    simp only [List.nil_append] at h ⊢
    exact ⟨by simp [Decode], (Decode_shift si c 0).2 h, by simpa [Decode] using (Decode_shift si c 0).1⟩
  | succ n ih =>
    intro si c ha h
    match a, ha with
    | c0 :: c1 :: c2 :: c3 :: a', ha =>
      have ha' : a'.length = 4 * n := by simp at ha; omega
      simp only [List.cons_append] at h ⊢
      cases h0 : decodeMap c0 with
      | none => simp [Decode, h0] at h
      | some d0 =>
      cases h1 : decodeMap c1 with
      | none => simp [Decode, h0, h1] at h
      | some d1 =>
      cases h2 : decodeMap c2 with
      | none =>
        simp only [Decode, h0, h1, h2] at h ⊢
        split at h
        · split at h
          · have hnil : a' ++ c = [] := by
              by_contra hne
              simp [hne] at h
            have ha0 : a' = [] := (List.append_eq_nil.mp hnil).1
            have hc0 : c = [] := (List.append_eq_nil.mp hnil).2
            subst ha0 hc0
            simp_all [Decode]
          · simp at h
        · simp at h
      | some d2 =>
      cases h3 : decodeMap c3 with
      | none =>
        simp only [Decode, h0, h1, h2, h3] at h ⊢
        split at h
        · have hnil : a' ++ c = [] := by
            by_contra hne
            simp [hne] at h
          have ha0 : a' = [] := (List.append_eq_nil.mp hnil).1
          have hc0 : c = [] := (List.append_eq_nil.mp hnil).2
          subst ha0 hc0
          simp_all [Decode]
        · simp at h
      | some d3 =>
        simp only [Decode, h0, h1, h2, h3] at h ⊢
        obtain ⟨i1, i2, i3⟩ := ih a' (si + 4) c ha' h
        refine ⟨(Decode_shift 0 a' (0 + 4)).2 i1, i2, ?_⟩
        rw [i3, (Decode_shift (0 + 4) a' 0).1]; simp

/-! ## The readers -/

theorem LimitedReader.Read_limited (l : LimitedReader) (lenp : Nat) (hl : 0 < lenp) :
    ∃ p e l', l.Read lenp = ((p, e), l') ∧ l.R.stream = p ++ l'.R.stream ∧
      l'.N = l.N - p.length ∧
      p.length ≤ l.N.toNat ∧ p.length ≤ lenp ∧ l.avail = p ++ l'.avail ∧
      (p = [] → e = some .EOF ∧ l.avail = [] ∧ l' = l) ∧ (p ≠ [] → e = none) := by
  obtain ⟨R, N⟩ := l
  by_cases hN : N ≤ 0
  · refine ⟨[], some .EOF, ⟨R, N⟩, ?_, ?_⟩
    · simp [LimitedReader.Read, hN]
    · have : N.toNat = 0 := by omega
      simp [LimitedReader.avail, this]
  · obtain ⟨k, hk⟩ : ∃ k, k = (if (lenp : Int) > N then N.toNat else lenp) := ⟨_, rfl⟩
    have hk1 : 0 < k := by rw [hk]; split <;> omega
    have hk2 : k ≤ N.toNat := by rw [hk]; split <;> omega
    have hk3 : k ≤ lenp := by rw [hk]; split <;> omega
    obtain ⟨p, e, R', hr, hs, hlen, hnil, hcons⟩ := R.Read_stream k hk1
    have hread : LimitedReader.Read ⟨R, N⟩ lenp = ((p, e), ⟨R', N - p.length⟩) := by
      simp [LimitedReader.Read, hN, ← hk, hr]
    refine ⟨p, e, ⟨R', N - p.length⟩, hread, hs, rfl, by simp only; omega, by omega, ?_, ?_,
      hcons⟩
    · simp only [LimitedReader.avail, hs]
      have e2 : N.toNat = p.length + (N - (p.length : Int)).toNat := by omega
      rw [e2, List.take_add]
      simp
    · intro hp
      obtain ⟨h1, h2, h3⟩ := hnil hp
      refine ⟨h1, by simp [LimitedReader.avail, h2], ?_⟩
      rw [h3, hp]
      simp

theorem LimitedReader.Reach.refl (l : LimitedReader) : l.Reach l :=
  ⟨[], by simp, by simp, by simp⟩

theorem LimitedReader.Reach.trans {a b c : LimitedReader} (h1 : a.Reach b) (h2 : b.Reach c) :
    a.Reach c := by
  obtain ⟨p1, e1, n1, b1⟩ := h1
  obtain ⟨p2, e2, n2, b2⟩ := h2
  refine ⟨p1 ++ p2, by rw [e1, e2]; simp, by rw [n2, n1]; simp; omega, ?_⟩
  rw [n1] at b2
  simp only [List.length_append]
  omega

theorem newlineFilteringRead_spec (fuel : Nat) : ∀ (l : LimitedReader) (lenp : Nat), 0 < lenp →
    l.R.stream.length < fuel →
    ∃ q e l', newlineFilteringRead fuel l lenp = some ((q, e), l') ∧ l.Reach l' ∧
      l.avail.filter notNewline = q ++ l'.avail.filter notNewline ∧
      q.length + l'.R.stream.length ≤ l.R.stream.length ∧
      (q = [] → e = some .EOF ∧ l'.avail = []) ∧ (q ≠ [] → e = none) := by
  induction fuel with
  | zero => intro l lenp _ hf; omega
  | succ fuel ih =>
    intro l lenp hl hf
    obtain ⟨p, e, l', hr, hR, hN, hb, _, hav, hnil, hcons⟩ := LimitedReader.Read_limited l lenp hl
    cases p with
    | nil =>
      obtain ⟨he, ha, hl'⟩ := hnil rfl
      subst hl'
      refine ⟨[], e, l', ?_, LimitedReader.Reach.refl l', by simp [ha], by simp,
        fun _ => ⟨he, ha⟩, fun h => absurd rfl h⟩
      simp [newlineFilteringRead, hr]
    | cons c p =>
      have he : e = none := hcons (by simp)
      have hreach : l.Reach l' := ⟨c :: p, hR, hN, hb⟩
      have hlen : l'.R.stream.length < l.R.stream.length := by rw [hR]; simp; omega
      cases hq : (c :: p).filter notNewline with
      | nil =>
        obtain ⟨q, e2, l2, h2, r2, f2, s2, n2, c2⟩ := ih l' lenp hl (by omega)
        refine ⟨q, e2, l2, ?_, hreach.trans r2, ?_, by omega, n2, c2⟩
        · simp only [newlineFilteringRead, hr, hq]
          exact h2
        · rw [hav, List.filter_append, hq, f2]; simp
      | cons q0 qs =>
        refine ⟨q0 :: qs, e, l', ?_, hreach, ?_, ?_, fun h => by simp at h, fun _ => he⟩
        · simp only [newlineFilteringRead, hr, hq]
        · rw [hav, List.filter_append, hq]
        · have : ((c :: p).filter notNewline).length ≤ (c :: p).length := List.length_filter_le _ _
          rw [hq] at this
          rw [hR]; simp only [List.length_append]; omega

theorem LimitedReader.Reach.avail {l l' : LimitedReader} (h : l.Reach l') :
    ∃ p, l.avail = p ++ l'.avail := by
  obtain ⟨p, e, n, b⟩ := h
  refine ⟨p, ?_⟩
  simp only [LimitedReader.avail, e, n]
  have e2 : l.N.toNat = p.length + (l.N - (p.length : Int)).toNat := by omega
  rw [e2, List.take_add]
  simp

theorem LimitedReader.Reach.avail_nil {l l' : LimitedReader} (h : l.Reach l')
    (h0 : l.avail = []) : l'.avail = [] := by
  obtain ⟨p, e⟩ := h.avail
  rw [h0] at e
  exact (List.append_eq_nil.mp e.symm).2

theorem LimitedReader.Reach.length_le {l l' : LimitedReader} (h : l.Reach l') :
    l'.R.stream.length ≤ l.R.stream.length := by
  obtain ⟨p, e, _, _⟩ := h
  rw [e]; simp

theorem decoder.refill_done (fuel : Nat) (d : decoder) (lenp : Nat)
    (h : ¬ (d.buf.length < 4 ∧ d.readErr = none)) : d.refill fuel lenp = some d := by
  cases fuel <;> simp only [decoder.refill, h, if_false]

theorem decoder.refill_spec (fuel : Nat) : ∀ (d : decoder) (lenp : Nat), d.Inv →
    4 ≤ fuel + d.buf.length →
    ∃ d', d.refill fuel lenp = some d' ∧ d'.Inv ∧ d.r.Reach d'.r ∧ d'.out = d.out ∧
      d'.err = d.err ∧ d'.pending = d.pending ∧
      (4 ≤ d'.buf.length ∨ d'.readErr = some .EOF) ∧
      d'.buf.length + d'.r.R.stream.length ≤ d.buf.length + d.r.R.stream.length := by
  induction fuel with
  | zero =>
    intro d lenp hinv hf
    refine ⟨d, decoder.refill_done 0 d lenp (by omega), hinv, LimitedReader.Reach.refl _, rfl,
      rfl, rfl, Or.inl (by omega), le_refl _⟩
  | succ fuel ih =>
    intro d lenp hinv hf
    by_cases hc : d.buf.length < 4 ∧ d.readErr = none
    · obtain ⟨nn, hnn⟩ : ∃ nn, nn = (if (if lenp / 3 * 4 < 4 then 4 else lenp / 3 * 4) > 1024
          then 1024 else (if lenp / 3 * 4 < 4 then 4 else lenp / 3 * 4)) := ⟨_, rfl⟩
      have hnn4 : 4 ≤ nn := by rw [hnn]; split <;> split <;> omega
      obtain ⟨q, e, l', hr, hreach, hfil, hsz, hnil, hcons⟩ :=
        newlineFilteringRead_spec (d.r.R.stream.length + 1) d.r (nn - d.buf.length) (by omega)
          (by omega)
      have hstep : d.refill (fuel + 1) lenp =
          decoder.refill fuel { d with r := l', readErr := e, buf := d.buf ++ q } lenp := by
        simp only [decoder.refill, hc, and_self, if_true, ← hnn, hr]
      have hinv1 : decoder.Inv { d with r := l', readErr := e, buf := d.buf ++ q } := by
        refine ⟨?_, ?_, ?_⟩
        · by_cases hq : q = []
          · exact Or.inr (hnil hq).1
          · exact Or.inl (hcons hq)
        · intro he
          by_cases hq : q = []
          · exact (hnil hq).2
          · have := hcons hq
            simp only at he
            rw [this] at he
            cases he
        · intro he
          exact hreach.avail_nil (hinv.2.2 he)
      have hpend : decoder.pending { d with r := l', readErr := e, buf := d.buf ++ q } =
          d.pending := by
        simp only [decoder.pending, hfil, List.append_assoc]
      by_cases hq : q = []
      · have hdone := decoder.refill_done fuel
          { d with r := l', readErr := e, buf := d.buf ++ q } lenp
          (by simp only [(hnil hq).1]; simp)
        refine ⟨_, hstep.trans hdone, hinv1, hreach, rfl, rfl, hpend, Or.inr (hnil hq).1, ?_⟩
        simp only [List.length_append]; omega
      · have hqlen : 0 < q.length := List.length_pos.mpr hq
        obtain ⟨d', h1, h2, h3, h4, h5, h6, h7, h8⟩ :=
          ih { d with r := l', readErr := e, buf := d.buf ++ q } lenp hinv1
            (by simp only [List.length_append]; omega)
        refine ⟨d', hstep.trans h1, h2, hreach.trans h3, h4, h5, h6.trans hpend, h7, ?_⟩
        simp only [List.length_append] at h8
        omega
    · have hor : d.readErr = none ∨ d.readErr = some .EOF := hinv.1
      refine ⟨d, decoder.refill_done _ d lenp hc, hinv, LimitedReader.Reach.refl _, rfl, rfl,
        rfl, ?_, le_refl _⟩
      by_cases hb : d.buf.length < 4
      · rcases hor with h | h
        · exact absurd ⟨hb, h⟩ hc
        · exact Or.inr h
      · exact Or.inl (by omega)

/-- What every read of the decoder does, whatever the input: it returns, it
takes its bytes from the limited reader only, it delivers a byte when it gives
no error, and it gives io.EOF only when the limited reader has nothing left. -/
theorem decoder.Read_spec (d : decoder) (lenp : Nat) (hinv : d.Inv) (hl : 0 < lenp) :
    ∃ p e d', d.Read lenp = some ((p, e), d') ∧ d'.Inv ∧ d.r.Reach d'.r ∧ p.length ≤ lenp ∧
      (e = none → p ≠ [] ∧ d'.size < d.size) ∧ d'.size ≤ d.size ∧
      (e = some .EOF → d'.r.avail = []) := by
  by_cases hout : d.out.length > 0
  · refine ⟨d.out.take lenp, none, { d with out := d.out.drop lenp }, ?_, hinv,
      LimitedReader.Reach.refl _, by simp, fun _ => ⟨?_, ?_⟩, ?_, fun h => by cases h⟩
    · simp [decoder.Read, hout]
    · cases hd : d.out with
      | nil => simp [hd] at hout
      | cons c cs =>
        cases lenp with
        | zero => omega
        | succ n => simp
    · simp only [decoder.size, List.length_drop]; omega
    · simp only [decoder.size, List.length_drop]; omega
  · have hout0 : d.out = [] := List.length_eq_zero.mp (by omega)
    by_cases herr : d.err ≠ none
    · refine ⟨[], d.err, d, ?_, hinv, LimitedReader.Reach.refl _, by simp,
        fun h => absurd h herr, le_refl _, fun h => hinv.2.2 h⟩
      simp [decoder.Read, hout, herr]
    · have herr0 : d.err = none := by simpa using herr
      obtain ⟨d1, hr, hinv1, hreach, ho1, he1, hp1, hor, hsz⟩ :=
        decoder.refill_spec 4 d lenp hinv (by omega)
      by_cases hb : d1.buf.length < 4
      · have hre : d1.readErr = some .EOF := by
          rcases hor with h | h
          · omega
          · exact h
        obtain ⟨e, he⟩ : ∃ e, e = (if d1.readErr = some .EOF ∧ d1.buf.length > 0
            then some Error.ErrUnexpectedEOF else d1.readErr) := ⟨_, rfl⟩
        have hene : e ≠ none := by
          rw [he]; split
          · simp
          · rw [hre]; simp
        refine ⟨[], e, { d1 with err := e }, ?_, ⟨hinv1.1, hinv1.2.1, fun _ => hinv1.2.1 hre⟩,
          hreach, by simp, fun h => absurd h hene, ?_, fun _ => hinv1.2.1 hre⟩
        · simp only [decoder.Read, hout, if_false, herr0, ne_eq, not_true_eq_false, hr, hb,
            if_true, ← he]
        · simp only [decoder.size, ho1, hout0]
          simp only [decoder.size, hout0] at *
          omega
      · obtain ⟨nr, hnr⟩ : ∃ nr, nr = d1.buf.length / 4 * 4 := ⟨_, rfl⟩
        obtain ⟨dec, e, hdec⟩ : ∃ dec e, Decode 0 (d1.buf.take nr) = (dec, e) := ⟨_, _, rfl⟩
        have hnr4 : 4 ≤ nr := by omega
        have hnrle : nr ≤ d1.buf.length := by omega
        have hlen := Decode_length 0 (d1.buf.take nr)
        rw [hdec] at hlen
        simp only [List.length_take, Nat.min_eq_left hnrle] at hlen
        have hnw : dec.length ≤ d1.buf.length / 4 * 3 := by omega
        have hneof : e ≠ some .EOF := by
          have := Decode_ne_EOF 0 (d1.buf.take nr)
          rwa [hdec] at this
        have hnonempty : e = none → dec ≠ [] := by
          intro h0
          have := Decode_ok_nonempty 0 (d1.buf.take nr) (by rw [hdec]; exact h0)
            (by
              intro h
              have := congrArg List.length h
              simp only [List.length_take, Nat.min_eq_left hnrle, List.length_nil] at this
              omega)
          rwa [hdec] at this
        have hinv' : ∀ o, decoder.Inv { d1 with err := e, out := o, buf := d1.buf.drop nr } :=
          fun o => ⟨hinv1.1, hinv1.2.1, fun h => absurd h hneof⟩
        by_cases hw : d1.buf.length / 4 * 3 > lenp
        · refine ⟨dec.take lenp, e,
            { d1 with err := e, out := dec.drop lenp, buf := d1.buf.drop nr }, ?_, hinv' _,
            hreach, by simp, fun h => ⟨?_, ?_⟩, ?_, fun h => absurd h hneof⟩
          · simp only [decoder.Read, hout, if_false, herr0, ne_eq, not_true_eq_false, hr, hb,
              ← hnr, hdec, hw, if_true]
          · have := hnonempty h
            cases hd : dec with
            | nil => exact absurd hd this
            | cons c cs =>
              cases lenp with
              | zero => omega
              | succ n => simp
          · simp only [decoder.size, List.length_drop]
            simp only [decoder.size, hout0] at *
            omega
          · simp only [decoder.size, List.length_drop]
            simp only [decoder.size, hout0] at *
            omega
        · refine ⟨dec, e, { d1 with err := e, buf := d1.buf.drop nr }, ?_, ?_,
            hreach, by omega, fun h => ⟨hnonempty h, ?_⟩, ?_, fun h => absurd h hneof⟩
          · simp only [decoder.Read, hout, if_false, herr0, ne_eq, not_true_eq_false, hr, hb,
              ← hnr, hdec, hw]
          · exact ⟨hinv1.1, hinv1.2.1, fun h => absurd h hneof⟩
          · simp only [decoder.size, List.length_drop, ho1]
            simp only [decoder.size, hout0] at *
            omega
          · simp only [decoder.size, List.length_drop, ho1]
            simp only [decoder.size, hout0] at *
            omega

theorem decoder.Read_delivers_out (d : decoder) (lenp : Nat) (z t : List Nat)
    (hd : d.Delivers z t) (hl : 0 < lenp) (hout : d.out ≠ []) :
    ∃ p z' d', d.Read lenp = some ((p, none), d') ∧ p ≠ [] ∧ z = p ++ z' ∧
      p.length ≤ lenp ∧ d'.Delivers z' t ∧ d.r.Reach d'.r := by
  obtain ⟨hinv, herr, ht, q, hpend, hq, hz⟩ := hd
  have hlen : d.out.length > 0 := List.length_pos.mpr hout
  refine ⟨d.out.take lenp, d.out.drop lenp ++ (Decode 0 q).1, { d with out := d.out.drop lenp },
    ?_, ?_, ?_, by simp, ⟨hinv, herr, ht, q, hpend, hq, rfl⟩, LimitedReader.Reach.refl _⟩
  · simp [decoder.Read, hlen]
  · cases hd : d.out with
    | nil => exact absurd hd hout
    | cons c cs =>
      cases lenp with
      | zero => omega
      | succ n => simp
  · rw [hz, ← List.append_assoc, List.take_append_drop]

/-- A read of a decoder that has the bytes `z` to deliver: it delivers a first
part of `z`, not empty, without error, or `z` is empty and it gives the error
that ends the stream. -/
theorem decoder.Read_delivers (d : decoder) (lenp : Nat) (z t : List Nat)
    (hd : d.Delivers z t) (hl : 0 < lenp) :
    ∃ p e d', d.Read lenp = some ((p, e), d') ∧ d.r.Reach d'.r ∧ p.length ≤ lenp ∧
      ((z = [] ∧ p = [] ∧ e = some (endErr t) ∧ d'.r.avail = []) ∨
        (p ≠ [] ∧ e = none ∧ ∃ z', z = p ++ z' ∧ d'.Delivers z' t)) := by
  by_cases hout : d.out = []
  · obtain ⟨hinv, herr, ht, q, hpend, hq, hz⟩ := hd
    have hout' : ¬ d.out.length > 0 := by simp [hout]
    obtain ⟨d1, hr, hinv1, hreach, ho1, he1, hp1, hor, hsz⟩ :=
      decoder.refill_spec 4 d lenp hinv (by omega)
    have hqmod := Decode_ok_mod4 0 q hq
    have hpend1 : d1.buf ++ d1.r.avail.filter notNewline = q ++ t := by
      rw [← hpend, ← hp1]; rfl
    by_cases hb : d1.buf.length < 4
    · have hre : d1.readErr = some .EOF := by
        rcases hor with h | h
        · omega
        · exact h
      have hav : d1.r.avail = [] := hinv1.2.1 hre
      rw [hav] at hpend1
      simp only [List.filter_nil, List.append_nil] at hpend1
      have hql : q.length = 0 := by
        have := congrArg List.length hpend1
        simp only [List.length_append] at this
        omega
      have hq0 : q = [] := List.length_eq_zero.mp hql
      subst hq0
      simp only [List.nil_append] at hpend1
      have hz0 : z = [] := by rw [hz, hout]; simp [Decode]
      have hee : (if d1.readErr = some .EOF ∧ d1.buf.length > 0
          then some Error.ErrUnexpectedEOF else d1.readErr) = some (endErr t) := by
        rw [hre, hpend1, endErr]
        by_cases h0 : t = []
        · simp [h0]
        · have : t.length > 0 := List.length_pos.mpr h0
          simp [h0, this]
      refine ⟨[], some (endErr t), { d1 with err := some (endErr t) }, ?_, hreach, by simp,
        Or.inl ⟨hz0, rfl, rfl, hav⟩⟩
      simp only [decoder.Read, hout', if_false, herr, ne_eq, not_true_eq_false, hr, hb, if_true,
        hee]
    · obtain ⟨nr, hnr⟩ : ∃ nr, nr = d1.buf.length / 4 * 4 := ⟨_, rfl⟩
      have hnr4 : 4 ≤ nr := by omega
      have hnrle : nr ≤ d1.buf.length := by omega
      have hlens := congrArg List.length hpend1
      simp only [List.length_append] at hlens
      have hnrq : nr ≤ q.length := by omega
      have htake : d1.buf.take nr = q.take nr := by
        rw [← List.take_append_of_le_length hnrle, hpend1, List.take_append_of_le_length hnrq]
      have hdrop : d1.buf.drop nr ++ d1.r.avail.filter notNewline = q.drop nr ++ t := by
        rw [← List.drop_append_of_le_length hnrle, hpend1, List.drop_append_of_le_length hnrq]
      have hqsplit : (Decode 0 (q.take nr ++ q.drop nr)).2 = none := by
        rw [List.take_append_drop]; exact hq
      obtain ⟨ha, hc, hy⟩ := Decode_append (q.take nr) (nr / 4) 0 (q.drop nr)
        (by simp only [List.length_take, Nat.min_eq_left hnrq]; omega) hqsplit
      rw [List.take_append_drop] at hy
      obtain ⟨ya, hya⟩ : ∃ ya, ya = (Decode 0 (q.take nr)).1 := ⟨_, rfl⟩
      have hdec : Decode 0 (d1.buf.take nr) = (ya, none) := by
        rw [htake, hya, ← ha]
      have hlen := Decode_length 0 (d1.buf.take nr)
      rw [hdec] at hlen
      simp only [List.length_take, Nat.min_eq_left hnrle] at hlen
      have hnw : ya.length ≤ d1.buf.length / 4 * 3 := by omega
      have hyane : ya ≠ [] := by
        have := Decode_ok_nonempty 0 (d1.buf.take nr) (by rw [hdec])
          (by
            intro h
            have := congrArg List.length h
            simp only [List.length_take, Nat.min_eq_left hnrle, List.length_nil] at this
            omega)
        rwa [hdec] at this
      have hzy : z = ya ++ (Decode 0 (q.drop nr)).1 := by
        rw [hz, hout, hy, hya]; simp
      have hpne : ya.take lenp ≠ [] := by
        cases hd : ya with
        | nil => exact absurd hd hyane
        | cons c cs =>
          cases lenp with
          | zero => omega
          | succ n => simp
      have hdel : ∀ d' : decoder, d'.r = d1.r → d'.readErr = d1.readErr → d'.err = none →
          d'.buf = d1.buf.drop nr → d'.out = ya.drop lenp →
          d'.Delivers (ya.drop lenp ++ (Decode 0 (q.drop nr)).1) t := by
        intro d' h1 h2 h3 h4 h5
        refine ⟨⟨by rw [h2]; exact hinv1.1, by rw [h2, h1]; exact hinv1.2.1,
          by rw [h3]; intro h; cases h⟩, h3, ht, q.drop nr, ?_, hc, by rw [h5]⟩
        simp only [decoder.pending, h4, h1]
        exact hdrop
      by_cases hw : d1.buf.length / 4 * 3 > lenp
      · refine ⟨ya.take lenp, none,
          { d1 with err := none, out := ya.drop lenp, buf := d1.buf.drop nr }, ?_, hreach,
          by simp, Or.inr ⟨hpne, rfl, ya.drop lenp ++ (Decode 0 (q.drop nr)).1, ?_,
            hdel _ rfl rfl rfl rfl rfl⟩⟩
        · simp only [decoder.Read, hout', if_false, herr, ne_eq, not_true_eq_false, hr, hb,
            ← hnr, hdec, hw, if_true]
        · rw [hzy, ← List.append_assoc, List.take_append_drop]
      · have htk : ya.take lenp = ya := List.take_of_length_le (by omega)
        have hdr : ya.drop lenp = [] := List.drop_of_length_le (by omega)
        refine ⟨ya, none, { d1 with err := none, buf := d1.buf.drop nr }, ?_, hreach,
          by omega, Or.inr ⟨hyane, rfl, ya.drop lenp ++ (Decode 0 (q.drop nr)).1, ?_,
            hdel _ rfl rfl rfl rfl (by rw [hdr, ho1, hout])⟩⟩
        · simp only [decoder.Read, hout', if_false, herr, ne_eq, not_true_eq_false, hr, hb,
            ← hnr, hdec, hw]
        · rw [hzy, hdr]; simp
  · obtain ⟨p, z', d', h1, h2, h3, h4, h5, h6⟩ := decoder.Read_delivers_out d lenp z t hd hl hout
    exact ⟨p, none, d', h1, h6, h4, Or.inr ⟨h2, rfl, z', h3, h5⟩⟩

/-! ## The loops over the decoder, for every input and every sink -/

theorem readFullLoop_spec (fuel : Nat) : ∀ (d : decoder) (hsh : List Nat) (err : Option Error),
    d.Inv → 20 ≤ fuel + hsh.length →
    ∃ hsh' e d', readFullLoop fuel d hsh err = some ((hsh', e), d') ∧ d'.Inv ∧ d.r.Reach d'.r ∧
      d'.size ≤ d.size ∧ (hsh'.length < 20 → e ≠ none ∨ err ≠ none) := by
  induction fuel with
  | zero =>
    intro d hsh err hinv hf
    refine ⟨hsh, err, d, ?_, hinv, LimitedReader.Reach.refl _, le_refl _, fun h => by omega⟩
    have : ¬ (hsh.length < 20 ∧ err = none) := by omega
    simp only [readFullLoop, this, if_false]
  | succ fuel ih =>
    intro d hsh err hinv hf
    by_cases hc : hsh.length < 20 ∧ err = none
    · obtain ⟨p, e, d1, hr, hinv1, hreach, hlen, hprog, hsz, _⟩ :=
        decoder.Read_spec d (20 - hsh.length) hinv (by omega)
      by_cases he : e = none
      · obtain ⟨hp, _⟩ := hprog he
        have hpl : 0 < p.length := List.length_pos.mpr hp
        obtain ⟨hsh', e', d', h1, h2, h3, h4, h5⟩ := ih d1 (hsh ++ p) e hinv1
          (by simp only [List.length_append]; omega)
        refine ⟨hsh', e', d', ?_, h2, hreach.trans h3, by omega, fun h => ?_⟩
        · simp only [readFullLoop, hc, and_self, if_true, hr]
          exact h1
        · rcases h5 h with h | h
          · exact Or.inl h
          · exact absurd he h
      · have hdone : readFullLoop fuel d1 (hsh ++ p) e = some ((hsh ++ p, e), d1) := by
          cases fuel <;> simp only [readFullLoop, he, and_false, if_false]
        refine ⟨hsh ++ p, e, d1, ?_, hinv1, hreach, hsz, fun _ => Or.inl he⟩
        simp only [readFullLoop, hc, and_self, if_true, hr]
        exact hdone
    · refine ⟨hsh, err, d, ?_, hinv, LimitedReader.Reach.refl _, le_refl _, fun h => ?_⟩
      · simp only [readFullLoop, hc, if_false]
      · right
        intro h0
        exact hc ⟨h, h0⟩

/-- The call io.ReadFull returns, with an error exactly when it got fewer than 20 bytes. -/
theorem ReadFull_spec (d : decoder) (hinv : d.Inv) :
    ∃ hsh e d', ReadFull d = some ((hsh, e), d') ∧ d'.Inv ∧ d.r.Reach d'.r ∧
      d'.size ≤ d.size ∧ (e = none ↔ 20 ≤ hsh.length) := by
  obtain ⟨hsh, e, d', h1, h2, h3, h4, h5⟩ := readFullLoop_spec 20 d [] none hinv (by simp)
  by_cases h20 : 20 ≤ hsh.length
  · refine ⟨hsh, none, d', ?_, h2, h3, h4, by simp [h20]⟩
    simp [ReadFull, h1, h20]
  · have hne : e ≠ none := by
      rcases h5 (by omega) with h | h
      · exact h
      · exact absurd rfl h
    have hge : ¬ hsh.length ≥ 20 := by omega
    by_cases hc : hsh.length > 0 ∧ e = some .EOF
    · refine ⟨hsh, some .ErrUnexpectedEOF, d', ?_, h2, h3, h4, by simp [h20]⟩
      simp only [ReadFull, h1, hge, if_false, hc, and_self, if_true]
    · refine ⟨hsh, e, d', ?_, h2, h3, h4, by simp [h20, hne]⟩
      simp only [ReadFull, h1, hge, if_false, hc]

/-- The call io.Copy returns, has read through the limited reader only, and
gives no error only when the limited reader has nothing left. -/
theorem Copy_spec {σ : Type} (W : Writer σ) (fuel : Nat) : ∀ (d : decoder) (w : σ), d.Inv →
    d.size < fuel →
    ∃ err w' d', Copy W fuel d w = some (err, w', d') ∧ d.r.Reach d'.r ∧
      (err = none → d'.r.avail = []) := by
  induction fuel with
  | zero => intro d w _ hf; omega
  | succ fuel ih =>
    intro d w hinv hf
    obtain ⟨p, er, d1, hr, hinv1, hreach, hlen, hprog, hsz, heof⟩ :=
      decoder.Read_spec d 32768 hinv (by omega)
    have hfin : ∀ w1 : σ, er ≠ none →
        ∃ err w' d', some ((if er = some .EOF then none else er), w1, d1) = some (err, w', d') ∧
          d.r.Reach d'.r ∧ (err = none → d'.r.avail = []) := by
      intro w1 hne
      refine ⟨_, w1, d1, rfl, hreach, fun h => ?_⟩
      by_cases h0 : er = some .EOF
      · exact heof h0
      · simp only [h0, if_false] at h
        exact absurd h hne
    cases p with
    | nil =>
      have hne : er ≠ none := fun h => (hprog h).1 rfl
      simp only [Copy, hr, hne, ne_eq, not_false_eq_true, if_true]
      exact hfin w hne
    | cons c cs =>
      obtain ⟨w1, nw, ew, hW⟩ : ∃ w1 nw ew, W.Write w (c :: cs) = (w1, nw, ew) := ⟨_, _, _, rfl⟩
      simp only [Copy, hr, hW]
      generalize (if (c :: cs).length < nw ∧ ew = none then some (Error.SinkError 0) else ew) = ew'
      by_cases h1 : ew' ≠ none
      · simp only [h1, ne_eq, not_false_eq_true, if_true]
        exact ⟨_, w1, d1, rfl, hreach, fun h => absurd h h1⟩
      · simp only [h1, if_false]
        by_cases h2 : (c :: cs).length ≠ nw
        · simp only [h2, ne_eq, not_false_eq_true, if_true]
          exact ⟨_, w1, d1, rfl, hreach, fun h => by cases h⟩
        · simp only [h2, if_false]
          by_cases h3 : er ≠ none
          · simp only [h3, ne_eq, not_false_eq_true, if_true]
            exact hfin w1 h3
          · simp only [h3, if_false]
            have he : er = none := by simpa using h3
            obtain ⟨_, hlt⟩ := hprog he
            obtain ⟨err, w', d', h1, h2, h3⟩ := ih d1 w1 hinv1 (by omega)
            exact ⟨err, w', d', h1, hreach.trans h2, h3⟩

/-- The last loop of `Unwrap` returns, has read through the limited reader
only, and gives no error only when the limited reader has nothing left. -/
theorem decodeLoop_spec {σ : Type} (charMap : Nat → Nat) (W : Writer σ) (fuel : Nat) :
    ∀ (d : decoder) (w : σ) (lenb : Nat), d.Inv → 0 < lenb → d.size < fuel →
    ∃ err w' d', decodeLoop charMap W fuel d w lenb = some (err, w', d') ∧ d.r.Reach d'.r ∧
      (err = none → d'.r.avail = []) := by
  induction fuel with
  | zero => intro d w lenb _ _ hf; omega
  | succ fuel ih =>
    intro d w lenb hinv hl hf
    obtain ⟨p, er, d1, hr, hinv1, hreach, hlen, hprog, hsz, heof⟩ :=
      decoder.Read_spec d lenb hinv hl
    obtain ⟨w1, nw, ew, hW⟩ : ∃ w1 nw ew, W.Write w (p.map charMap) = (w1, nw, ew) :=
      ⟨_, _, _, rfl⟩
    simp only [decodeLoop, hr, hW]
    split
    · rename_i hc
      exact ⟨_, w1, d1, rfl, hreach, fun h => absurd h hc.1⟩
    · split
      · rename_i hne
        refine ⟨_, w1, d1, rfl, hreach, fun h => ?_⟩
        by_cases h0 : er = some .EOF
        · exact heof h0
        · simp only [h0, if_false] at h
          exact absurd h hne
      · rename_i hne
        have he : er = none := by simpa using hne
        obtain ⟨hp, hlt⟩ := hprog he
        obtain ⟨err, w', d', h1, h2, h3⟩ := ih d1 w1 (p.map charMap).length hinv1
          (by simp only [List.length_map]; exact List.length_pos.mpr hp) (by omega)
        exact ⟨err, w', d', h1, hreach.trans h2, h3⟩

/-! ## Unwrap on a complete header -/

theorem LimitedReader.Reach.drop {l l' : LimitedReader} (h : l.Reach l') :
    ∃ k, k ≤ l.N.toNat ∧ l'.R.stream = l.R.stream.drop k := by
  obtain ⟨p, e, _, b⟩ := h
  exact ⟨p.length, b, by rw [e]; simp⟩

theorem LimitedReader.Reach.done {l l' : LimitedReader} (h : l.Reach l')
    (h0 : l'.avail = []) : l'.R.stream = l.R.stream.drop l.N.toNat := by
  obtain ⟨p, e, n, b⟩ := h
  simp only [LimitedReader.avail, List.take_eq_nil_iff] at h0
  rw [e]
  rcases h0 with h0 | h0
  · have : l.N.toNat = p.length := by omega
    rw [this]; simp
  · rw [h0]
    simp only [List.append_nil]
    exact (List.drop_of_length_le b).symm

theorem NewDecoder_inv (l : LimitedReader) : (NewDecoder l).Inv :=
  ⟨Or.inl rfl, fun h => by simp [NewDecoder] at h, fun h => by simp [NewDecoder] at h⟩

/-- After a complete header `Unwrap` is the reading of the hash followed by one
of the two copying loops, on the reader that the 20 lines of the header and the
lines before them leave. -/
theorem Unwrap_complete_eq {σ : Type} (charMap : Nat → Nat) (noDecode : Bool) (W : Writer σ)
    (w : σ) (h : HeaderLines) (hc : h.Complete) (rest : List Nat) (b : Reader)
    (hb : b.stream = h.bytes ++ rest) :
    Unwrap charMap noDecode W w b =
      unwrapBody charMap noDecode W w h.typ h.wrappedLength (b.skip (h.pre.length + 20)) := by
  simp only [Unwrap, headerLoop_bytes h hc rest b hb, unwrapBody]
  simp

/-- The part of `Unwrap` after the header returns the type code that it is
given; it takes from the stream at most as many bytes as the length that it is
given, and all of them when it gives no error. -/
theorem unwrapBody_spec {σ : Type} (charMap : Nat → Nat) (noDecode : Bool) (W : Writer σ)
    (w : σ) (typ : Nat) (n : Int) (r : Reader) :
    ∃ e w' r' k, unwrapBody charMap noDecode W w typ n r = ⟨.ret typ e, w', r'⟩ ∧
      r'.stream = r.stream.drop k ∧ k ≤ n.toNat ∧
      (e = none → r'.stream = r.stream.drop n.toNat) := by
  obtain ⟨hsh, e, d1, h1, hinv1, hreach1, hsz1, he⟩ :=
    ReadFull_spec (NewDecoder { R := r, N := n }) (NewDecoder_inv _)
  have hsz : d1.size < r.stream.length + 1 := by
    have : (NewDecoder { R := r, N := n }).size = r.stream.length := by
      simp [NewDecoder, decoder.size]
    omega
  simp only [unwrapBody, h1]
  cases e with
  | some err =>
    obtain ⟨k, hk, hR⟩ := hreach1.drop
    exact ⟨_, w, d1.r.R, k, rfl, hR, hk, fun h => by cases h⟩
  | none =>
    cases noDecode with
    | true =>
      obtain ⟨err, w', d', h2, hreach2, hdone⟩ := Copy_spec W (r.stream.length + 1) d1 w hinv1 hsz
      obtain ⟨k, hk, hR⟩ := (hreach1.trans hreach2).drop
      refine ⟨err, w', d'.r.R, k, ?_, hR, hk, fun h => ?_⟩
      · simp only [h2, if_true]
      · exact (hreach1.trans hreach2).done (hdone h)
    | false =>
      obtain ⟨err, w', d', h2, hreach2, hdone⟩ :=
        decodeLoop_spec charMap W (r.stream.length + 1) d1 w 4096 hinv1 (by omega) hsz
      obtain ⟨k, hk, hR⟩ := (hreach1.trans hreach2).drop
      refine ⟨err, w', d'.r.R, k, ?_, hR, hk, fun h => ?_⟩
      · simp only [h2]
        rfl
      · exact (hreach1.trans hreach2).done (hdone h)

/-- After a complete header `Unwrap` returns the type code of the header; it
takes from the input at most as many bytes as the header declares, and all of
them when it gives no error. -/
theorem Unwrap_complete {σ : Type} (charMap : Nat → Nat) (noDecode : Bool) (W : Writer σ)
    (w : σ) (h : HeaderLines) (hc : h.Complete) (rest : List Nat) (b : Reader)
    (hb : b.stream = h.bytes ++ rest) :
    ∃ e w' r' k, Unwrap charMap noDecode W w b = ⟨.ret h.typ e, w', r'⟩ ∧
      r'.stream = rest.drop k ∧ k ≤ h.wrappedLength.toNat ∧
      (e = none → r'.stream = rest.drop h.wrappedLength.toNat) := by
  rw [Unwrap_complete_eq charMap noDecode W w h hc rest b hb]
  have hs := b.skip_header h hc rest hb
  obtain ⟨e, w', r', k, h1, h2, h3, h4⟩ :=
    unwrapBody_spec charMap noDecode W w h.typ h.wrappedLength (b.skip (h.pre.length + 20))
  rw [hs] at h2 h4
  exact ⟨e, w', r', k, h1, h2, h3, h4⟩

/-! ## The loops over a decoder whose input is base64 text, with the sink that keeps all -/

theorem bufferWriter_Write (w p : List Nat) :
    bufferWriter.Write w p = (w ++ p, p.length, none) := rfl

theorem readFullLoop_delivers (fuel : Nat) : ∀ (d : decoder) (hsh z t : List Nat),
    d.Delivers z t → hsh.length ≤ 20 → 20 ≤ hsh.length + z.length → 20 ≤ fuel + hsh.length →
    ∃ d', readFullLoop fuel d hsh none = some ((hsh ++ z.take (20 - hsh.length), none), d') ∧
      d'.Delivers (z.drop (20 - hsh.length)) t ∧ d.r.Reach d'.r := by
  induction fuel with
  | zero =>
    intro d hsh z t hd h1 h2 h3
    have e : 20 - hsh.length = 0 := by omega
    refine ⟨d, ?_, by rw [e]; exact hd, LimitedReader.Reach.refl _⟩
    have : ¬ hsh.length < 20 := by omega
    simp [readFullLoop, this, e]
  | succ fuel ih =>
    intro d hsh z t hd h1 h2 h3
    by_cases hc : hsh.length < 20
    · obtain ⟨p, e, d1, hr, hreach, hlen, hcase⟩ :=
        decoder.Read_delivers d (20 - hsh.length) z t hd (by omega)
      rcases hcase with ⟨hz, _⟩ | ⟨hp, he, z', hz, hd1⟩
      · rw [hz] at h2; simp at h2; omega
      · subst he
        have hpl : 0 < p.length := List.length_pos.mpr hp
        have hzl : z.length = p.length + z'.length := by rw [hz]; simp
        obtain ⟨d', h4, h5, h6⟩ := ih d1 (hsh ++ p) z' t hd1
          (by simp only [List.length_append]; omega) (by simp only [List.length_append]; omega)
          (by simp only [List.length_append]; omega)
        have e1 : 20 - (hsh ++ p).length = 20 - hsh.length - p.length := by
          simp only [List.length_append]; omega
        rw [e1] at h4 h5
        refine ⟨d', ?_, ?_, hreach.trans h6⟩
        · simp only [readFullLoop, hc, and_self, if_true, hr]
          rw [h4, hz, List.take_append_eq_append_take, List.take_of_length_le hlen]
          simp
        · rw [hz, List.drop_append_eq_append_drop, List.drop_of_length_le hlen]
          simpa using h5
    · have e : 20 - hsh.length = 0 := by omega
      refine ⟨d, ?_, by rw [e]; exact hd, LimitedReader.Reach.refl _⟩
      simp [readFullLoop, hc, e]

theorem decodeLoop_delivers (charMap : Nat → Nat) (fuel : Nat) :
    ∀ (d : decoder) (w : List Nat) (lenb : Nat) (z t : List Nat),
    d.Delivers z t → 0 < lenb → z.length < fuel →
    ∃ d', decodeLoop charMap bufferWriter fuel d w lenb =
        some ((if t = [] then none else some .ErrUnexpectedEOF), w ++ z.map charMap, d') ∧
      d.r.Reach d'.r ∧ d'.r.avail = [] := by
  induction fuel with
  | zero => intro d w lenb z t _ _ hf; omega
  | succ fuel ih =>
    intro d w lenb z t hd hl hf
    obtain ⟨p, e, d1, hr, hreach, hlen, hcase⟩ := decoder.Read_delivers d lenb z t hd hl
    rcases hcase with ⟨hz, hp, he, hav⟩ | ⟨hp, he, z', hz, hd1⟩
    · subst hz hp he
      refine ⟨d1, ?_, hreach, hav⟩
      simp only [decodeLoop, hr, bufferWriter_Write, List.map_nil, List.append_nil]
      by_cases h0 : t = []
      · simp [endErr, h0]
      · simp [endErr, h0]
    · subst he
      have hpl : 0 < p.length := List.length_pos.mpr hp
      have hzl : z.length = p.length + z'.length := by rw [hz]; simp
      obtain ⟨d', h4, h5, h6⟩ := ih d1 (w ++ p.map charMap) (p.map charMap).length z' t hd1
        (by simpa using hpl) (by omega)
      refine ⟨d', ?_, hreach.trans h5, h6⟩
      simp only [decodeLoop, hr, bufferWriter_Write]
      simp only [ne_eq, not_true_eq_false, and_true, if_false, false_and]
      rw [h4, hz]
      simp

theorem Copy_delivers (fuel : Nat) : ∀ (d : decoder) (w : List Nat) (z t : List Nat),
    d.Delivers z t → z.length < fuel →
    ∃ d', Copy bufferWriter fuel d w =
        some ((if t = [] then none else some .ErrUnexpectedEOF), w ++ z, d') ∧
      d.r.Reach d'.r ∧ d'.r.avail = [] := by
  induction fuel with
  | zero => intro d w z t _ hf; omega
  | succ fuel ih =>
    intro d w z t hd hf
    obtain ⟨p, e, d1, hr, hreach, hlen, hcase⟩ :=
      decoder.Read_delivers d 32768 z t hd (by omega)
    rcases hcase with ⟨hz, hp, he, hav⟩ | ⟨hp, he, z', hz, hd1⟩
    · subst hz hp he
      refine ⟨d1, ?_, hreach, hav⟩
      simp only [Copy, hr, List.append_nil]
      by_cases h0 : t = []
      · simp [endErr, h0]
      · simp [endErr, h0]
    · subst he
      have hzl : z.length = p.length + z'.length := by rw [hz]; simp
      cases p with
      | nil => exact absurd rfl hp
      | cons c cs =>
        obtain ⟨d', h4, h5, h6⟩ := ih d1 (w ++ c :: cs) z' t hd1
          (by simp only [List.length_cons] at hzl; omega)
        refine ⟨d', ?_, hreach.trans h5, h6⟩
        simp only [Copy, hr, bufferWriter_Write]
        simp only [lt_self_iff_false, false_and, if_false, ne_eq, not_true_eq_false]
        rw [h4, hz]
        simp

/-- On a reader whose stream, within the length `n`, is base64 text of whole
quanta that decode to `hash ++ s`, followed by the bytes `t` of a cut quantum,
the part of `Unwrap` after the header writes the bytes of `s` and takes the
whole length from the stream; it gives no error when `t` is empty and
io.ErrUnexpectedEOF otherwise. -/
theorem unwrapBody_text (charMap : Nat → Nat) (noDecode : Bool) (w : List Nat) (typ : Nat)
    (n : Int) (r : Reader) (q t hash s : List Nat)
    (hfil : (r.stream.take n.toNat).filter notNewline = q ++ t) (ht : t.length < 4)
    (hq : Decode 0 q = (hash ++ s, none)) (hh : hash.length = 20) :
    ∃ r', unwrapBody charMap noDecode bufferWriter w typ n r =
        ⟨.ret typ (if t = [] then none else some .ErrUnexpectedEOF),
          w ++ emit charMap noDecode s, r'⟩ ∧
      r'.stream = r.stream.drop n.toNat := by
  have hd0 : (NewDecoder { R := r, N := n }).Delivers (hash ++ s) t := by
    refine ⟨NewDecoder_inv _, rfl, ht, q, ?_, by rw [hq], by rw [hq]; rfl⟩
    simp only [decoder.pending, NewDecoder, LimitedReader.avail, List.nil_append]
    exact hfil
  obtain ⟨d1, h1, hd1, hreach1⟩ := readFullLoop_delivers 20
    (NewDecoder { R := r, N := n }) [] (hash ++ s) t hd0 (by simp)
    (by simp; omega) (by simp)
  have htake : (hash ++ s).take 20 = hash := by
    rw [← hh]; simp
  have hdrop : (hash ++ s).drop 20 = s := by
    rw [← hh]; simp
  simp only [List.length_nil, Nat.sub_zero, List.nil_append, htake, hdrop] at h1 hd1
  have hRF : ReadFull (NewDecoder { R := r, N := n }) = some ((hash, none), d1) := by
    simp [ReadFull, h1, hh]
  have hslen : s.length < r.stream.length + 1 := by
    have h4 := Decode_length 0 q
    rw [hq] at h4
    have h5 : (q ++ t).length ≤ r.stream.length := by
      rw [← hfil]
      exact (List.length_filter_le _ _).trans (by simp)
    simp only [List.length_append] at h4 h5
    omega
  simp only [unwrapBody, hRF]
  cases noDecode with
  | true =>
    obtain ⟨d', h2, hreach2, hav⟩ := Copy_delivers (r.stream.length + 1) d1 w s t hd1 hslen
    have hR := (hreach1.trans hreach2).done hav
    exact ⟨d'.r.R, by simp only [if_true, h2, emit], hR⟩
  | false =>
    obtain ⟨d', h2, hreach2, hav⟩ :=
      decodeLoop_delivers charMap (r.stream.length + 1) d1 w 4096 s t hd1 (by omega) hslen
    have hR := (hreach1.trans hreach2).done hav
    refine ⟨d'.r.R, ?_, hR⟩
    simp only [h2, emit]
    rfl

/-- After a complete header, on a body whose base64 text within the declared
length is whole quanta that decode to `hash ++ s`, followed by the bytes `t` of
a cut quantum, `Unwrap` writes the bytes of `s` and takes the whole declared
length from the input; it gives no error when `t` is empty and
io.ErrUnexpectedEOF otherwise. -/
theorem Unwrap_text (charMap : Nat → Nat) (noDecode : Bool) (w : List Nat) (h : HeaderLines)
    (hc : h.Complete) (rest q t hash s : List Nat) (b : Reader)
    (hb : b.stream = h.bytes ++ rest)
    (hfil : (rest.take h.wrappedLength.toNat).filter notNewline = q ++ t) (ht : t.length < 4)
    (hq : Decode 0 q = (hash ++ s, none)) (hh : hash.length = 20) :
    ∃ r', Unwrap charMap noDecode bufferWriter w b =
        ⟨.ret h.typ (if t = [] then none else some .ErrUnexpectedEOF),
          w ++ emit charMap noDecode s, r'⟩ ∧
      r'.stream = rest.drop h.wrappedLength.toNat := by
  rw [Unwrap_complete_eq charMap noDecode bufferWriter w h hc rest b hb]
  have hs := b.skip_header h hc rest hb
  have := unwrapBody_text charMap noDecode w h.typ h.wrappedLength
    (b.skip (h.pre.length + 20)) q t hash s (by rw [hs]; exact hfil) ht hq hh
  rw [hs] at this
  exact this

/-! ## Inputs without a complete header -/

theorem completeLines_line (l rest : List Nat) (h : 10 ∉ l) :
    completeLines (l ++ 10 :: rest) = l :: completeLines rest := by
  induction l with
  | nil => simp [completeLines]
  | cons c l ih =>
    have hc : c ≠ 10 := by intro e; exact h (by simp [e])
    have hl : 10 ∉ l := fun m => h (List.mem_cons_of_mem _ m)
    simp [completeLines, hc, ih hl]

theorem headerLoop_eof (f : Nat) (b : Reader) (typ n : Nat) (s : Bool) (h : 10 ∉ b.stream) :
    headerLoop (f + 1) b typ n s = .eof typ ⟨[], []⟩ := by
  simp [headerLoop, b.ReadBytes_none h]

/-- The header loop on an input without marker line ends with io.EOF. -/
theorem headerLoop_noMarker (f : Nat) : ∀ (b : Reader) (typ n : Nat), b.stream.length < f →
    (∀ l ∈ completeLines b.stream, isMarker l = false) →
    headerLoop f b typ n false = .eof typ ⟨[], []⟩ := by
  induction f with
  | zero => intro b typ n hf; omega
  | succ f ih =>
    intro b typ n hf hm
    rcases split_line b.stream with h | ⟨l, rest, hl, e⟩
    · exact headerLoop_eof f b typ n false h
    · rw [e, completeLines_line l rest hl] at hm
      rw [headerLoop_line f b l rest typ n false hl e]
      have h1 : isMarker l = false := hm l (by simp)
      have hn := (b.ReadBytes_line l rest hl e).2
      simp only [Bool.not_false, if_true, h1, Bool.false_eq_true, if_false]
      exact ih b.next typ (n + 1) (by rw [hn]; rw [e] at hf; simp at hf; omega)
        (fun x hx => hm x (by rw [hn] at hx; simp [hx]))

theorem Unwrap_noMarker {σ : Type} (charMap : Nat → Nat) (noDecode : Bool) (W : Writer σ)
    (w : σ) (b : Reader) (hm : ∀ l ∈ completeLines b.stream, isMarker l = false) :
    Unwrap charMap noDecode W w b = ⟨.ret 0 (some .EOF), w, ⟨[], []⟩⟩ := by
  simp only [Unwrap, headerLoop_noMarker (b.stream.length + 1) b 0 0 (by omega) hm]

/-! ## TrimSpace on a line of ASCII white space around one byte -/

theorem spaceWidth_ascii (c : Nat) (rest : List Nat) (h : asciiSpace c = true) :
    spaceWidth (c :: rest) = 1 := by
  simp [spaceWidth, h]

theorem spaceWidth_plain (c : Nat) (rest : List Nat) (h1 : asciiSpace c = false)
    (h2 : c < 128) : spaceWidth (c :: rest) = 0 := by
  have hc : ∀ r ∈ spaceRunes, (r.isPrefixOf (c :: rest)) = false := by
    intro r hr
    simp only [spaceRunes, List.mem_cons, List.mem_singleton, List.not_mem_nil, or_false] at hr
    rcases hr with h | h | h | h | h | h | h | h | h | h | h | h | h | h | h | h | h | h | h <;>
      subst h <;> simp [List.isPrefixOf] <;> omega
  have hf : spaceRunes.find? (fun r => r.isPrefixOf (c :: rest)) = none := by
    rw [List.find?_eq_none]
    intro r hr
    simp [hc r hr]
  simp only [spaceWidth, h1, Bool.false_eq_true, if_false, hf]

theorem spaceWidthRev_ascii (c : Nat) (rest : List Nat) (h : asciiSpace c = true) :
    spaceWidthRev (c :: rest) = 1 := by
  simp [spaceWidthRev, h]

theorem spaceWidthRev_single (c : Nat) (h1 : asciiSpace c = false) :
    spaceWidthRev [c] = 0 := by
  have hf : spaceRunes.find? (fun r => r.reverse.isPrefixOf [c]) = none := by
    simp [spaceRunes, List.find?, List.isPrefixOf]
  simp only [spaceWidthRev, h1, Bool.false_eq_true, if_false, hf]

theorem trimLeftLoop_ascii (ws : List Nat) : ∀ (f c : Nat) (rest : List Nat),
    (∀ x ∈ ws, asciiSpace x = true) → asciiSpace c = false → c < 128 → ws.length ≤ f →
    trimLeftLoop f (ws ++ c :: rest) = c :: rest := by
  induction ws with
  | nil =>
    intro f c rest _ h1 h2 _
    cases f with
    | zero => rfl
    | succ f => simp [trimLeftLoop, spaceWidth_plain c rest h1 h2]
  | cons x ws ih =>
    intro f c rest hws h1 h2 hf
    cases f with
    | zero => simp at hf
    | succ f =>
      have hx : asciiSpace x = true := hws x (by simp)
      simp only [List.cons_append, trimLeftLoop, spaceWidth_ascii x _ hx]
      simp only [zero_add, List.drop_succ_cons, List.drop_zero]
      exact ih f c rest (fun y hy => hws y (by simp [hy])) h1 h2 (by simp at hf; omega)

theorem trimRightLoop_ascii (ws : List Nat) : ∀ (f c : Nat),
    (∀ x ∈ ws, asciiSpace x = true) → asciiSpace c = false → ws.length ≤ f →
    trimRightLoop f (ws ++ [c]) = [c] := by
  induction ws with
  | nil =>
    intro f c _ h1 _
    cases f with
    | zero => rfl
    | succ f => simp [trimRightLoop, spaceWidthRev_single c h1]
  | cons x ws ih =>
    intro f c hws h1 hf
    cases f with
    | zero => simp at hf
    | succ f =>
      have hx : asciiSpace x = true := hws x (by simp)
      simp only [List.cons_append, trimRightLoop, spaceWidthRev_ascii x _ hx]
      simp only [zero_add, List.drop_succ_cons, List.drop_zero]
      exact ih f c (fun y hy => hws y (by simp [hy])) h1 (by simp at hf; omega)

/-- A line that is one byte between runs of ASCII white space is trimmed to that byte. -/
theorem TrimSpace_ascii (ws1 ws2 : List Nat) (c : Nat) (h1 : ∀ x ∈ ws1, asciiSpace x = true)
    (h2 : ∀ x ∈ ws2, asciiSpace x = true) (hc : asciiSpace c = false) (hlt : c < 128) :
    TrimSpace (ws1 ++ c :: ws2) = [c] := by
  simp only [TrimSpace]
  rw [trimLeftLoop_ascii ws1 _ c ws2 h1 hc hlt (by simp)]
  simp only [List.reverse_cons]
  rw [trimRightLoop_ascii ws2.reverse _ c (fun x hx => h2 x (by simpa using hx)) hc (by simp)]
  rfl

/-! ## Headers that are malformed or cut -/

theorem ParseInt_syntax_zero (s : List Nat) (h : (ParseInt s).2 = some .ErrSyntax) :
    (ParseInt s).1 = 0 := by
  cases s with
  | nil => rfl
  | cons c cs =>
    simp only [ParseInt] at h ⊢
    generalize ParseUint (if c = 43 ∨ c = 45 then cs else c :: cs) = u at h ⊢
    obtain ⟨un, e⟩ := u
    cases e with
    | none =>
      simp only at h ⊢
      split at h <;> try split at h
      all_goals simp at h
    | some e =>
      cases e with
      | ErrSyntax => rfl
      | ErrRange =>
        simp only at h ⊢
        split at h <;> try split at h
        all_goals simp at h

/-- With a declared length of zero or less the hash cannot be read: io.ReadFull
gets io.EOF at once and takes nothing from the input. -/
theorem ReadFull_nonpos (r : Reader) (n : Int) (hn : n ≤ 0) :
    ∃ d, ReadFull (NewDecoder { R := r, N := n }) = some (([], some .EOF), d) ∧
      d.r.R = r := by
  refine ⟨⟨some .EOF, some .EOF, ⟨r, n⟩, [], []⟩, ?_, rfl⟩
  simp [ReadFull, readFullLoop, decoder.Read, NewDecoder, decoder.refill, newlineFilteringRead,
    LimitedReader.Read, hn]

/-- On a complete header whose length field strconv.ParseInt rejects for its
syntax, `Unwrap` returns the error of the hash read, "read hash: EOF", writes
nothing and takes nothing from the input after line 20. -/
theorem Unwrap_length_syntax_error {σ : Type} (charMap : Nat → Nat) (noDecode : Bool)
    (W : Writer σ) (w : σ) (h : HeaderLines) (hc : h.Complete) (rest : List Nat) (b : Reader)
    (hb : b.stream = h.bytes ++ rest) (hs : (ParseInt h.field2).2 = some .ErrSyntax) :
    ∃ r', Unwrap charMap noDecode W w b = ⟨.ret h.typ (some (.ReadHash .EOF)), w, r'⟩ ∧
      r'.stream = rest := by
  have h0 : h.wrappedLength = 0 := ParseInt_syntax_zero _ hs
  obtain ⟨d, hd, hR⟩ := ReadFull_nonpos (b.skip (h.pre.length + 20)) h.wrappedLength (by omega)
  rw [Unwrap_complete_eq charMap noDecode W w h hc rest b hb]
  refine ⟨b.skip (h.pre.length + 20), ?_, b.skip_header h hc rest hb⟩
  simp only [unwrapBody, hd, hR]

/-- The header loop on a header cut before the end of line 20, whose line 19, if
it is there, is not blank: ReadBytes finds the end of the input and the loop
ends with io.EOF. -/
theorem headerLoop_cut (pre : List (List Nat)) (marker : List Nat) (ls : List (List Nat))
    (frag : List Nat) (g : Nat) (b : Reader)
    (hb : b.stream = joinLines (pre ++ marker :: ls) ++ frag)
    (hnl : ∀ l ∈ pre ++ marker :: ls, 10 ∉ l) (hpre : ∀ l ∈ pre, isMarker l = false)
    (hmk : isMarker marker = true) (hlen : ls.length < 19) (hfrag : 10 ∉ frag)
    (htyp : ∀ l, ls.get? 17 = some l → TrimSpace l ≠ []) :
    ∃ typ, headerLoop (g + 1 + ls.length + 1 + pre.length) b 0 0 false =
      .eof typ ⟨[], []⟩ := by
  have hnl1 : ∀ l ∈ pre, 10 ∉ l := fun l hl => hnl l (by simp [hl])
  have hnl2 : 10 ∉ marker := hnl _ (by simp)
  have hnl3 : ∀ l ∈ ls, 10 ∉ l := fun l hl => hnl l (by simp [hl])
  have hb0 : b.stream = joinLines pre ++ (marker ++ 10 :: (joinLines ls ++ frag)) := by
    rw [hb]; simp [joinLines_append, joinLines]
  have hb1 := Reader.skip_stream pre b _ hnl1 hb0
  have hb2 := ((b.skip pre.length).ReadBytes_line marker _ hnl2 hb1).2
  rw [headerLoop_pre pre _ b _ _ _ hnl1 hpre hb0]
  rw [headerLoop_line _ _ marker _ _ _ _ hnl2 hb1]
  simp only [hmk, Bool.not_false, if_true]
  by_cases h18 : ls.length < 18
  · have hb3 := Reader.skip_stream ls _ _ hnl3 hb2
    rw [headerLoop_preamble ls _ _ _ _ _ hnl3 (by omega) hb2]
    exact ⟨0, headerLoop_eof g _ 0 _ true (by rw [hb3]; exact hfrag)⟩
  · have hl18 : ls.length = 18 := by omega
    obtain ⟨tl, htl⟩ : ∃ tl, ls = ls.take 17 ++ [tl] := by
      have h1 : ls = ls.take 17 ++ ls.drop 17 := (List.take_append_drop 17 ls).symm
      have h2 : (ls.drop 17).length = 1 := by simp [hl18]
      match hd : ls.drop 17, h2 with
      | [tl], _ => exact ⟨tl, by rw [← hd]; exact h1⟩
    have hget : ls.get? 17 = some tl := by
      rw [htl, List.get?_eq_getElem?, List.getElem?_append_right (by simp [hl18])]
      simp [hl18]
    have hne := htyp tl hget
    have htake : (ls.take 17).length = 17 := by simp [hl18]
    have hnl4 : ∀ l ∈ ls.take 17, 10 ∉ l := fun l hl => hnl3 l (List.mem_of_mem_take hl)
    have hnl5 : 10 ∉ tl := hnl3 tl (by rw [htl]; simp)
    have e1 : joinLines ls ++ frag = joinLines (ls.take 17) ++ (tl ++ 10 :: frag) := by
      conv_lhs => rw [htl]
      simp [joinLines_append, joinLines]
    have e2 : g + 1 + ls.length = (g + 1 + 1) + (ls.take 17).length := by omega
    rw [e1] at hb2
    have hb3 := Reader.skip_stream (ls.take 17) _ _ hnl4 hb2
    have hb4 := (((b.skip pre.length).next.skip (ls.take 17).length).ReadBytes_line tl _
      hnl5 hb3).2
    rw [e2, headerLoop_preamble (ls.take 17) _ _ _ _ _ hnl4 (by omega) hb2,
      headerLoop_line _ _ tl _ _ _ _ hnl5 hb3, htake]
    cases ht : TrimSpace tl with
    | nil => exact absurd ht hne
    | cons t ts =>
      simp only [Bool.not_true, Bool.false_eq_true, if_false, show ¬ (1 + 17 + 1 < 19) by omega,
        if_true]
      rw [htake] at hb4
      exact ⟨t, headerLoop_eof g _ t _ true (by rw [hb4]; exact hfrag)⟩

/-- On an input cut after the marker line and before the end of line 20, whose
line 19, if it is there, is not blank, `Unwrap` returns io.EOF and writes
nothing, in both modes and for every sink. -/
theorem Unwrap_cut_header {σ : Type} (charMap : Nat → Nat) (noDecode : Bool) (W : Writer σ)
    (w : σ) (pre : List (List Nat)) (marker : List Nat) (ls : List (List Nat))
    (frag : List Nat) (b : Reader) (hb : b.stream = joinLines (pre ++ marker :: ls) ++ frag)
    (hnl : ∀ l ∈ pre ++ marker :: ls, 10 ∉ l) (hpre : ∀ l ∈ pre, isMarker l = false)
    (hmk : isMarker marker = true) (hlen : ls.length < 19) (hfrag : 10 ∉ frag)
    (htyp : ∀ l, ls.get? 17 = some l → TrimSpace l ≠ []) :
    ∃ typ, Unwrap charMap noDecode W w b = ⟨.ret typ (some .EOF), w, ⟨[], []⟩⟩ := by
  have hlines := length_joinLines (pre ++ marker :: ls)
  simp only [List.length_append, List.length_cons] at hlines
  obtain ⟨g, hg⟩ : ∃ g, b.stream.length + 1 = g + 1 + ls.length + 1 + pre.length :=
    ⟨b.stream.length - (1 + ls.length + pre.length), by
      rw [hb]; simp only [List.length_append]; omega⟩
  obtain ⟨typ, ht⟩ := headerLoop_cut pre marker ls frag g b hb hnl hpre hmk hlen hfrag htyp
  refine ⟨typ, ?_⟩
  simp only [Unwrap, hg, ht]

/-! ## What the header loop has read when it ends -/

theorem SplitN2_cases (l : List Nat) :
    (∃ a b, 32 ∉ a ∧ l = a ++ 32 :: b ∧ SplitN2 32 l = [a, b]) ∨
      (32 ∉ l ∧ SplitN2 32 l = [l]) := by
  induction l with
  | nil => exact Or.inr ⟨by simp, rfl⟩
  | cons c l ih =>
    by_cases hc : c = 32
    · exact Or.inl ⟨[], l, by simp, by simp [hc], by simp [SplitN2, hc]⟩
    · rcases ih with ⟨a, b, ha, e, hs⟩ | ⟨hl, hs⟩
      · refine Or.inl ⟨c :: a, b, ?_, by simp [e], by simp [SplitN2, hc, hs]⟩
        simp only [List.mem_cons, not_or]
        exact ⟨fun h => hc h.symm, ha⟩
      · refine Or.inr ⟨?_, by simp [SplitN2, hc, hs]⟩
        simp only [List.mem_cons, not_or]
        exact ⟨fun h => hc h.symm, hl⟩

theorem Reader.next_length (b : Reader) (l rest : List Nat) (h : 10 ∉ l)
    (hb : b.stream = l ++ 10 :: rest) : b.next.stream.length < b.stream.length := by
  rw [(b.ReadBytes_line l rest h hb).2, hb]
  simp only [List.length_append, List.length_cons]
  omega

/-- With more fuel than bytes to read the header loop does not run out of fuel,
and it does not end with a read error other than io.EOF. -/
theorem headerLoop_ne_spin (f : Nat) : ∀ (b : Reader) (t n : Nat) (s : Bool),
    b.stream.length < f →
    headerLoop f b t n s ≠ .spin ∧ ∀ typ e r, headerLoop f b t n s ≠ .fail typ e r := by
  induction f with
  | zero => intro b t n s hf; omega
  | succ f ih =>
    intro b t n s hf
    rcases split_line b.stream with h | ⟨l, rest, hl, e⟩
    · rw [headerLoop_eof f b t n s h]; simp
    · have hlt : b.next.stream.length < f := by
        have := b.next_length l rest hl e
        omega
      rw [headerLoop_line f b l rest t n s hl e]
      split_ifs
      · exact ih b.next t 1 true hlt
      · exact ih b.next t (n + 1) false hlt
      · exact ih b.next t (n + 1) s hlt
      · split
        · simp
        · exact ih b.next _ (n + 1) s hlt
      · split <;> simp
      · simp

/-- The loop leaves line 20 by `break` only on a line with a space, cut there. -/
theorem headerLoop_inv20 (f : Nat) (b : Reader) (t t' ln : Nat) (st : Bool) (L : Int)
    (r' : Reader) (h : headerLoop f b t 19 true = .brk t' ln st L r') :
    ∃ p0 p1, b.stream = (p0 ++ 32 :: p1) ++ 10 :: r'.stream ∧ 10 ∉ p0 ++ 32 :: p1 ∧ 32 ∉ p0 ∧
      t' = t ∧ ln = 20 ∧ st = true ∧ L = (ParseInt p1).1 := by
  cases f with
  | zero => simp [headerLoop] at h
  | succ f =>
    rcases split_line b.stream with h0 | ⟨l, r1, hl, e⟩
    · rw [headerLoop_eof f b t 19 true h0] at h; simp at h
    · rw [headerLoop_line f b l r1 t 19 true hl e] at h
      have hn := (b.ReadBytes_line l r1 hl e).2
      simp only [Bool.not_true, Bool.false_eq_true, if_false, show ¬ (19 + 1 < 19) by omega,
        show ¬ (19 + 1 = 19) by omega, if_true] at h
      rcases SplitN2_cases l with ⟨a, c, ha, e2, hs⟩ | ⟨_, hs⟩
      · rw [hs] at h
        simp only [Header.brk.injEq] at h
        obtain ⟨h1, h2, h3, h4, h5⟩ := h
        subst e2
        exact ⟨a, c, by rw [e, ← h5, hn], hl, ha, h1.symm, h2.symm, h3.symm, h4.symm⟩
      · rw [hs] at h
        simp at h

/-- The loop, after the marker, leaves by `break` only after the lines up to
line 18, a type line that is not blank and a length line with a space. -/
theorem headerLoop_inv_started (f : Nat) (t' ln : Nat) (st : Bool) (L : Int)
    (r' : Reader) : ∀ (b : Reader) (t n : Nat), n ≤ 18 →
    headerLoop f b t n true = .brk t' ln st L r' →
    ∃ ls tl p0 p1, ls.length = 18 - n ∧ (∀ l ∈ ls, 10 ∉ l) ∧ 10 ∉ tl ∧ TrimSpace tl ≠ [] ∧
      10 ∉ p0 ++ 32 :: p1 ∧ 32 ∉ p0 ∧
      b.stream = joinLines (ls ++ [tl, p0 ++ 32 :: p1]) ++ r'.stream ∧
      t' = (TrimSpace tl).headD 0 ∧ ln = 20 ∧ st = true ∧ L = (ParseInt p1).1 := by
  induction f with
  | zero => intro b t n _ h; simp [headerLoop] at h
  | succ f ih =>
    intro b t n hn h
    rcases split_line b.stream with h0 | ⟨l, r1, hl, e⟩
    · rw [headerLoop_eof f b t n true h0] at h; simp at h
    · rw [headerLoop_line f b l r1 t n true hl e] at h
      have hnx := (b.ReadBytes_line l r1 hl e).2
      simp only [Bool.not_true, Bool.false_eq_true, if_false] at h
      by_cases h18 : n + 1 < 19
      · simp only [h18, if_true] at h
        obtain ⟨ls, tl, p0, p1, h1, h2, h3, h4, h5, h6, h7, h8⟩ :=
          ih b.next t (n + 1) (by omega) h
        refine ⟨l :: ls, tl, p0, p1, by simp [h1]; omega, ?_, h3, h4, h5, h6, ?_, h8⟩
        · intro x hx
          rcases List.mem_cons.mp hx with hx | hx
          · rw [hx]; exact hl
          · exact h2 x hx
        · rw [e, ← hnx, h7]; simp [joinLines]
      · have hn18 : n = 18 := by omega
        subst hn18
        simp only [show ¬ (18 + 1 < 19) by omega, if_false, if_true] at h
        cases htl : TrimSpace l with
        | nil => rw [htl] at h; simp at h
        | cons c cs =>
          rw [htl] at h
          simp only at h
          obtain ⟨p0, p1, e1, e2, e3, e4, e5, e6, e7⟩ :=
            headerLoop_inv20 f b.next c t' ln st L r' h
          refine ⟨[], l, p0, p1, rfl, by simp, hl, by rw [htl]; simp, e2, e3, ?_, ?_, e5, e6, e7⟩
          · rw [e, ← hnx, e1]; simp [joinLines]
          · rw [htl, e4]; rfl

/-- When the header loop ends by `break` the input starts with a complete
header, and the loop has its type code and its length. -/
theorem headerLoop_inv (f : Nat) (t' ln : Nat) (st : Bool) (L : Int) (r' : Reader) :
    ∀ (b : Reader) (t n : Nat), headerLoop f b t n false = .brk t' ln st L r' →
    ∃ h : HeaderLines, h.Complete ∧ b.stream = h.bytes ++ r'.stream ∧ t' = h.typ ∧ ln = 20 ∧
      st = true ∧ L = h.wrappedLength := by
  induction f with
  | zero => intro b t n h; simp [headerLoop] at h
  | succ f ih =>
    intro b t n h
    rcases split_line b.stream with h0 | ⟨l, r1, hl, e⟩
    · rw [headerLoop_eof f b t n false h0] at h; simp at h
    · rw [headerLoop_line f b l r1 t n false hl e] at h
      have hnx := (b.ReadBytes_line l r1 hl e).2
      simp only [Bool.not_false, if_true] at h
      by_cases hm : isMarker l = true
      · simp only [hm, if_true] at h
        obtain ⟨ls, tl, p0, p1, h1, h2, h3, h4, h5, h6, h7, h8, h9, h10, h11⟩ :=
          headerLoop_inv_started f t' ln st L r' b.next t 1 (by omega) h
        refine ⟨⟨[], l, ls, tl, p0, p1⟩, ⟨?_, by simp, hm, by simpa using h1, h4, h6⟩, ?_, h8,
          h9, h10, h11⟩
        · intro x hx
          simp only [HeaderLines.lines, List.nil_append, List.mem_cons, List.mem_append,
            List.mem_singleton, List.not_mem_nil, or_false] at hx
          rcases hx with hx | hx | hx | hx
          · rw [hx]; exact hl
          · exact h2 x hx
          · rw [hx]; exact h3
          · rw [hx]; exact h5
        · rw [e, ← hnx, h7]; simp [HeaderLines.bytes, HeaderLines.lines, joinLines]
      · have hm' : isMarker l = false := by simpa using hm
        simp only [hm', Bool.false_eq_true, if_false] at h
        obtain ⟨h', hc, e1, e2, e3, e4, e5⟩ := ih b.next t (n + 1) h
        obtain ⟨c1, c2, c3, c4, c5, c6⟩ := hc
        refine ⟨{ h' with pre := l :: h'.pre }, ⟨?_, ?_, c3, c4, c5, c6⟩, ?_, e2, e3, e4, e5⟩
        · intro x hx
          simp only [HeaderLines.lines, List.cons_append, List.mem_cons] at hx
          rcases hx with hx | hx
          · rw [hx]; exact hl
          · exact c1 x (by simpa [HeaderLines.lines] using hx)
        · intro x hx
          rcases List.mem_cons.mp hx with hx | hx
          · rw [hx]; exact hm'
          · exact c2 x hx
        · rw [e, ← hnx, e1]; simp [HeaderLines.bytes, HeaderLines.lines, joinLines]

/-- What `Unwrap` does on every input: it ends within its fuel, and unless an
index is out of range it returns; it returns an error other than io.EOF, or no
error, only when the input starts with a complete header, and then it returns
the type code of that header. -/
theorem Unwrap_cases {σ : Type} (charMap : Nat → Nat) (noDecode : Bool) (W : Writer σ) (w : σ)
    (b : Reader) :
    (Unwrap charMap noDecode W w b).out = .crash ∨
      (∃ typ, (Unwrap charMap noDecode W w b).out = .ret typ (some .EOF)) ∨
      ∃ (h : HeaderLines) (rest : List Nat) (e : Option Error), h.Complete ∧
        b.stream = h.bytes ++ rest ∧ (Unwrap charMap noDecode W w b).out = .ret h.typ e := by
  cases hH : headerLoop (b.stream.length + 1) b 0 0 false with
  | spin => exact absurd hH (headerLoop_ne_spin _ b 0 0 false (by omega)).1
  | fail typ e r => exact absurd hH ((headerLoop_ne_spin _ b 0 0 false (by omega)).2 typ e r)
  | crash => left; simp [Unwrap, hH]
  | eof typ r => right; left; exact ⟨typ, by simp [Unwrap, hH]⟩
  | brk typ ln st L r =>
    right; right
    obtain ⟨h, hc, e1, _⟩ := headerLoop_inv _ typ ln st L r b 0 0 hH
    obtain ⟨e, w', r', k, hU, _⟩ := Unwrap_complete charMap noDecode W w h hc r.stream b e1
    exact ⟨h, r.stream, e, hc, e1, by rw [hU]⟩

/-! ## The reader after a header that the first filling of the buffer holds -/

/-- A new reader over a source that starts with lines of no more than 4096
bytes in all has, after as many calls of ReadBytes as there are lines, the rest
of the first 4096 bytes of the source in its buffer. -/
theorem Reader.skip_new (ls : List (List Nat)) (rest : List Nat) (hne : ls ≠ [])
    (hnl : ∀ l ∈ ls, 10 ∉ l) (hlen : (joinLines ls).length ≤ 4096) :
    (NewReader (joinLines ls ++ rest)).skip ls.length =
      ⟨rest.take (4096 - (joinLines ls).length), rest.drop (4096 - (joinLines ls).length)⟩ := by
  cases ls with
  | nil => exact absurd rfl hne
  | cons l ls =>
    have h1 : 10 ∉ l := hnl l (by simp)
    have hl : l.length < 4096 := by
      simp only [joinLines, List.length_append, List.length_cons] at hlen
      omega
    have hA : joinLines (l :: ls) ++ rest = l ++ 10 :: (joinLines ls ++ rest) := by
      simp [joinLines]
    have htake : (joinLines (l :: ls) ++ rest).take 4096 =
        joinLines (l :: ls) ++ rest.take (4096 - (joinLines (l :: ls)).length) := by
      rw [List.take_append_eq_append_take, List.take_of_length_le hlen]
    have hdrop : (joinLines (l :: ls) ++ rest).drop 4096 =
        rest.drop (4096 - (joinLines (l :: ls)).length) := by
      rw [List.drop_append_eq_append_drop, List.drop_of_length_le hlen]
      simp
    have hbuf : ((joinLines (l :: ls) ++ rest).take 4096).drop (l.length + 1) =
        joinLines ls ++ rest.take (4096 - (joinLines (l :: ls)).length) := by
      rw [htake]
      simp only [joinLines, List.append_assoc, List.cons_append]
      rw [List.drop_append_eq_append_drop, List.drop_of_length_le (by omega)]
      simp
    have hn : (NewReader (joinLines (l :: ls) ++ rest)).next =
        ⟨joinLines ls ++ rest.take (4096 - (joinLines (l :: ls)).length),
          rest.drop (4096 - (joinLines (l :: ls)).length)⟩ := by
      have := Reader.ReadBytes_new l (joinLines ls ++ rest) h1 hl
      rw [← hA] at this
      simp only [Reader.next, this, hbuf, hdrop]
    simp only [List.length_cons, Reader.skip, hn]
    exact Reader.skip_buffered ls _ _ (fun x hx => hnl x (by simp [hx]))

/-- A new reader over an input that starts with a complete header of no more
than 4096 bytes has, when the header is read, the rest of the first 4096 bytes
of the input in its buffer. -/
theorem Reader.skip_header_new (h : HeaderLines) (hc : h.Complete) (rest : List Nat)
    (hlen : h.bytes.length ≤ 4096) :
    (NewReader (h.bytes ++ rest)).skip (h.pre.length + 20) =
      ⟨rest.take (4096 - h.bytes.length), rest.drop (4096 - h.bytes.length)⟩ := by
  rw [← length_lines h hc]
  exact Reader.skip_new h.lines rest (by simp [HeaderLines.lines]) hc.1 hlen

/-! ## What the decoder has read when `Unwrap` returns no error -/

theorem Decode_ok_chars (si : Nat) (l : List Nat) (h : (Decode si l).2 = none) :
    ∀ c ∈ l, (decodeMap c).isSome = true ∨ c = 61 := by
  induction si, l using Decode.induct
  case case18 si c0 c1 c2 c3 rest d0 d1 d2 d3 h3 h2 h1 h0 dec err hd ih =>
    simp only [Decode, h0, h1, h2, h3, hd] at h
    have := ih (by rw [hd]; exact h)
    intro c hc
    simp only [List.mem_cons] at hc
    rcases hc with hc | hc | hc | hc | hc
    · rw [hc, h0]; simp
    · rw [hc, h1]; simp
    · rw [hc, h2]; simp
    · rw [hc, h3]; simp
    · exact this c hc
  all_goals simp_all [Decode]

theorem QuantaText_nil : QuantaText [] := ⟨rfl, by simp⟩

theorem QuantaText_append (a b : List Nat) (ha : QuantaText a) (hb : QuantaText b) :
    QuantaText (a ++ b) := by
  refine ⟨by simp only [List.length_append]; have := ha.1; have := hb.1; omega, ?_⟩
  intro c hc
  rcases List.mem_append.mp hc with h | h
  · exact ha.2 c h
  · exact hb.2 c h

theorem QuantaText_of_Decode (l : List Nat) (h : (Decode 0 l).2 = none) : QuantaText l :=
  ⟨Decode_ok_mod4 0 l h, Decode_ok_chars 0 l h⟩

theorem decoder.Track_start (d : decoder) (hinv : d.Inv) (he : d.err = none) : d.Track d :=
  ⟨hinv, fun h => (by rw [he] at h; cases h), fun _ => ⟨[], by simp, QuantaText_nil⟩⟩

/-- A read of the decoder keeps the track of what was decoded; a read that
gives io.EOF leaves the decoder with that error. -/
theorem decoder.Read_track (d0 d : decoder) (lenp : Nat) (h : d0.Track d) :
    ∃ p e d', d.Read lenp = some ((p, e), d') ∧ d0.Track d' ∧
      (e = some .EOF → d'.err = some .EOF) := by
  obtain ⟨hinv, hbuf, htr⟩ := h
  by_cases hout : d.out.length > 0
  · refine ⟨d.out.take lenp, none, { d with out := d.out.drop lenp }, ?_, ⟨hinv, hbuf, htr⟩,
      fun h => by cases h⟩
    simp [decoder.Read, hout]
  · by_cases herr : d.err ≠ none
    · refine ⟨[], d.err, d, ?_, ⟨hinv, hbuf, htr⟩, fun h => h⟩
      simp [decoder.Read, hout, herr]
    · have herr0 : d.err = none := by simpa using herr
      obtain ⟨chunk0, hc0, hq0⟩ := htr (Or.inl herr0)
      obtain ⟨d1, hr, hinv1, hreach, ho1, he1, hp1, hor, hsz⟩ :=
        decoder.refill_spec 4 d lenp hinv (by omega)
      by_cases hb : d1.buf.length < 4
      · have hre : d1.readErr = some .EOF := by
          rcases hor with h | h
          · omega
          · exact h
        obtain ⟨e, he⟩ : ∃ e, e = (if d1.readErr = some .EOF ∧ d1.buf.length > 0
            then some Error.ErrUnexpectedEOF else d1.readErr) := ⟨_, rfl⟩
        have hb0 : e = some .EOF → d1.buf = [] := by
          intro h
          by_contra hne
          have : d1.buf.length > 0 := List.length_pos.mpr hne
          rw [he] at h
          simp [hre, this] at h
        refine ⟨[], e, { d1 with err := e }, ?_,
          ⟨⟨hinv1.1, hinv1.2.1, fun _ => hinv1.2.1 hre⟩, hb0,
            fun _ => ⟨chunk0, by rw [hc0, ← hp1]; rfl, hq0⟩⟩, fun h => h⟩
        simp only [decoder.Read, hout, if_false, herr0, ne_eq, not_true_eq_false, hr, hb,
          if_true, ← he]
      · obtain ⟨nr, hnr⟩ : ∃ nr, nr = d1.buf.length / 4 * 4 := ⟨_, rfl⟩
        obtain ⟨dec, e, hdec⟩ : ∃ dec e, Decode 0 (d1.buf.take nr) = (dec, e) := ⟨_, _, rfl⟩
        have hneof : e ≠ some .EOF := by
          have := Decode_ne_EOF 0 (d1.buf.take nr)
          rwa [hdec] at this
        have htrack : ∀ o, d0.Track { d1 with err := e, out := o, buf := d1.buf.drop nr } := by
          intro o
          refine ⟨⟨hinv1.1, hinv1.2.1, fun h => absurd h hneof⟩, fun h => absurd h hneof,
            fun h => ?_⟩
          have he0 : e = none := by
            rcases h with h | h
            · exact h
            · exact absurd h hneof
          refine ⟨chunk0 ++ d1.buf.take nr, ?_,
            QuantaText_append _ _ hq0 (QuantaText_of_Decode _ (by rw [hdec]; exact he0))⟩
          rw [hc0, ← hp1]
          simp only [decoder.pending, List.append_assoc]
          rw [← List.append_assoc (d1.buf.take nr), List.take_append_drop]
        by_cases hw : d1.buf.length / 4 * 3 > lenp
        · refine ⟨dec.take lenp, e,
            { d1 with err := e, out := dec.drop lenp, buf := d1.buf.drop nr }, ?_, htrack _,
            fun h => absurd h hneof⟩
          simp only [decoder.Read, hout, if_false, herr0, ne_eq, not_true_eq_false, hr, hb,
            ← hnr, hdec, hw, if_true]
        · refine ⟨dec, e, { d1 with err := e, buf := d1.buf.drop nr }, ?_, ?_,
            fun h => absurd h hneof⟩
          · simp only [decoder.Read, hout, if_false, herr0, ne_eq, not_true_eq_false, hr, hb,
              ← hnr, hdec, hw]
          · have := htrack d1.out
            exact this

theorem readFullLoop_track (d0 : decoder) (fuel : Nat) : ∀ (d : decoder) (hsh : List Nat)
    (err : Option Error) (hsh' : List Nat) (e : Option Error) (d' : decoder),
    d0.Track d → readFullLoop fuel d hsh err = some ((hsh', e), d') → d0.Track d' := by
  induction fuel with
  | zero =>
    intro d hsh err hsh' e d' ht hr
    by_cases hc : hsh.length < 20 ∧ err = none
    · simp [readFullLoop, hc] at hr
    · simp only [readFullLoop, hc, if_false, Option.some.injEq, Prod.mk.injEq] at hr
      rw [← hr.2]; exact ht
  | succ fuel ih =>
    intro d hsh err hsh' e d' ht hr
    by_cases hc : hsh.length < 20 ∧ err = none
    · obtain ⟨p, e1, d1, h1, ht1, _⟩ := decoder.Read_track d0 d (20 - hsh.length) ht
      simp only [readFullLoop, hc, and_self, if_true, h1] at hr
      exact ih d1 _ _ hsh' e d' ht1 hr
    · simp only [readFullLoop, hc, if_false, Option.some.injEq, Prod.mk.injEq] at hr
      rw [← hr.2]; exact ht

theorem ReadFull_track (d0 d : decoder) (hsh : List Nat) (e : Option Error) (d' : decoder)
    (ht : d0.Track d) (hr : ReadFull d = some ((hsh, e), d')) : d0.Track d' := by
  cases hl : readFullLoop 20 d [] none with
  | none => simp [ReadFull, hl] at hr
  | some x =>
    obtain ⟨⟨hsh0, e0⟩, d1⟩ := x
    have ht1 := readFullLoop_track d0 20 d [] none hsh0 e0 d1 ht hl
    simp only [ReadFull, hl] at hr
    split_ifs at hr <;>
      (simp only [Option.some.injEq, Prod.mk.injEq] at hr; rw [← hr.2]; exact ht1)

/-- The call io.Copy to the sink that keeps all never returns io.EOF, and when
it returns no error the decoder has seen io.EOF. -/
theorem Copy_track (d0 : decoder) (fuel : Nat) : ∀ (d : decoder) (w : List Nat)
    (err : Option Error) (w' : List Nat) (d' : decoder),
    d0.Track d → Copy bufferWriter fuel d w = some (err, w', d') →
    err ≠ some .EOF ∧ (err = none → d0.Track d' ∧ d'.err = some .EOF) := by
  induction fuel with
  | zero => intro d w err w' d' _ hr; simp [Copy] at hr
  | succ fuel ih =>
    intro d w err w' d' ht hr
    obtain ⟨p, er, d1, h1, ht1, heof⟩ := decoder.Read_track d0 d 32768 ht
    have hfin : ∀ w1 : List Nat, er ≠ none →
        some ((if er = some .EOF then none else er), w1, d1) = some (err, w', d') →
        err ≠ some .EOF ∧ (err = none → d0.Track d' ∧ d'.err = some .EOF) := by
      intro w1 hne hx
      simp only [Option.some.injEq, Prod.mk.injEq] at hx
      obtain ⟨hx1, _, hx3⟩ := hx
      subst hx3
      by_cases h0 : er = some .EOF
      · simp only [h0, if_true] at hx1
        subst hx1
        exact ⟨by simp, fun _ => ⟨ht1, heof h0⟩⟩
      · simp only [h0, if_false] at hx1
        subst hx1
        exact ⟨h0, fun h => absurd h hne⟩
    cases p with
    | nil =>
      simp only [Copy, h1] at hr
      by_cases hne : er ≠ none
      · simp only [hne, ne_eq, not_false_eq_true, if_true] at hr
        exact hfin w hne hr
      · simp only [hne, if_false] at hr
        exact ih d1 w err w' d' ht1 hr
    | cons c cs =>
      simp only [Copy, h1, bufferWriter_Write] at hr
      simp only [lt_self_iff_false, false_and, if_false, ne_eq, not_true_eq_false] at hr
      by_cases hne : er ≠ none
      · simp only [hne, not_false_eq_true, if_true] at hr
        exact hfin _ hne hr
      · simp only [hne, if_false] at hr
        exact ih d1 _ err w' d' ht1 hr

/-- The last loop of `Unwrap` with the sink that keeps all never returns
io.EOF, and when it returns no error the decoder has seen io.EOF. -/
theorem decodeLoop_track (charMap : Nat → Nat) (d0 : decoder) (fuel : Nat) :
    ∀ (d : decoder) (w : List Nat) (lenb : Nat) (err : Option Error) (w' : List Nat)
      (d' : decoder), 0 < lenb →
    d0.Track d → decodeLoop charMap bufferWriter fuel d w lenb = some (err, w', d') →
    err ≠ some .EOF ∧ (err = none → d0.Track d' ∧ d'.err = some .EOF) := by
  induction fuel with
  | zero => intro d w lenb err w' d' _ _ hr; simp [decodeLoop] at hr
  | succ fuel ih =>
    intro d w lenb err w' d' hl ht hr
    obtain ⟨p, er, d1, h1, ht1, heof⟩ := decoder.Read_track d0 d lenb ht
    obtain ⟨p2, e2, d2, h2, _, _, _, hprog, _⟩ := decoder.Read_spec d lenb ht.1 hl
    rw [h1] at h2
    simp only [Option.some.injEq, Prod.mk.injEq] at h2
    obtain ⟨⟨hp, he⟩, hd⟩ := h2
    subst hp he hd
    simp only [decodeLoop, h1, bufferWriter_Write] at hr
    simp only [ne_eq, not_true_eq_false, false_and, if_false] at hr
    by_cases hne : er = none
    · simp only [hne, not_true_eq_false, if_false] at hr
      have hp := (hprog hne).1
      exact ih d1 _ _ err w' d' (by simpa using List.length_pos.mpr hp) ht1 hr
    · simp only [hne, not_false_eq_true, if_true, Option.some.injEq, Prod.mk.injEq] at hr
      obtain ⟨hx1, _, hx3⟩ := hr
      subst hx3
      by_cases h0 : er = some .EOF
      · simp only [h0, if_true] at hx1
        subst hx1
        exact ⟨by simp, fun _ => ⟨ht1, heof h0⟩⟩
      · simp only [h0, if_false] at hx1
        subst hx1
        exact ⟨h0, fun h => absurd h hne⟩

/-- With the sink that keeps all, the part of `Unwrap` after the header never
returns io.EOF, and it returns no error only when the stream within the length
that it is given, CR and LF aside, is whole quanta of characters of base64 and
padding. -/
theorem unwrapBody_success (charMap : Nat → Nat) (noDecode : Bool) (w : List Nat) (typ : Nat)
    (n : Int) (r : Reader) (t : Nat) (e : Option Error) (w' : List Nat) (r' : Reader)
    (hU : unwrapBody charMap noDecode bufferWriter w typ n r = ⟨.ret t e, w', r'⟩) :
    e ≠ some .EOF ∧
      (e = none → QuantaText ((r.stream.take n.toNat).filter notNewline)) := by
  have ht0 : (NewDecoder { R := r, N := n }).Track (NewDecoder { R := r, N := n }) :=
    decoder.Track_start _ (NewDecoder_inv _) rfl
  have hfin : ∀ d' : decoder, (NewDecoder { R := r, N := n }).Track d' → d'.err = some .EOF →
      QuantaText ((r.stream.take n.toNat).filter notNewline) := by
    intro d' ht he
    obtain ⟨chunk, hc, hq⟩ := ht.2.2 (Or.inr he)
    have hp : d'.pending = [] := by
      simp only [decoder.pending, ht.2.1 he, ht.1.2.2 he, List.filter_nil, List.append_nil]
    rw [hp] at hc
    simp only [decoder.pending, NewDecoder, LimitedReader.avail, List.nil_append,
      List.append_nil] at hc
    rw [hc]; exact hq
  cases hRF : ReadFull (NewDecoder { R := r, N := n }) with
  | none => simp [unwrapBody, hRF] at hU
  | some x =>
    obtain ⟨⟨hsh, e1⟩, d1⟩ := x
    have ht1 := ReadFull_track _ _ hsh e1 d1 ht0 hRF
    cases e1 with
    | some err =>
      simp only [unwrapBody, hRF, Result.mk.injEq, Outcome.ret.injEq] at hU
      obtain ⟨⟨_, he⟩, _⟩ := hU
      subst he
      exact ⟨by simp, fun h => by cases h⟩
    | none =>
      cases noDecode with
      | true =>
        cases hC : Copy bufferWriter (r.stream.length + 1) d1 w with
        | none => simp [unwrapBody, hRF, hC] at hU
        | some y =>
          obtain ⟨err, w2, d2⟩ := y
          simp only [unwrapBody, hRF, hC, if_true, Result.mk.injEq, Outcome.ret.injEq] at hU
          obtain ⟨⟨_, he⟩, _⟩ := hU
          subst he
          obtain ⟨k1, k2⟩ := Copy_track _ _ d1 w err w2 d2 ht1 hC
          exact ⟨k1, fun h => hfin d2 (k2 h).1 (k2 h).2⟩
      | false =>
        cases hC : decodeLoop charMap bufferWriter (r.stream.length + 1) d1 w 4096 with
        | none => simp [unwrapBody, hRF, hC] at hU
        | some y =>
          obtain ⟨err, w2, d2⟩ := y
          simp only [unwrapBody, hRF, hC, Bool.false_eq_true, if_false, Result.mk.injEq,
            Outcome.ret.injEq] at hU
          obtain ⟨⟨_, he⟩, _⟩ := hU
          subst he
          obtain ⟨k1, k2⟩ := decodeLoop_track charMap _ _ d1 w 4096 err w2 d2 (by omega) ht1 hC
          exact ⟨k1, fun h => hfin d2 (k2 h).1 (k2 h).2⟩

/-! ## Properties of Unwrap -/

set_option maxRecDepth 100000

/-- On a well-formed object `Unwrap` returns the type code without error, writes
the bytes of the source and leaves the input that follows the body. -/
theorem Unwrap_wellformed (charMap : Nat → Nat) (noDecode : Bool) (h : HeaderLines)
    (body hash s tail w : List Nat) (b : Reader) (hc : h.Complete)
    (hb : b.stream = h.bytes ++ (body ++ tail))
    (hlen : ParseInt h.field2 = ((body.length : Int), none))
    (hbody : Decode 0 (body.filter notNewline) = (hash ++ s, none)) (hh : hash.length = 20) :
    ∃ r', Unwrap charMap noDecode bufferWriter w b =
        ⟨.ret h.typ none, w ++ emit charMap noDecode s, r'⟩ ∧ r'.stream = tail := by
  have hL : h.wrappedLength.toNat = body.length := by
    simp [HeaderLines.wrappedLength, hlen]
  obtain ⟨r', h1, h2⟩ := Unwrap_text charMap noDecode w h hc (body ++ tail)
    (body.filter notNewline) [] hash s b hb (by rw [hL]; simp) (by simp) hbody hh
  refine ⟨r', by simpa using h1, ?_⟩
  rw [h2, hL]
  simp

/-- C1: for every input that holds a well-formed wrapped object (lines before
the marker, a marker line, 17 preamble lines, a type line, a length line whose
second field is the byte length of the body in base 16, a body that is standard
base64, newlines allowed, of 20 hash bytes followed by the bytes `s`, of any
length), read through a reader in any state of its buffer, `Unwrap` in decode
mode returns the type code of line 19 and no error, appends to the sink exactly
the bytes `charMap s[i]`, in order, and leaves the input after the body. -/
theorem Unwrap_decode_wellformed (charMap : Nat → Nat) (h : HeaderLines)
    (body hash s tail w : List Nat) (b : Reader) (hc : h.Complete)
    (hb : b.stream = h.bytes ++ (body ++ tail))
    (hlen : ParseInt h.field2 = ((body.length : Int), none))
    (hbody : Decode 0 (body.filter notNewline) = (hash ++ s, none)) (hh : hash.length = 20) :
    ∃ r', Unwrap charMap false bufferWriter w b = ⟨.ret h.typ none, w ++ s.map charMap, r'⟩ ∧
      r'.stream = tail :=
  Unwrap_wellformed charMap false h body hash s tail w b hc hb hlen hbody hh

theorem Unwrap_decode_wellformed_witness :
    sampleHeader.Complete ∧
      ∃ r', Unwrap sampleMap false bufferWriter []
          (NewReader (sampleHeader.bytes ++ (sampleBody ++ []))) =
        ⟨.ret sampleHeader.typ none, [] ++ [104].map sampleMap, r'⟩ ∧ r'.stream = [] :=
  ⟨by decide, Unwrap_decode_wellformed sampleMap sampleHeader sampleBody (List.replicate 20 0)
    [104] [] [] (NewReader (sampleHeader.bytes ++ (sampleBody ++ []))) (by decide) rfl
    (by decide) (by decide) (by decide)⟩

/-- C2: for every input that holds a well-formed wrapped object whose body
decodes to 20 hash bytes followed by the bytes `s`, `Unwrap` in no-decode mode
returns the type code of line 19 and no error, and appends to the sink exactly
the bytes `s`: the hash is not written and the table is not applied. -/
theorem Unwrap_noDecode_wellformed (charMap : Nat → Nat) (h : HeaderLines)
    (body hash s tail w : List Nat) (b : Reader) (hc : h.Complete)
    (hb : b.stream = h.bytes ++ (body ++ tail))
    (hlen : ParseInt h.field2 = ((body.length : Int), none))
    (hbody : Decode 0 (body.filter notNewline) = (hash ++ s, none)) (hh : hash.length = 20) :
    ∃ r', Unwrap charMap true bufferWriter w b = ⟨.ret h.typ none, w ++ s, r'⟩ ∧
      r'.stream = tail :=
  Unwrap_wellformed charMap true h body hash s tail w b hc hb hlen hbody hh

theorem Unwrap_noDecode_wellformed_witness :
    sampleHeader.Complete ∧
      ∃ r', Unwrap sampleMap true bufferWriter []
          (NewReader (sampleHeader.bytes ++ (sampleBody ++ []))) =
        ⟨.ret sampleHeader.typ none, [] ++ [104], r'⟩ ∧ r'.stream = [] :=
  ⟨by decide, Unwrap_noDecode_wellformed sampleMap sampleHeader sampleBody
    (List.replicate 20 0) [104] [] [] (NewReader (sampleHeader.bytes ++ (sampleBody ++ [])))
    (by decide) rfl (by decide) (by decide) (by decide)⟩

/-- C3: for every stream that is two well-formed wrapped objects one after the
other, three successive calls of `Unwrap`, each on the sink and the reader that
the call before left, do this: the first returns the type of the first object
and no error and writes its bytes, the second returns the type of the second
object and no error and writes its bytes after them, the third returns io.EOF
and writes nothing. -/
theorem Unwrap_two_objects (charMap : Nat → Nat) (noDecode : Bool) (h1 h2 : HeaderLines)
    (body1 hash1 s1 body2 hash2 s2 w : List Nat) (b : Reader)
    (hb : b.stream = h1.bytes ++ (body1 ++ (h2.bytes ++ (body2 ++ []))))
    (hc1 : h1.Complete) (hlen1 : ParseInt h1.field2 = ((body1.length : Int), none))
    (hbody1 : Decode 0 (body1.filter notNewline) = (hash1 ++ s1, none))
    (hh1 : hash1.length = 20)
    (hc2 : h2.Complete) (hlen2 : ParseInt h2.field2 = ((body2.length : Int), none))
    (hbody2 : Decode 0 (body2.filter notNewline) = (hash2 ++ s2, none))
    (hh2 : hash2.length = 20) :
    ∃ r1 r2 r3,
      Unwrap charMap noDecode bufferWriter w b =
        ⟨.ret h1.typ none, w ++ emit charMap noDecode s1, r1⟩ ∧
      Unwrap charMap noDecode bufferWriter (w ++ emit charMap noDecode s1) r1 =
        ⟨.ret h2.typ none, w ++ emit charMap noDecode s1 ++ emit charMap noDecode s2, r2⟩ ∧
      Unwrap charMap noDecode bufferWriter
          (w ++ emit charMap noDecode s1 ++ emit charMap noDecode s2) r2 =
        ⟨.ret 0 (some .EOF), w ++ emit charMap noDecode s1 ++ emit charMap noDecode s2, r3⟩ ∧
      r3.stream = [] := by
  obtain ⟨r1, e1, hr1⟩ :=
    Unwrap_wellformed charMap noDecode h1 body1 hash1 s1 _ w b hc1 hb hlen1 hbody1 hh1
  obtain ⟨r2, e2, hr2⟩ :=
    Unwrap_wellformed charMap noDecode h2 body2 hash2 s2 [] (w ++ emit charMap noDecode s1) r1
      hc2 hr1 hlen2 hbody2 hh2
  exact ⟨r1, r2, ⟨[], []⟩, e1, e2,
    Unwrap_noMarker charMap noDecode bufferWriter _ r2 (by rw [hr2]; simp [completeLines]), rfl⟩

theorem Unwrap_two_objects_witness :
    sampleHeader.Complete ∧ sampleHeader2.Complete ∧
      ∃ r1 r2 r3,
        Unwrap sampleMap false bufferWriter [] (NewReader
            (sampleHeader.bytes ++ (sampleBody ++ (sampleHeader2.bytes ++ (sampleBody2 ++ []))))) =
          ⟨.ret sampleHeader.typ none, [] ++ emit sampleMap false [104], r1⟩ ∧
        Unwrap sampleMap false bufferWriter ([] ++ emit sampleMap false [104]) r1 =
          ⟨.ret sampleHeader2.typ none,
            [] ++ emit sampleMap false [104] ++ emit sampleMap false [104, 105], r2⟩ ∧
        Unwrap sampleMap false bufferWriter
            ([] ++ emit sampleMap false [104] ++ emit sampleMap false [104, 105]) r2 =
          ⟨.ret 0 (some .EOF),
            [] ++ emit sampleMap false [104] ++ emit sampleMap false [104, 105], r3⟩ ∧
        r3.stream = [] :=
  ⟨by decide, by decide,
    Unwrap_two_objects sampleMap false sampleHeader sampleHeader2 sampleBody
      (List.replicate 20 0) [104] sampleBody2 (List.replicate 20 0) [104, 105] []
      (NewReader
        (sampleHeader.bytes ++ (sampleBody ++ (sampleHeader2.bytes ++ (sampleBody2 ++ [])))))
      rfl (by decide) (by decide) (by decide) (by decide) (by decide) (by decide) (by decide)
      (by decide)⟩

/-- C4: for every input in which no line that ends with a newline is a marker
line (its trimmed content does not end with " wrapped"), the empty input
included, `Unwrap` returns io.EOF and writes nothing, in both modes and for
every sink; all the input is read. -/
theorem Unwrap_without_marker {σ : Type} (charMap : Nat → Nat) (noDecode : Bool)
    (W : Writer σ) (w : σ) (b : Reader)
    (hm : ∀ l ∈ completeLines b.stream, isMarker l = false) :
    Unwrap charMap noDecode W w b = ⟨.ret 0 (some .EOF), w, ⟨[], []⟩⟩ :=
  Unwrap_noMarker charMap noDecode W w b hm

theorem Unwrap_without_marker_witness :
    (∀ l ∈ completeLines (NewReader noMarkerInput).stream, isMarker l = false) ∧
      Unwrap sampleMap true bufferWriter [] (NewReader noMarkerInput) =
        ⟨.ret 0 (some .EOF), [], ⟨[], []⟩⟩ :=
  ⟨by decide, Unwrap_without_marker sampleMap true bufferWriter [] (NewReader noMarkerInput)
    (by decide)⟩

/-- C5: for every input with a complete header that declares the length L, in
both modes, for every sink and whatever the outcome, the bytes that `Unwrap`
takes from the input after line 20 are a first part of it of at most L bytes;
and when `Unwrap` returns no error and at least L bytes follow the header, what
is left of the input starts right after the first L bytes. -/
theorem Unwrap_consumes_declared {σ : Type} (charMap : Nat → Nat) (noDecode : Bool)
    (W : Writer σ) (w : σ) (h : HeaderLines) (hc : h.Complete) (rest : List Nat) (b : Reader)
    (hb : b.stream = h.bytes ++ rest) :
    (∃ p, rest = p ++ (Unwrap charMap noDecode W w b).r.stream ∧
        p.length ≤ h.wrappedLength.toNat) ∧
      ((Unwrap charMap noDecode W w b).out = .ret h.typ none →
        h.wrappedLength.toNat ≤ rest.length →
        (Unwrap charMap noDecode W w b).r.stream = rest.drop h.wrappedLength.toNat) := by
  obtain ⟨e, w', r', k, hU, hr, hk, hdone⟩ := Unwrap_complete charMap noDecode W w h hc rest b hb
  rw [hU]
  refine ⟨⟨rest.take k, by simp only [hr]; exact (List.take_append_drop k rest).symm, ?_⟩,
    fun h0 _ => ?_⟩
  · exact (List.length_take_le k rest).trans hk
  · simp only [Outcome.ret.injEq, true_and] at h0
    exact hdone h0

theorem Unwrap_consumes_declared_witness :
    sampleHeader.Complete ∧
      ((∃ p, sampleBody ++ [1, 2, 3] = p ++ (Unwrap sampleMap false bufferWriter []
            (NewReader (sampleHeader.bytes ++ (sampleBody ++ [1, 2, 3])))).r.stream ∧
          p.length ≤ sampleHeader.wrappedLength.toNat) ∧
        ((Unwrap sampleMap false bufferWriter []
            (NewReader (sampleHeader.bytes ++ (sampleBody ++ [1, 2, 3])))).out =
              .ret sampleHeader.typ none →
          sampleHeader.wrappedLength.toNat ≤ (sampleBody ++ [1, 2, 3]).length →
          (Unwrap sampleMap false bufferWriter []
            (NewReader (sampleHeader.bytes ++ (sampleBody ++ [1, 2, 3])))).r.stream =
              (sampleBody ++ [1, 2, 3]).drop sampleHeader.wrappedLength.toNat)) :=
  ⟨by decide, Unwrap_consumes_declared sampleMap false bufferWriter [] sampleHeader (by decide)
    (sampleBody ++ [1, 2, 3]) (NewReader (sampleHeader.bytes ++ (sampleBody ++ [1, 2, 3]))) rfl⟩

/-- C6 (what the code does): on the complete header whose length line is "0 zz",
whose second field strconv.ParseInt rejects with a syntax error, `Unwrap` does
not report the malformed length; it goes on with the length 0 and returns the
error "read hash: EOF", the very error that it returns for the length line
"0 0" and an empty body. -/
theorem Unwrap_malformed_length_reads_hash :
    (ParseInt sampleHeaderZZ.field2).2 = some .ErrSyntax ∧
      Unwrap sampleMap false bufferWriter [] (NewReader (sampleHeaderZZ.bytes ++ sampleBody)) =
        ⟨.ret 55 (some (.ReadHash .EOF)), [], ⟨sampleBody, []⟩⟩ ∧
      Unwrap sampleMap false bufferWriter [] (NewReader (sampleHeader0.bytes ++ [])) =
        ⟨.ret 55 (some (.ReadHash .EOF)), [], ⟨[], []⟩⟩ := by
  decide

/-! ## Bodies that are cut, hashes that are short -/

/-- C7 (refuted as stated): the header declares 100 bytes, 28 bytes of base64
text follow and the input ends; `Unwrap` returns no error. -/
theorem Unwrap_truncated_on_quantum_succeeds :
    sampleHeader100.wrappedLength = 100 ∧ sampleBody.length = 28 ∧
      Unwrap sampleMap false bufferWriter [] (NewReader (sampleHeader100.bytes ++ sampleBody)) =
        ⟨.ret 55 none, [105], ⟨[], []⟩⟩ := by
  decide

/-- C7 (amended): for every input whose header declares a length larger than
the number of bytes that follow it, with the sink that keeps all and in both
modes, `Unwrap` never returns io.EOF: it returns an error that is not io.EOF
or no error. It returns no error only when the bytes that follow, CR and LF
aside, are whole quanta of characters of base64 and padding and the hash read
got its 20 bytes. When the bytes that follow, CR and LF aside, are whole quanta
that decode to 20 hash bytes followed by the bytes `s`, followed by the 0 to 3
bytes `t` of a cut quantum, `Unwrap` writes the bytes of `s` (through the table
in decode mode), reads all the input, and returns no error when `t` is empty
and io.ErrUnexpectedEOF when it is not. -/
theorem Unwrap_truncated (charMap : Nat → Nat) (noDecode : Bool) (h : HeaderLines)
    (rest w : List Nat) (b : Reader) (hc : h.Complete) (hb : b.stream = h.bytes ++ rest)
    (hlen : (rest.length : Int) < h.wrappedLength) :
    (∃ e, (Unwrap charMap noDecode bufferWriter w b).out = .ret h.typ e ∧ e ≠ some .EOF ∧
        (e = none → QuantaText (rest.filter notNewline) ∧
          20 ≤ (hashBytes (h.after b) h.wrappedLength).length)) ∧
      ∀ q t hash s, rest.filter notNewline = q ++ t → t.length < 4 →
        Decode 0 q = (hash ++ s, none) → hash.length = 20 →
        (Unwrap charMap noDecode bufferWriter w b).out =
            .ret h.typ (if t = [] then none else some .ErrUnexpectedEOF) ∧
          (Unwrap charMap noDecode bufferWriter w b).w = w ++ emit charMap noDecode s ∧
          (Unwrap charMap noDecode bufferWriter w b).r.stream = [] := by
  have hL : rest.length ≤ h.wrappedLength.toNat := by omega
  have hs := b.skip_header h hc rest hb
  refine ⟨?_, ?_⟩
  · obtain ⟨e, w', r', k, hU, _⟩ := Unwrap_complete charMap noDecode bufferWriter w h hc rest b hb
    have hB := hU
    rw [Unwrap_complete_eq charMap noDecode bufferWriter w h hc rest b hb] at hB
    obtain ⟨k1, k2⟩ := unwrapBody_success charMap noDecode w h.typ h.wrappedLength _ h.typ e w'
      r' hB
    refine ⟨e, by rw [hU], k1, fun he => ⟨?_, ?_⟩⟩
    · have := k2 he
      rwa [hs, List.take_of_length_le hL] at this
    · obtain ⟨hsh, e1, d1, h1, _, _, _, h5⟩ :=
        ReadFull_spec (NewDecoder { R := h.after b, N := h.wrappedLength }) (NewDecoder_inv _)
      have hhb : hashBytes (h.after b) h.wrappedLength = hsh := by simp [hashBytes, h1]
      rw [hhb]
      cases e1 with
      | none => exact h5.mp rfl
      | some err =>
        simp only [HeaderLines.after] at h1
        simp only [unwrapBody, h1, Result.mk.injEq, Outcome.ret.injEq] at hB
        rw [he] at hB
        exact absurd hB.1.2 (by simp)
  · intro q t hash s hrest ht hq hh
    obtain ⟨r', h1, h2⟩ := Unwrap_text charMap noDecode w h hc rest q t hash s b hb
      (by rw [List.take_of_length_le hL]; exact hrest) ht hq hh
    rw [h1]
    exact ⟨rfl, rfl, by rw [h2, List.drop_of_length_le hL]⟩

theorem Unwrap_truncated_witness :
    sampleHeader100.Complete ∧ ((sampleBody ++ [65, 65]).length : Int) < 100 ∧
      ((∃ e, (Unwrap sampleMap false bufferWriter []
            (NewReader (sampleHeader100.bytes ++ (sampleBody ++ [65, 65])))).out =
              .ret sampleHeader100.typ e ∧ e ≠ some .EOF ∧
          (e = none → QuantaText ((sampleBody ++ [65, 65]).filter notNewline) ∧
            20 ≤ (hashBytes (sampleHeader100.after
              (NewReader (sampleHeader100.bytes ++ (sampleBody ++ [65, 65]))))
                sampleHeader100.wrappedLength).length)) ∧
        ∀ q t hash s, (sampleBody ++ [65, 65]).filter notNewline = q ++ t → t.length < 4 →
          Decode 0 q = (hash ++ s, none) → hash.length = 20 →
          (Unwrap sampleMap false bufferWriter []
              (NewReader (sampleHeader100.bytes ++ (sampleBody ++ [65, 65])))).out =
              .ret sampleHeader100.typ (if t = [] then none else some .ErrUnexpectedEOF) ∧
            (Unwrap sampleMap false bufferWriter []
              (NewReader (sampleHeader100.bytes ++ (sampleBody ++ [65, 65])))).w =
              [] ++ emit sampleMap false s ∧
            (Unwrap sampleMap false bufferWriter []
              (NewReader (sampleHeader100.bytes ++ (sampleBody ++ [65, 65])))).r.stream = []) :=
  ⟨by decide, by decide,
    Unwrap_truncated sampleMap false sampleHeader100 (sampleBody ++ [65, 65]) []
      (NewReader (sampleHeader100.bytes ++ (sampleBody ++ [65, 65]))) (by decide) rfl
      (by decide)⟩

/-- C8: for every input with a complete header for which io.ReadFull gets fewer
than 20 bytes from the bounded decoder, `Unwrap` returns an error made by
errors.Wrap(err, "read hash"), which is not io.EOF, and writes nothing, in
both modes and for every sink. -/
theorem Unwrap_short_hash {σ : Type} (charMap : Nat → Nat) (noDecode : Bool) (W : Writer σ)
    (w : σ) (h : HeaderLines) (hc : h.Complete) (rest : List Nat) (b : Reader)
    (hb : b.stream = h.bytes ++ rest)
    (hshort : (hashBytes (h.after b) h.wrappedLength).length < 20) :
    ∃ cause r', Unwrap charMap noDecode W w b = ⟨.ret h.typ (some (.ReadHash cause)), w, r'⟩ ∧
      Error.ReadHash cause ≠ Error.EOF := by
  obtain ⟨hsh, e, d1, h1, _, _, _, he⟩ :=
    ReadFull_spec (NewDecoder { R := h.after b, N := h.wrappedLength }) (NewDecoder_inv _)
  have hhb : hashBytes (h.after b) h.wrappedLength = hsh := by simp [hashBytes, h1]
  rw [hhb] at hshort
  cases e with
  | none => exact absurd (he.mp rfl) (by omega)
  | some cause =>
    refine ⟨cause, d1.r.R, ?_, by simp⟩
    rw [Unwrap_complete_eq charMap noDecode W w h hc rest b hb]
    simp only [HeaderLines.after] at h1
    simp only [unwrapBody, h1]

theorem Unwrap_short_hash_witness :
    sampleHeader0.Complete ∧
      (hashBytes (sampleHeader0.after (NewReader (sampleHeader0.bytes ++ sampleBody)))
        sampleHeader0.wrappedLength).length < 20 ∧
      ∃ cause r', Unwrap sampleMap false bufferWriter []
          (NewReader (sampleHeader0.bytes ++ sampleBody)) =
          ⟨.ret sampleHeader0.typ (some (.ReadHash cause)), [], r'⟩ ∧
        Error.ReadHash cause ≠ Error.EOF :=
  ⟨by decide, by decide,
    Unwrap_short_hash sampleMap false bufferWriter [] sampleHeader0 (by decide) sampleBody
      (NewReader (sampleHeader0.bytes ++ sampleBody)) rfl (by decide)⟩

/-- C9 (what the code does): on the input that ends after a marker line, 17
preamble lines and a blank line 19, `Unwrap` does not return io.EOF: the index
of `bytes.TrimSpace(line)[0]` is out of range. -/
theorem Unwrap_blank_type_line_crashes :
    (completeLines blankTypeInput).length = 19 ∧
      (Unwrap sampleMap false bufferWriter [] (NewReader blankTypeInput)).out = .crash ∧
      (Unwrap sampleMap true bufferWriter [] (NewReader blankTypeInput)).out = .crash := by
  decide

/-- C10: for every input with a complete header, in both modes and for every
sink, `Unwrap` returns, and the type that it returns is the first byte of the
trimmed line 19, the 18th line after the marker line; when that line is a byte
below 128 that is no white space, between runs of ASCII white space, the type
is that byte. -/
theorem Unwrap_type_of_line19 {σ : Type} (charMap : Nat → Nat) (noDecode : Bool)
    (W : Writer σ) (w : σ) (h : HeaderLines) (hc : h.Complete) (rest : List Nat) (b : Reader)
    (hb : b.stream = h.bytes ++ rest) :
    ∃ typ e w' r', Unwrap charMap noDecode W w b = ⟨.ret typ e, w', r'⟩ ∧
      (TrimSpace h.typeLine).head? = some typ ∧
      ∀ ws1 c ws2, h.typeLine = ws1 ++ c :: ws2 → (∀ x ∈ ws1, asciiSpace x = true) →
        (∀ x ∈ ws2, asciiSpace x = true) → asciiSpace c = false → c < 128 → typ = c := by
  obtain ⟨e, w', r', k, hU, _, _⟩ := Unwrap_complete charMap noDecode W w h hc rest b hb
  refine ⟨h.typ, e, w', r', hU, ?_, ?_⟩
  · have hne : TrimSpace h.typeLine ≠ [] := hc.2.2.2.2.1
    cases ht : TrimSpace h.typeLine with
    | nil => exact absurd ht hne
    | cons t ts => simp [HeaderLines.typ, ht]
  · intro ws1 c ws2 hl h1 h2 h3 h4
    simp [HeaderLines.typ, hl, TrimSpace_ascii ws1 ws2 c h1 h2 h3 h4]

theorem Unwrap_type_of_line19_witness :
    sampleHeaderB.Complete ∧
      ∃ e w' r', Unwrap sampleMap false bufferWriter []
          (NewReader (sampleHeaderB.bytes ++ sampleBody)) =
        ⟨.ret TypPackageBody e, w', r'⟩ := by
  refine ⟨by decide, ?_⟩
  obtain ⟨typ, e, w', r', h1, _, h3⟩ :=
    Unwrap_type_of_line19 sampleMap false bufferWriter [] sampleHeaderB (by decide) sampleBody
      (NewReader (sampleHeaderB.bytes ++ sampleBody)) rfl
  have ht : typ = 98 := h3 [32] 98 [32] (by decide) (by decide) (by decide) (by decide)
    (by decide)
  exact ⟨e, w', r', by rw [h1, ht]; rfl⟩

/-- C15: the hash is read and never checked. For every two inputs with the
same header whose bodies are base64 text, within the declared length, of
streams that differ in their first 20 bytes only, `Unwrap` returns the same
type and the same status and writes the same bytes, in both modes. -/
theorem Unwrap_ignores_hash (charMap : Nat → Nat) (noDecode : Bool) (h : HeaderLines)
    (rest1 rest2 q1 q2 t1 t2 hash1 hash2 s w : List Nat) (b1 b2 : Reader) (hc : h.Complete)
    (hb1 : b1.stream = h.bytes ++ rest1) (hb2 : b2.stream = h.bytes ++ rest2)
    (hf1 : (rest1.take h.wrappedLength.toNat).filter notNewline = q1 ++ t1)
    (hf2 : (rest2.take h.wrappedLength.toNat).filter notNewline = q2 ++ t2)
    (ht1 : t1.length < 4) (ht2 : t2.length < 4) (ht : t1 = [] ↔ t2 = [])
    (hq1 : Decode 0 q1 = (hash1 ++ s, none)) (hq2 : Decode 0 q2 = (hash2 ++ s, none))
    (hh1 : hash1.length = 20) (hh2 : hash2.length = 20) :
    (Unwrap charMap noDecode bufferWriter w b1).out =
        (Unwrap charMap noDecode bufferWriter w b2).out ∧
      (Unwrap charMap noDecode bufferWriter w b1).w =
        (Unwrap charMap noDecode bufferWriter w b2).w := by
  obtain ⟨r1, e1, _⟩ :=
    Unwrap_text charMap noDecode w h hc rest1 q1 t1 hash1 s b1 hb1 hf1 ht1 hq1 hh1
  obtain ⟨r2, e2, _⟩ :=
    Unwrap_text charMap noDecode w h hc rest2 q2 t2 hash2 s b2 hb2 hf2 ht2 hq2 hh2
  rw [e1, e2]
  by_cases h1 : t1 = []
  · simp [h1, ht.mp h1]
  · have h2 : t2 ≠ [] := fun h0 => h1 (ht.mpr h0)
    simp [h1, h2]

theorem Unwrap_ignores_hash_witness :
    sampleHeader.Complete ∧
      (Unwrap sampleMap false bufferWriter [] (NewReader (sampleHeader.bytes ++ sampleBody))).out =
        (Unwrap sampleMap false bufferWriter []
          (NewReader (sampleHeader.bytes ++ sampleBodyOnes))).out ∧
      (Unwrap sampleMap false bufferWriter [] (NewReader (sampleHeader.bytes ++ sampleBody))).w =
        (Unwrap sampleMap false bufferWriter []
          (NewReader (sampleHeader.bytes ++ sampleBodyOnes))).w :=
  ⟨by decide, Unwrap_ignores_hash sampleMap false sampleHeader sampleBody sampleBodyOnes
    sampleBody sampleBodyOnes [] [] (List.replicate 20 0) (List.replicate 20 1) [104] []
    (NewReader (sampleHeader.bytes ++ sampleBody))
    (NewReader (sampleHeader.bytes ++ sampleBodyOnes))
    (by decide) rfl rfl (by decide) (by decide) (by decide) (by decide) (by decide) (by decide)
    (by decide) (by decide) (by decide)⟩

/-! ## The lines that the header loop passes over -/

theorem longHeader36_complete : longHeader36.Complete := by
  refine ⟨?_, by decide, by decide, by decide, by decide, by decide⟩
  intro l hl
  simp only [HeaderLines.lines, longHeader36, sampleHeader, List.nil_append, List.mem_cons,
    List.mem_append, List.mem_replicate, List.mem_singleton, List.not_mem_nil, or_false] at hl
  rcases hl with hl | (⟨_, hl⟩ | hl) | hl | hl
  · rw [hl]; decide
  · rw [hl]; decide
  · rw [hl]
    intro hm
    have := List.eq_of_mem_replicate hm
    omega
  · rw [hl]; decide
  · rw [hl]; decide

theorem longHeader36_length : longHeader36.bytes.length = 4064 := by
  simp only [HeaderLines.bytes, HeaderLines.lines, longHeader36, sampleHeader, joinLines,
    joinLines_append, List.length_append, List.length_cons, List.length_replicate,
    List.nil_append, List.length_nil]

/-- C16 (refuted as stated): two inputs with complete headers that differ in
line 18 only, which is "x" in the first and 4014 bytes "x" in the second, with
the same body, the sample body followed by the padded quantum "AA==" and the
quantum "AAAA". In no-decode mode `Unwrap` returns a CorruptInputError after
two bytes on the first and no error after five bytes on the second: there the
buffer of the reader ends after "AA==", the read of the decoder is cut at that
place, and the decoder takes the padded quantum for the end of a chunk. -/
theorem Unwrap_depends_on_preamble_length :
    sampleHeader36.Complete ∧ longHeader36.Complete ∧
      sampleHeader36.pre = longHeader36.pre ∧ sampleHeader36.marker = longHeader36.marker ∧
      sampleHeader36.preamble.take 16 = longHeader36.preamble.take 16 ∧
      sampleHeader36.typeLine = longHeader36.typeLine ∧
      sampleHeader36.field1 = longHeader36.field1 ∧
      sampleHeader36.field2 = longHeader36.field2 ∧
      Unwrap sampleMap true bufferWriter [] (NewReader (sampleHeader36.bytes ++ sampleBodyPad)) =
        ⟨.ret 55 (some (.CorruptInputError 4)), [104, 0], ⟨[], []⟩⟩ ∧
      Unwrap sampleMap true bufferWriter [] (NewReader (longHeader36.bytes ++ sampleBodyPad)) =
        ⟨.ret 55 none, [104, 0, 0, 0, 0], ⟨[], []⟩⟩ := by
  refine ⟨by decide, longHeader36_complete, by decide, by decide, by decide, by decide, by decide,
    by decide, by decide, ?_⟩
  rw [Unwrap_complete_eq sampleMap true bufferWriter [] longHeader36 longHeader36_complete
    sampleBodyPad (NewReader (longHeader36.bytes ++ sampleBodyPad)) rfl]
  have hs := Reader.skip_header_new longHeader36 longHeader36_complete sampleBodyPad
    (by rw [longHeader36_length]; omega)
  rw [longHeader36_length] at hs
  rw [hs]
  decide

/-- C16 (amended): the lines before the marker and the lines 2 to 18 are not
examined. For every two inputs with complete headers that have the same type
line and the same second field of the length line, whatever their lines before
the marker (none of them a marker line) and their 17 preamble lines (a preamble
line may end with " wrapped"), and with the same bytes after line 20: `Unwrap`
returns the same type, for every sink and in both modes; it returns the same
result (type, status, sink and reader) when the reader is in the same state
after the two headers, as it is when both inputs are read from their start and
the two headers have the same number of bytes, no more than 4096; and with the
sink that keeps all it returns the same type and status, writes the same bytes
and leaves the same input when the body within the declared length is base64
text, cut or not inside its last quantum. -/
theorem Unwrap_ignores_preamble {σ : Type} (charMap : Nat → Nat) (noDecode : Bool)
    (h1 h2 : HeaderLines) (rest : List Nat) (hc1 : h1.Complete) (hc2 : h2.Complete)
    (ht : h1.typeLine = h2.typeLine) (hf2 : h1.field2 = h2.field2) :
    (∀ (W : Writer σ) (w : σ) (b1 b2 : Reader), b1.stream = h1.bytes ++ rest →
        b2.stream = h2.bytes ++ rest →
        (∃ e1 e2, (Unwrap charMap noDecode W w b1).out = .ret h1.typ e1 ∧
          (Unwrap charMap noDecode W w b2).out = .ret h1.typ e2) ∧
        (h1.after b1 = h2.after b2 →
          Unwrap charMap noDecode W w b1 = Unwrap charMap noDecode W w b2)) ∧
      (∀ (W : Writer σ) (w : σ), h1.bytes.length = h2.bytes.length → h1.bytes.length ≤ 4096 →
        Unwrap charMap noDecode W w (NewReader (h1.bytes ++ rest)) =
          Unwrap charMap noDecode W w (NewReader (h2.bytes ++ rest))) ∧
      ∀ (w : List Nat) (b1 b2 : Reader) (q t hash s : List Nat), b1.stream = h1.bytes ++ rest →
        b2.stream = h2.bytes ++ rest →
        (rest.take h1.wrappedLength.toNat).filter notNewline = q ++ t → t.length < 4 →
        Decode 0 q = (hash ++ s, none) → hash.length = 20 →
        (Unwrap charMap noDecode bufferWriter w b1).out =
            (Unwrap charMap noDecode bufferWriter w b2).out ∧
          (Unwrap charMap noDecode bufferWriter w b1).w =
            (Unwrap charMap noDecode bufferWriter w b2).w ∧
          (Unwrap charMap noDecode bufferWriter w b1).r.stream =
            (Unwrap charMap noDecode bufferWriter w b2).r.stream := by
  have htyp : h2.typ = h1.typ := by simp [HeaderLines.typ, ht]
  have hL : h2.wrappedLength = h1.wrappedLength := by simp [HeaderLines.wrappedLength, hf2]
  have hsame : ∀ (W : Writer σ) (w : σ) (b1 b2 : Reader), b1.stream = h1.bytes ++ rest →
      b2.stream = h2.bytes ++ rest → h1.after b1 = h2.after b2 →
      Unwrap charMap noDecode W w b1 = Unwrap charMap noDecode W w b2 := by
    intro W w b1 b2 hb1 hb2 hst
    rw [Unwrap_complete_eq charMap noDecode W w h1 hc1 rest b1 hb1,
      Unwrap_complete_eq charMap noDecode W w h2 hc2 rest b2 hb2, htyp, hL]
    simp only [HeaderLines.after] at hst
    rw [hst]
  refine ⟨fun W w b1 b2 hb1 hb2 => ⟨?_, hsame W w b1 b2 hb1 hb2⟩, fun W w hlen h4 => ?_,
    fun w b1 b2 q t hash s hb1 hb2 hfil htl hq hh => ?_⟩
  · obtain ⟨e1, w1, r1, k1, hU1, _⟩ := Unwrap_complete charMap noDecode W w h1 hc1 rest b1 hb1
    obtain ⟨e2, w2, r2, k2, hU2, _⟩ := Unwrap_complete charMap noDecode W w h2 hc2 rest b2 hb2
    exact ⟨e1, e2, by rw [hU1], by rw [hU2, htyp]⟩
  · apply hsame W w (NewReader (h1.bytes ++ rest)) (NewReader (h2.bytes ++ rest)) rfl rfl
    simp only [HeaderLines.after]
    rw [Reader.skip_header_new h1 hc1 rest h4,
      Reader.skip_header_new h2 hc2 rest (by omega), hlen]
  · obtain ⟨r1, e1, s1⟩ :=
      Unwrap_text charMap noDecode w h1 hc1 rest q t hash s b1 hb1 hfil htl hq hh
    obtain ⟨r2, e2, s2⟩ :=
      Unwrap_text charMap noDecode w h2 hc2 rest q t hash s b2 hb2 (by rw [hL]; exact hfil) htl
        hq hh
    rw [e1, e2, htyp]
    exact ⟨rfl, rfl, by rw [s1, s2, hL]⟩

theorem Unwrap_ignores_preamble_witness :
    sampleHeader.Complete ∧ sampleHeaderP.Complete ∧
      sampleHeader.typeLine = sampleHeaderP.typeLine ∧
      sampleHeader.field2 = sampleHeaderP.field2 ∧
      ((∀ (W : Writer (List Nat)) (w : List Nat) (b1 b2 : Reader),
          b1.stream = sampleHeader.bytes ++ sampleBody →
          b2.stream = sampleHeaderP.bytes ++ sampleBody →
          (∃ e1 e2, (Unwrap sampleMap false W w b1).out = .ret sampleHeader.typ e1 ∧
            (Unwrap sampleMap false W w b2).out = .ret sampleHeader.typ e2) ∧
          (sampleHeader.after b1 = sampleHeaderP.after b2 →
            Unwrap sampleMap false W w b1 = Unwrap sampleMap false W w b2)) ∧
        (∀ (W : Writer (List Nat)) (w : List Nat),
          sampleHeader.bytes.length = sampleHeaderP.bytes.length →
          sampleHeader.bytes.length ≤ 4096 →
          Unwrap sampleMap false W w (NewReader (sampleHeader.bytes ++ sampleBody)) =
            Unwrap sampleMap false W w (NewReader (sampleHeaderP.bytes ++ sampleBody))) ∧
        ∀ (w : List Nat) (b1 b2 : Reader) (q t hash s : List Nat),
          b1.stream = sampleHeader.bytes ++ sampleBody →
          b2.stream = sampleHeaderP.bytes ++ sampleBody →
          (sampleBody.take sampleHeader.wrappedLength.toNat).filter notNewline = q ++ t →
          t.length < 4 → Decode 0 q = (hash ++ s, none) → hash.length = 20 →
          (Unwrap sampleMap false bufferWriter w b1).out =
              (Unwrap sampleMap false bufferWriter w b2).out ∧
            (Unwrap sampleMap false bufferWriter w b1).w =
              (Unwrap sampleMap false bufferWriter w b2).w ∧
            (Unwrap sampleMap false bufferWriter w b1).r.stream =
              (Unwrap sampleMap false bufferWriter w b2).r.stream) :=
  ⟨by decide, by decide, by decide, by decide,
    Unwrap_ignores_preamble sampleMap false sampleHeader sampleHeaderP sampleBody (by decide)
      (by decide) (by decide) (by decide)⟩

/-! ## The length line -/

theorem hexFold_ge (s : List Nat) : ∀ n : Nat,
    n ≤ s.foldl (fun n c => n * 16 + (hexDigit c).getD 0) n := by
  induction s with
  | nil => intro n; exact le_refl n
  | cons c cs ih =>
    intro n
    simp only [List.foldl_cons]
    exact le_trans (by omega) (ih _)

theorem parseUintLoop_hex (s : List Nat) : ∀ n : Nat,
    (∀ c ∈ s, (hexDigit c).isSome = true) →
    s.foldl (fun n c => n * 16 + (hexDigit c).getD 0) n ≤ 4294967295 →
    parseUintLoop n s = (s.foldl (fun n c => n * 16 + (hexDigit c).getD 0) n, none) := by
  induction s with
  | nil => intro n _ _; rfl
  | cons c cs ih =>
    intro n hd hle
    obtain ⟨d, hdc⟩ := Option.isSome_iff_exists.mp (hd c (by simp))
    simp only [List.foldl_cons, hdc, Option.getD_some] at hle ⊢
    have hge := hexFold_ge cs (n * 16 + d)
    have hnot : ¬ n * 16 + d > 4294967295 := by omega
    simp only [parseUintLoop, hdc, hnot, if_false]
    exact ih _ (fun x hx => hd x (by simp [hx])) hle

/-- On a numeral in base 16 below 1<<31 strconv.ParseInt gives its value. -/
theorem ParseInt_hex (s : List Nat) (hs : isHex s = true) (hv : hexValue s < 2147483648) :
    ParseInt s = ((hexValue s : Int), none) := by
  cases s with
  | nil => simp [isHex] at hs
  | cons c cs =>
    have hall : ∀ x ∈ c :: cs, (hexDigit x).isSome = true := by
      simpa [isHex] using hs
    have hc := hall c (by simp)
    have h43 : c ≠ 43 := by
      intro h; rw [h] at hc; simp [hexDigit] at hc
    have h45 : c ≠ 45 := by
      intro h; rw [h] at hc; simp [hexDigit] at hc
    have hloop := parseUintLoop_hex (c :: cs) 0 hall (by simp only [hexValue] at hv; omega)
    have hnot : ¬ hexValue (c :: cs) ≥ 2147483648 := by omega
    simp only [ParseInt, h43, h45, or_self, if_false, ParseUint, hloop, decide_False]
    simp [hexValue] at hnot ⊢
    omega

/-- C11 (refuted as stated): on the length line "0  1c", two fields in base 16
with two spaces between them, and on the length line "0 1c" followed by a
carriage return, the length that bounds the body is 0, not the value 28 of the
second field, and `Unwrap` returns the error of the hash read. -/
theorem Unwrap_length_line_white_space :
    hexValue [49, 99] = 28 ∧
      headerLoop ((NewReader (sampleHeaderSp.bytes ++ sampleBody)).stream.length + 1)
          (NewReader (sampleHeaderSp.bytes ++ sampleBody)) 0 0 false =
        .brk 55 20 true 0 ⟨sampleBody, []⟩ ∧
      Unwrap sampleMap false bufferWriter [] (NewReader (sampleHeaderSp.bytes ++ sampleBody)) =
        ⟨.ret 55 (some (.ReadHash .EOF)), [], ⟨sampleBody, []⟩⟩ ∧
      headerLoop ((NewReader (sampleHeaderCR.bytes ++ sampleBody)).stream.length + 1)
          (NewReader (sampleHeaderCR.bytes ++ sampleBody)) 0 0 false =
        .brk 55 20 true 0 ⟨sampleBody, []⟩ ∧
      Unwrap sampleMap false bufferWriter [] (NewReader (sampleHeaderCR.bytes ++ sampleBody)) =
        ⟨.ret 55 (some (.ReadHash .EOF)), [], ⟨sampleBody, []⟩⟩ := by
  decide

/-- C11 (amended): for every input with a complete header whose line 20 is a
first field, one space and a second field that is a numeral in base 16 below
1<<31, with nothing after it, the length that bounds the body is the value of
the second field, whatever the first field: the header loop leaves it in
`wrappedLength`, and `Unwrap` takes at most that many bytes after line 20. -/
theorem Unwrap_length_is_second_field {σ : Type} (charMap : Nat → Nat) (noDecode : Bool)
    (W : Writer σ) (w : σ) (h : HeaderLines) (rest : List Nat) (b : Reader) (hc : h.Complete)
    (hb : b.stream = h.bytes ++ rest)
    (hs : isHex h.field2 = true) (hv : hexValue h.field2 < 2147483648) :
    (∃ r', headerLoop (b.stream.length + 1) b 0 0 false =
        .brk h.typ 20 true (hexValue h.field2 : Int) r' ∧ r'.stream = rest) ∧
      ∃ p, rest = p ++ (Unwrap charMap noDecode W w b).r.stream ∧
        p.length ≤ hexValue h.field2 := by
  have hL : h.wrappedLength = (hexValue h.field2 : Int) := by
    simp [HeaderLines.wrappedLength, ParseInt_hex h.field2 hs hv]
  refine ⟨⟨_, by rw [headerLoop_bytes h hc rest b hb, hL], b.skip_header h hc rest hb⟩, ?_⟩
  obtain ⟨e, w', r', k, hU, hr, hk, _⟩ := Unwrap_complete charMap noDecode W w h hc rest b hb
  rw [hU]
  refine ⟨rest.take k, by simp only [hr]; exact (List.take_append_drop k rest).symm, ?_⟩
  rw [hL] at hk
  exact (List.length_take_le k rest).trans (by simpa using hk)

theorem Unwrap_length_is_second_field_witness :
    sampleHeader.Complete ∧ isHex sampleHeader.field2 = true ∧
      ((∃ r', headerLoop ((NewReader (sampleHeader.bytes ++ sampleBody)).stream.length + 1)
          (NewReader (sampleHeader.bytes ++ sampleBody)) 0 0 false =
          .brk sampleHeader.typ 20 true (hexValue sampleHeader.field2 : Int) r' ∧
        r'.stream = sampleBody) ∧
      ∃ p, sampleBody = p ++ (Unwrap sampleMap false bufferWriter []
          (NewReader (sampleHeader.bytes ++ sampleBody))).r.stream ∧
        p.length ≤ hexValue sampleHeader.field2) :=
  ⟨by decide, by decide,
    Unwrap_length_is_second_field sampleMap false bufferWriter [] sampleHeader sampleBody
      (NewReader (sampleHeader.bytes ++ sampleBody)) (by decide) rfl (by decide) (by decide)⟩

/-! ## The type returned, the indices and the end of a call -/

/-- C14 (refuted as stated): on the sample object with the type line "x",
`Unwrap` returns the type 120 and no error; 120 is none of the six codes. -/
theorem Unwrap_returns_any_type :
    Unwrap sampleMap false bufferWriter [] (NewReader (sampleHeaderX.bytes ++ sampleBody)) =
        ⟨.ret 120 none, [105], ⟨[], []⟩⟩ ∧
      120 ∉ [TypProcedure, TypFunction, TypPackage, TypPackageBody, TypType, TypTypeBody] := by
  decide

/-- C14 (amended): every type value that `Unwrap` returns together with no
error is the first byte of the trimmed line 19 of a complete header with which
the input starts: it is one of the six codes when that byte is. -/
theorem Unwrap_success_type {σ : Type} (charMap : Nat → Nat) (noDecode : Bool) (W : Writer σ)
    (w : σ) (b : Reader) (typ : Nat)
    (hs : (Unwrap charMap noDecode W w b).out = .ret typ none) :
    ∃ (h : HeaderLines) (rest : List Nat), h.Complete ∧ b.stream = h.bytes ++ rest ∧
      (TrimSpace h.typeLine).head? = some typ := by
  rcases Unwrap_cases charMap noDecode W w b with h0 | ⟨t, h0⟩ | ⟨h, rest, e, hc, e1, h0⟩
  · rw [h0] at hs; cases hs
  · rw [h0] at hs; cases hs
  · rw [h0] at hs
    simp only [Outcome.ret.injEq] at hs
    refine ⟨h, rest, hc, e1, ?_⟩
    have hne : TrimSpace h.typeLine ≠ [] := hc.2.2.2.2.1
    cases ht : TrimSpace h.typeLine with
    | nil => exact absurd ht hne
    | cons c cs =>
      rw [← hs.1]
      simp [HeaderLines.typ, ht]

theorem Unwrap_success_type_witness :
    (Unwrap sampleMap false bufferWriter []
        (NewReader (sampleHeaderX.bytes ++ sampleBody))).out = .ret 120 none ∧
      ∃ (h : HeaderLines) (rest : List Nat), h.Complete ∧
        (NewReader (sampleHeaderX.bytes ++ sampleBody)).stream = h.bytes ++ rest ∧
        (TrimSpace h.typeLine).head? = some 120 :=
  ⟨by decide, Unwrap_success_type sampleMap false bufferWriter []
    (NewReader (sampleHeaderX.bytes ++ sampleBody)) 120 (by decide)⟩

/-- Every line that ReadBytes gives without an error ends with a newline, and
the call takes at least one byte from the stream. -/
theorem Reader.ReadBytes_some (b : Reader) (line : List Nat) (b' : Reader)
    (h : b.ReadBytes = some ((line, none), b')) :
    b.stream = line ++ b'.stream ∧ line.getLast? = some 10 ∧
      b'.stream.length < b.stream.length := by
  rcases split_line b.stream with h0 | ⟨l, r1, hl, e⟩
  · rw [b.ReadBytes_none h0] at h; cases h
  · obtain ⟨k1, k2⟩ := b.ReadBytes_line l r1 hl e
    rw [k1] at h
    simp only [Option.some.injEq, Prod.mk.injEq, and_true] at h
    obtain ⟨h1, h2⟩ := h
    subst h1
    rw [← h2, k2, e]
    simp
    omega

/-- The call ReadBytes returns for every reader. -/
theorem Reader.ReadBytes_returns (b : Reader) : ∃ line e b', b.ReadBytes = some ((line, e), b') := by
  rcases split_line b.stream with h0 | ⟨l, r1, hl, e⟩
  · exact ⟨_, _, _, b.ReadBytes_none h0⟩
  · exact ⟨_, _, _, (b.ReadBytes_line l r1 hl e).1⟩

/-- C18 (what the code does): the byte `line[len(line)-1]` is there for every
line that ReadBytes gives; but on the sample object with a blank type line and
on the sample object whose length line has no space, `Unwrap` does not return:
the index of `bytes.TrimSpace(line)[0]`, and of `parts[1]`, is out of range. -/
theorem Unwrap_index_out_of_range :
    (∀ (b : Reader) (line : List Nat) (b' : Reader), b.ReadBytes = some ((line, none), b') →
        line.getLast? = some 10) ∧
      (Unwrap sampleMap false bufferWriter [] (NewReader blankTypeObject)).out = .crash ∧
      (Unwrap sampleMap true bufferWriter [] (NewReader blankTypeObject)).out = .crash ∧
      (Unwrap sampleMap false bufferWriter [] (NewReader noSpaceObject)).out = .crash ∧
      (Unwrap sampleMap true bufferWriter [] (NewReader noSpaceObject)).out = .crash :=
  ⟨fun b line b' h => (b.ReadBytes_some line b' h).2.1, by decide, by decide, by decide,
    by decide⟩

/-- For every input, in both modes and for every sink, `Unwrap` ends within its
fuel, by a return or by the run-time error of an index out of range: no loop
runs for ever. Every line read takes at least one byte from the input, and
every read of the decoder with a buffer that is not empty, if it gives no
error, delivers at least one byte, so that the buffer cut to the size of that
read is not empty at the next read. -/
theorem Unwrap_never_hangs {σ : Type} (charMap : Nat → Nat) (noDecode : Bool) (W : Writer σ)
    (w : σ) (b : Reader) :
    (Unwrap charMap noDecode W w b).out ≠ .hang ∧
      (∀ line b', b.ReadBytes = some ((line, none), b') →
        b'.stream.length < b.stream.length) ∧
      (∀ (d : decoder) (lenb : Nat) (p : List Nat) (d' : decoder), d.Inv → 0 < lenb →
        d.Read lenb = some ((p, none), d') → 0 < p.length) := by
  refine ⟨?_, ?_, ?_⟩
  · rcases Unwrap_cases charMap noDecode W w b with h0 | ⟨t, h0⟩ | ⟨h, rest, e, _, _, h0⟩ <;>
      rw [h0] <;> simp
  · intro line b' h
    exact (b.ReadBytes_some line b' h).2.2
  · intro d lenb p d' hinv hl hr
    obtain ⟨p1, e1, d1, h1, _, _, _, hprog, _⟩ := decoder.Read_spec d lenb hinv hl
    rw [h1] at hr
    simp only [Option.some.injEq, Prod.mk.injEq] at hr
    obtain ⟨⟨hp, he⟩, _⟩ := hr
    rw [← hp]
    exact List.length_pos.mpr (hprog he).1

/-- C19 (what the code does): `Unwrap` does not return for every input. On the
sample object whose length line is "0", a tab and "1c", a complete header but
for the tab in the place of the space, the call ends in both modes with the
run-time error of an index out of range at `parts[1]`, before any read of the
body; and on the sample object with a blank type line it ends with the same
error at `bytes.TrimSpace(line)[0]`. -/
theorem Unwrap_does_not_return :
    (Unwrap sampleMap false bufferWriter [] (NewReader tabLengthObject)).out = .crash ∧
      (Unwrap sampleMap true bufferWriter [] (NewReader tabLengthObject)).out = .crash ∧
      (Unwrap sampleMap false bufferWriter [] (NewReader tabLengthObject)).out ≠
        .ret 55 none ∧
      (Unwrap sampleMap false (fullWriter 0) [] (NewReader blankTypeObject)).out = .crash := by
  decide

/-! ## Decode errors and write errors -/

theorem decodeTurn_loop {σ : Type} (charMap : Nat → Nat) (W : Writer σ) (f : Nat)
    (s s' : decoder × σ × Nat) (h : decodeTurn charMap W s s') :
    decodeLoop charMap W (f + 1) s.1 s.2.1 s.2.2 = decodeLoop charMap W f s'.1 s'.2.1 s'.2.2 := by
  obtain ⟨p, d', hr, hw, e⟩ := h
  subst e
  simp only [decodeLoop, hr, hw]
  simp

theorem decodeTurn_inv {σ : Type} (charMap : Nat → Nat) (W : Writer σ)
    (s s' : decoder × σ × Nat) (h : decodeTurn charMap W s s') (hinv : s.1.Inv)
    (hl : 0 < s.2.2) : s'.1.Inv ∧ 0 < s'.2.2 ∧ s'.1.size < s.1.size := by
  obtain ⟨p, d', hr, hw, e⟩ := h
  subst e
  obtain ⟨p1, e1, d1, h1, hinv1, _, _, hprog, _⟩ := decoder.Read_spec s.1 s.2.2 hinv hl
  rw [h1] at hr
  simp only [Option.some.injEq, Prod.mk.injEq] at hr
  obtain ⟨⟨hp, he⟩, hd⟩ := hr
  subst hp hd
  obtain ⟨hne, hsz⟩ := hprog he
  exact ⟨hinv1, by simpa using List.length_pos.mpr hne, hsz⟩

/-- The loop run from a first state is the loop run from any state it reaches. -/
theorem decodeReach_loop {σ : Type} (charMap : Nat → Nat) (W : Writer σ)
    (s0 s : decoder × σ × Nat) (h : decodeReach charMap W s0 s) (hinv : s0.1.Inv)
    (hl : 0 < s0.2.2) (f : Nat) (hf : s0.1.size < f) :
    ∃ f', s.1.size < f' ∧ s.1.Inv ∧ 0 < s.2.2 ∧
      decodeLoop charMap W f s0.1 s0.2.1 s0.2.2 = decodeLoop charMap W f' s.1 s.2.1 s.2.2 := by
  induction h with
  | start => exact ⟨f, hf, hinv, hl, rfl⟩
  | turn s' s'' _ ht ih =>
    obtain ⟨f', h1, h2, h3, h4⟩ := ih
    obtain ⟨i1, i2, i3⟩ := decodeTurn_inv charMap W s' s'' ht h2 h3
    cases f' with
    | zero => omega
    | succ f' =>
      exact ⟨f', by omega, i1, i2, h4.trans (decodeTurn_loop charMap W f' s' s'' ht)⟩

/-- C13 (refuted as stated): in no-decode mode, on the sample body followed by
"AAAA!!!!", the read of the chunk 0 0 0 returns a decode error, as the run
with the sink that keeps all shows; with a sink that has room for one byte the
write of that chunk fails, and `Unwrap` returns the error of the sink. -/
theorem Unwrap_noDecode_write_error_first :
    Unwrap sampleMap true bufferWriter [] (NewReader (sampleHeader36.bytes ++ sampleBodyBad)) =
        ⟨.ret 55 (some (.CorruptInputError 4)), [104, 0, 0, 0], ⟨[], []⟩⟩ ∧
      Unwrap sampleMap true (fullWriter 1) [] (NewReader (sampleHeader36.bytes ++ sampleBodyBad)) =
        ⟨.ret 55 (some (.SinkError 28)), [104], ⟨[], []⟩⟩ := by
  decide

/-- C13 (amended): in decode mode, for every input with a complete header and
every sink, when after the hash and after any number of turns of the loop the
read of a chunk returns a decode error, `Unwrap` returns that error, whatever
the write of the chunk returns: a write error is returned only when the read
gave no error. -/
theorem Unwrap_decode_error_first {σ : Type} (charMap : Nat → Nat) (W : Writer σ) (w : σ)
    (h : HeaderLines) (rest hsh : List Nat) (b : Reader) (d1 d d' : decoder) (w' : σ)
    (lenb : Nat) (p : List Nat) (e : Error) (hc : h.Complete) (hb : b.stream = h.bytes ++ rest)
    (hRF : ReadFull (NewDecoder { R := h.after b, N := h.wrappedLength }) =
      some ((hsh, none), d1))
    (hreach : decodeReach charMap W (d1, w, 4096) (d, w', lenb))
    (hr : d.Read lenb = some ((p, some e), d')) (he : e ≠ .EOF) :
    Unwrap charMap false W w b =
      ⟨.ret h.typ (some e), (W.Write w' (p.map charMap)).1, d'.r.R⟩ := by
  obtain ⟨hsh', e', d1', h1, hinv1, _, hsz1, _⟩ :=
    ReadFull_spec (NewDecoder { R := h.after b, N := h.wrappedLength }) (NewDecoder_inv _)
  rw [hRF] at h1
  simp only [Option.some.injEq, Prod.mk.injEq] at h1
  obtain ⟨_, hd⟩ := h1
  subst hd
  have hsz : d1.size < (h.after b).stream.length + 1 := by
    have : (NewDecoder { R := h.after b, N := h.wrappedLength }).size =
        (h.after b).stream.length := by
      simp [NewDecoder, decoder.size]
    omega
  obtain ⟨f', hf', _, _, hloop⟩ :=
    decodeReach_loop charMap W (d1, w, 4096) (d, w', lenb) hreach hinv1 (by simp) _ hsz
  cases f' with
  | zero => omega
  | succ f' =>
    rw [Unwrap_complete_eq charMap false W w h hc rest b hb]
    simp only [HeaderLines.after] at hRF hloop
    simp only [unwrapBody, hRF, Bool.false_eq_true, if_false] at hloop ⊢
    rw [hloop]
    simp only [decodeLoop, hr]
    simp [he]

theorem Unwrap_decode_error_first_witness :
    sampleHeader36.Complete ∧
      ((fullWriter 0).Write [] ([0, 0, 0].map sampleMap)).2.2 = some (.SinkError 28) ∧
      Unwrap sampleMap false (fullWriter 0) []
          (NewReader (sampleHeader36.bytes ++ sampleBodyPadBad)) =
        ⟨.ret sampleHeader36.typ (some (.CorruptInputError 4)),
          ((fullWriter 0).Write [] ([0, 0, 0].map sampleMap)).1,
          (⟨some (.CorruptInputError 4), none, ⟨⟨[], []⟩, 0⟩, [], []⟩ : decoder).r.R⟩ :=
  ⟨by decide, by decide,
    Unwrap_decode_error_first sampleMap (fullWriter 0) [] sampleHeader36 sampleBodyPadBad
      (List.replicate 20 0) (NewReader (sampleHeader36.bytes ++ sampleBodyPadBad))
      ⟨none, none, ⟨⟨[65, 65, 65, 65, 33, 33, 33, 33], []⟩, 8⟩, [], []⟩
      ⟨none, none, ⟨⟨[65, 65, 65, 65, 33, 33, 33, 33], []⟩, 8⟩, [], []⟩
      ⟨some (.CorruptInputError 4), none, ⟨⟨[], []⟩, 0⟩, [], []⟩ [] 4096 [0, 0, 0]
      (.CorruptInputError 4) (by decide) rfl (by decide) (decodeReach.start _) (by decide)
      (by decide)⟩

/-! ## The two modes -/

/-- On a body that is base64 text within the declared length, cut or not inside
its last quantum, the two modes return the same type and status and leave the
same input, and decode mode writes the image under the table of what
no-decode mode writes. -/
theorem Unwrap_modes_agree_on_text (charMap : Nat → Nat) (w : List Nat) (h : HeaderLines)
    (hc : h.Complete) (rest q t hash s : List Nat) (b : Reader)
    (hb : b.stream = h.bytes ++ rest)
    (hfil : (rest.take h.wrappedLength.toNat).filter notNewline = q ++ t) (ht : t.length < 4)
    (hq : Decode 0 q = (hash ++ s, none)) (hh : hash.length = 20) :
    (Unwrap charMap false bufferWriter w b).out = (Unwrap charMap true bufferWriter w b).out ∧
      (Unwrap charMap false bufferWriter w b).r.stream =
        (Unwrap charMap true bufferWriter w b).r.stream ∧
      (Unwrap charMap false bufferWriter [] b).w =
        ((Unwrap charMap true bufferWriter [] b).w).map charMap := by
  obtain ⟨r1, e1, s1⟩ := Unwrap_text charMap false w h hc rest q t hash s b hb hfil ht hq hh
  obtain ⟨r2, e2, s2⟩ := Unwrap_text charMap true w h hc rest q t hash s b hb hfil ht hq hh
  obtain ⟨r3, e3, _⟩ := Unwrap_text charMap false [] h hc rest q t hash s b hb hfil ht hq hh
  obtain ⟨r4, e4, _⟩ := Unwrap_text charMap true [] h hc rest q t hash s b hb hfil ht hq hh
  rw [e1, e2, e3, e4]
  exact ⟨rfl, by rw [s1, s2], by simp [emit]⟩

/-- C17 (what the code does): the two modes differ on bodies that are not
base64 text. On the sample body followed by the padded quantum "AA==" and the
quantum "AAAA", decode mode, which after the first byte reads with a buffer of
one byte and so one quantum at a time, returns no error and writes five bytes;
no-decode mode reads both quanta at once, returns a CorruptInputError and
writes two bytes. On the sample body followed by "!!!!" and "AAAA" both modes
return a CorruptInputError, but decode mode leaves "AAAA" in the input and
no-decode mode leaves nothing. -/
theorem Unwrap_modes_differ :
    Unwrap sampleMap false bufferWriter [] (NewReader (sampleHeader36.bytes ++ sampleBodyPad)) =
        ⟨.ret 55 none, [105, 1, 1, 1, 1], ⟨[], []⟩⟩ ∧
      Unwrap sampleMap true bufferWriter [] (NewReader (sampleHeader36.bytes ++ sampleBodyPad)) =
        ⟨.ret 55 (some (.CorruptInputError 4)), [104, 0], ⟨[], []⟩⟩ ∧
      Unwrap sampleMap false bufferWriter [] (NewReader (sampleHeader36.bytes ++ sampleBodyLate)) =
        ⟨.ret 55 (some (.CorruptInputError 0)), [105], ⟨[65, 65, 65, 65], []⟩⟩ ∧
      Unwrap sampleMap true bufferWriter [] (NewReader (sampleHeader36.bytes ++ sampleBodyLate)) =
        ⟨.ret 55 (some (.CorruptInputError 0)), [104], ⟨[], []⟩⟩ := by
  decide

/-! ## The table that mktable derives -/

/-- One turn of the fill loop on an input that has the 257 bytes after `s`:
the table gets the entry `j` at the probe byte number `j`. -/
theorem fillLoop_step (b : List Nat) (s fuel j : Nat) (a : List Nat) (hj : j < 256)
    (hlen : s + 256 < b.length) :
    fillLoop b (fuel + 1) j (s + (if 39 < j then 1 else 0)) a =
      fillLoop b fuel (j + 1) (s + (if 39 < j + 1 then 1 else 0)) (a.set (probe b s j) j) := by
  have hstart : (if j = 39 then s + (if 39 < j then 1 else 0) + 1
      else s + (if 39 < j then 1 else 0)) = s + (if 39 < j + 1 then 1 else 0) := by
    split_ifs <;> omega
  have hidx : s + (if 39 < j + 1 then 1 else 0) + j = s + j + (if 39 ≤ j then 1 else 0) := by
    split_ifs <;> omega
  have hlt : s + j + (if 39 ≤ j then 1 else 0) < b.length := by
    split_ifs <;> omega
  have hget : b.get? (s + j + (if 39 ≤ j then 1 else 0)) = some (probe b s j) := by
    rw [List.get?_eq_getElem?, List.getElem?_eq_getElem hlt, probe,
      List.getD_eq_getElem?_getD, List.getElem?_eq_getElem hlt]
    rfl
  simp only [fillLoop, hstart, hidx, hget]

/-- The fill loop returns on an input that has the 257 bytes after `s`, and
when the probe bytes are pairwise distinct the table it returns has the entry
`i` at the probe byte number `i`. -/
theorem fillLoop_spec (b : List Nat) (s : Nat) (hb : ∀ x ∈ b, x < 256)
    (hlen : s + 256 < b.length)
    (hd : ∀ i j, i < 256 → j < 256 → probe b s i = probe b s j → i = j) :
    ∀ (fuel j : Nat) (a : List Nat), j + fuel = 256 → a.length = 256 →
      (∀ i, i < j → a.getD (probe b s i) 0 = i) →
      ∃ t, fillLoop b fuel j (s + (if 39 < j then 1 else 0)) a = some t ∧ t.length = 256 ∧
        ∀ i, i < 256 → t.getD (probe b s i) 0 = i := by
  have hp : ∀ i, i < 256 → probe b s i < 256 := by
    intro i hi
    have hlt : s + i + (if 39 ≤ i then 1 else 0) < b.length := by
      split_ifs <;> omega
    rw [probe, List.getD_eq_getElem?_getD, List.getElem?_eq_getElem hlt]
    exact hb _ (List.getElem_mem _)
  intro fuel
  induction fuel with
  | zero =>
    intro j a hj ha hinv
    have : j = 256 := by omega
    subst this
    exact ⟨a, by simp [fillLoop], ha, hinv⟩
  | succ fuel ih =>
    intro j a hj ha hinv
    have hj256 : j < 256 := by omega
    rw [fillLoop_step b s fuel j a hj256 hlen]
    apply ih (j + 1) _ (by omega) (by simpa using ha)
    intro i hi
    have hpj := hp j hj256
    rcases Nat.lt_succ_iff_lt_or_eq.mp hi with hlt | heq
    · have hne : probe b s j ≠ probe b s i := by
        intro e
        have := hd j i hj256 (by omega) e
        omega
      rw [List.getD_eq_getElem?_getD, List.getElem?_set_ne hne, ← List.getD_eq_getElem?_getD]
      exact hinv i hlt
    · subst heq
      rw [List.getD_eq_getElem?_getD, List.getElem?_set_self (by omega)]
      rfl

/-- A table that has the entry `i` at the `i`-th of 256 pairwise distinct byte
values is one to one and onto on the byte values. -/
theorem table_bijective (p : Nat → Nat) (t : List Nat) (hp : ∀ i, i < 256 → p i < 256)
    (hd : ∀ i j, i < 256 → j < 256 → p i = p j → i = j)
    (ht : ∀ i, i < 256 → t.getD (p i) 0 = i) :
    (∀ x y, x < 256 → y < 256 → t.getD x 0 = t.getD y 0 → x = y) ∧
      ∀ v, v < 256 → ∃ x, x < 256 ∧ t.getD x 0 = v := by
  have hinj : Function.Injective (fun i : Fin 256 => (⟨p i.1, hp i.1 i.2⟩ : Fin 256)) := by
    intro i j e
    have e1 : p i.1 = p j.1 := by simpa using congrArg Fin.val e
    exact Fin.ext (hd i.1 j.1 i.2 j.2 e1)
  have hsur := Finite.injective_iff_surjective.mp hinj
  have hs : ∀ x, x < 256 → ∃ i, i < 256 ∧ p i = x := by
    intro x hx
    obtain ⟨i, hi⟩ := hsur ⟨x, hx⟩
    exact ⟨i.1, i.2, by simpa using congrArg Fin.val hi⟩
  refine ⟨?_, fun v hv => ⟨p v, hp v hv, ht v hv⟩⟩
  intro x y hx hy e
  obtain ⟨i, hi, rfl⟩ := hs x hx
  obtain ⟨j, hj, rfl⟩ := hs y hy
  rw [ht i hi, ht j hj] at e
  rw [e]

/-- The probe bytes of the sample input are the byte values from 255 down. -/
theorem probe_sampleProbe : ∀ j, j < 256 → probe sampleProbe 11 j = 255 - j := by
  decide

/-- The table that mktable derives from the sample input: the byte values from
255 down to 0. -/
theorem mktable_sampleProbe : mktable sampleProbe = .table (List.range 256).reverse := by
  decide

/-- A search of mktable that ends with `s` not 0 found the index `s - 1`, in
range and not before the index it began at, at which the nine bytes before are
the byte at the index. -/
theorem findStart_run (b : List Nat) (fuel i s : Nat) (hs : findStart b fuel i = s)
    (h0 : s ≠ 0) : i < s ∧ s ≤ b.length ∧ mismatch b (s - 1) = false := by
  induction fuel generalizing i with
  | zero => simp [findStart] at hs; omega
  | succ fuel ih =>
    rw [findStart] at hs
    split_ifs at hs with h1 h2
    · subst hs
      refine ⟨by omega, by omega, ?_⟩
      simpa using h2
    · obtain ⟨h3, h4, h5⟩ := ih (i + 1) hs
      exact ⟨by omega, h4, h5⟩
    · omega

/-- C20: on an input of bytes in which the search of mktable ends with `start`
not 0 (the run of identical bytes ends at index `start - 1`) and that has the
257 bytes after the run, when the 256 probe bytes are pairwise distinct mktable
returns a table `a` of 256 entries with `a[p(j)] = j` for every `j` in 0..255,
and the table is one to one and onto on the byte values. -/
theorem mktable_inverts_probe (b : List Nat) (start : Nat) (hb : ∀ x ∈ b, x < 256)
    (hs : findStart b b.length 10 = start) (h0 : start ≠ 0) (hlen : start + 256 < b.length)
    (hd : ∀ i j, i < 256 → j < 256 → probe b start i = probe b start j → i = j) :
    ∃ a, mktable b = .table a ∧ a.length = 256 ∧
      (∀ j, j < 256 → a.getD (probe b start j) 0 = j) ∧
      (∀ x y, x < 256 → y < 256 → a.getD x 0 = a.getD y 0 → x = y) ∧
      ∀ v, v < 256 → ∃ x, x < 256 ∧ a.getD x 0 = v := by
  have hp : ∀ i, i < 256 → probe b start i < 256 := by
    intro i hi
    have hlt : start + i + (if 39 ≤ i then 1 else 0) < b.length := by
      split_ifs <;> omega
    rw [probe, List.getD_eq_getElem?_getD, List.getElem?_eq_getElem hlt]
    exact hb _ (List.getElem_mem _)
  obtain ⟨t, ht, htl, hti⟩ := fillLoop_spec b start hb hlen hd 256 0 (List.replicate 256 0)
    (by omega) (List.length_replicate 256 0) (by intro i hi; omega)
  have ht0 : fillLoop b 256 0 start (List.replicate 256 0) = some t := ht
  refine ⟨t, ?_, htl, hti, table_bijective (probe b start) t hp hd hti⟩
  simp only [mktable, hs, if_neg h0, ht0]

/-- C20 at the sample input: the search ends with 11, the probe bytes are the
byte values from 255 down, and the table has the entry `j` at `255 - j`. -/
theorem mktable_inverts_probe_witness :
    ∃ a, mktable sampleProbe = .table a ∧ a.length = 256 ∧
      (∀ j, j < 256 → a.getD (probe sampleProbe 11 j) 0 = j) ∧
      (∀ x y, x < 256 → y < 256 → a.getD x 0 = a.getD y 0 → x = y) ∧
      ∀ v, v < 256 → ∃ x, x < 256 ∧ a.getD x 0 = v :=
  mktable_inverts_probe sampleProbe 11 (by decide) (by decide) (by decide) (by decide)
    (fun i j hi hj e => by
      rw [probe_sampleProbe i hi, probe_sampleProbe j hj] at e
      omega)

/-! ## The table is a bijection when the probe bytes are distinct -/

/-- C12 (refuted as stated): nothing in the code makes the table a bijection.
The declaration `var charMap [256]byte` alone is the table of 256 zero bytes,
and the table that mktable derives from an input whose probe repeats a byte is
no bijection: from 257 probe bytes of value 7 it is the table with 255 at
index 7 and 0 elsewhere, with the entry 0 at the indices 0 and 1. -/
theorem mktable_repeated_probe :
    mktable repeatedProbe = .table ((List.replicate 256 0).set 7 255) ∧
      tableMap ((List.replicate 256 0).set 7 255) 0 =
        tableMap ((List.replicate 256 0).set 7 255) 1 ∧
      tableMap (List.replicate 256 0) 0 = tableMap (List.replicate 256 0) 1 ∧
      (0 : Nat) ≠ 1 := by
  decide

/-- C12 (amended): the table `charMap` that mktable derives for `Unwrap` is a
bijection on the byte values when the 256 probe bytes of the input of mktable
are pairwise distinct: then two byte values with the same entry are the same,
and every byte value occurs exactly once among `charMap[0..255]`. -/
theorem charMap_bijection (b : List Nat) (start : Nat) (hb : ∀ x ∈ b, x < 256)
    (hs : findStart b b.length 10 = start) (h0 : start ≠ 0) (hlen : start + 256 < b.length)
    (hd : ∀ i j, i < 256 → j < 256 → probe b start i = probe b start j → i = j) :
    ∃ a, mktable b = .table a ∧ a.length = 256 ∧
      (∀ x y, x < 256 → y < 256 → tableMap a x = tableMap a y → x = y) ∧
      ∀ v, v < 256 → ((List.range 256).map (tableMap a)).count v = 1 := by
  have hp : ∀ i, i < 256 → probe b start i < 256 := by
    intro i hi
    have hlt : start + i + (if 39 ≤ i then 1 else 0) < b.length := by
      split_ifs <;> omega
    rw [probe, List.getD_eq_getElem?_getD, List.getElem?_eq_getElem hlt]
    exact hb _ (List.getElem_mem _)
  obtain ⟨t, ht, htl, hti⟩ := fillLoop_spec b start hb hlen hd 256 0 (List.replicate 256 0)
    (by omega) (List.length_replicate 256 0) (by intro i hi; omega)
  have ht0 : fillLoop b 256 0 start (List.replicate 256 0) = some t := ht
  obtain ⟨hinj, hsur⟩ := table_bijective (probe b start) t hp hd hti
  refine ⟨t, by simp only [mktable, hs, if_neg h0, ht0], htl, hinj, fun v hv => ?_⟩
  have hnd : ((List.range 256).map (tableMap t)).Nodup :=
    List.Nodup.map_on (fun x hx y hy e => hinj x y (List.mem_range.mp hx) (List.mem_range.mp hy) e)
      (List.nodup_range 256)
  obtain ⟨x, hx, hxv⟩ := hsur v hv
  exact List.count_eq_one_of_mem hnd (List.mem_map.mpr ⟨x, List.mem_range.mpr hx, hxv⟩)

/-- C12 at the sample input of mktable, whose probe bytes are the byte values
from 255 down. -/
theorem charMap_bijection_witness :
    ∃ a, mktable sampleProbe = .table a ∧ a.length = 256 ∧
      (∀ x y, x < 256 → y < 256 → tableMap a x = tableMap a y → x = y) ∧
      ∀ v, v < 256 → ((List.range 256).map (tableMap a)).count v = 1 :=
  charMap_bijection sampleProbe 11 (by decide) (by decide) (by decide) (by decide)
    (fun i j hi hj e => by
      rw [probe_sampleProbe i hi, probe_sampleProbe j hj] at e
      omega)

end PlsqlUnwrap
